import Mathlib

/-!
Verification of `src/walk.cc` (Knuth's Algorithm W / WalkSAT).

This file gives a shallow embedding of the solver's data model and of the
operations the claims are about, translated directly from the C++ source:

* the formula store (`Formula`, `clause_begin`, `clause_end`, `clauseLits`);
* the incremental solver state (`SState`) with `register_satisfied`,
  `register_unsatisfied`, the W5 flip (`flipStep` with `processLoss` and
  `processGain`), and the W1 initialization (`initState`);
* the driver loop (`loopOnce`, `solveLoop`, `solveFull`) consuming an explicit
  list of pseudo-random values, each in `[0, RANDMAX]`, standing for the
  successive results of `rand()`;
* the DIMACS clause-stream reader (`readClause`, `parseClauses`) and the main
  routine's dispatch (`mainModel`);
* the assignment printer (`printAssignment`);
* the W4 literal-selection scan both operationally (`chooseLitGo`, `coinScan`)
  and as a distribution transformer (`distStep`, `distRun`) in the spec's
  idealized model where `flip(p)` is a Bernoulli(p) coin.

Machine integers: `lit_t` literals become `Int`, clause indices become `Nat`,
the `clause_nil` sentinel in `w` becomes `Option Nat`, counters become `Int`.
All values reachable in the claims' scenarios are far from any 32/64-bit
bound, so no wrap-around arithmetic is modelled.
-/

/-- `var(l)` from types.h (missing from src; the spec defines `var(l) = |l|`). -/
def var (l : Int) : Nat := l.natAbs

/-- The immutable formula store of `struct Cnf`: the flat literal array
`clauses`, the clause index `start`, and the variable count `nvars`.
The clause count `nclauses` equals `start.length` after parsing
(`CHECK(c.start.size() == c.nclauses)`). -/
structure Formula where
  clauses : List Int
  start : List Nat
  nvars : Nat
deriving DecidableEq, Repr

/-- The number of clauses; the source keeps a separate `nclauses` field that
the parser checks equals `start.size()`. -/
def Formula.nclauses (F : Formula) : Nat := F.start.length

/-- `Cnf::clause_begin`. -/
def clause_begin (F : Formula) (c : Nat) : Nat := F.start.getD c 0

/-- `Cnf::clause_end`: `(c == start.size() - 1) ? clauses.size() : start[c + 1]`. -/
def clause_end (F : Formula) (c : Nat) : Nat :=
  if c = F.start.length - 1 then F.clauses.length else F.start.getD (c + 1) 0

/-- The literals of clause `c`, i.e. `clauses[clause_begin c .. clause_end c)`. -/
def clauseLits (F : Formula) (c : Nat) : List Int :=
  ((F.clauses).drop (clause_begin F c)).take (clause_end F c - clause_begin F c)

/-- The mutable solver state of `struct Cnf`: assignment `val` (one-indexed,
slot 0 unused), per-variable `cost`, per-clause `numtrue`, the unsatisfied
stack `f` and its reverse index `w` (`clause_nil` becomes `none`). -/
structure SState where
  val : List Bool
  cost : List Int
  numtrue : List Int
  f : List Nat
  w : List (Option Nat)
deriving DecidableEq, Repr

/-- `Cnf::is_true`. -/
def is_true (val : List Bool) (l : Int) : Bool :=
  let tv := val.getD (var l) false
  (tv && decide (l > 0)) || (!tv && decide (l < 0))

/-- `Cnf::is_satisfied`: some literal of the clause is true. -/
def is_satisfied (F : Formula) (val : List Bool) (c : Nat) : Bool :=
  (clauseLits F c).any (fun l => is_true val l)

/-- The number of true literals of clause `c`, counting multiplicity;
this is the quantity `numtrue[c]` tracks. -/
def trueCount (F : Formula) (val : List Bool) (c : Nat) : Nat :=
  (clauseLits F c).countP (fun l => is_true val l)

/-- The first true literal of clause `c` (the one the W5 scans find). -/
def firstTrue (F : Formula) (val : List Bool) (c : Nat) : Option Int :=
  (clauseLits F c).find? (fun l => is_true val l)

/-- Clause `k` has exactly one true literal and its variable is `v`
(`firstTrue` is then that unique literal). -/
def contrib (F : Formula) (val : List Bool) (k v : Nat) : Bool :=
  decide (trueCount F val k = 1) &&
    decide ((firstTrue F val k).map var = some v)

/-- The number of clauses whose unique true literal has variable `v`;
this is the quantity `cost[v]` is supposed to track. -/
def critCount (F : Formula) (val : List Bool) (v : Nat) : Nat :=
  (List.range F.nclauses).countP (fun k => contrib F val k v)

/-- The inverse-clause index `invclause[l]`: clause `k` appears once per
occurrence of the literal `l` in clause `k`, clauses in increasing order
(built this way by the W1 loop; it never changes afterwards). -/
def invclause (F : Formula) (l : Int) : List Nat :=
  (List.range F.nclauses).flatMap
    (fun k => List.replicate ((clauseLits F k).count l) k)

/-- `Cnf::register_satisfied`. The reverse index of the element at the back
of `f` is updated before `w[c]` is overwritten, exactly as in the source. -/
def register_satisfied (s : SState) (c : Nat) : SState :=
  match s.w.getD c none with
  | none => s
  | some i =>
    let last := s.f.getD (s.f.length - 1) 0
    let w1 := s.w.set last (some i)
    let f1 := (s.f.set i last).set (s.f.length - 1) (s.f.getD i 0)
    { s with w := w1.set c none, f := f1.dropLast }

/-- `Cnf::register_unsatisfied`. -/
def register_unsatisfied (s : SState) (c : Nat) : SState :=
  match s.w.getD c none with
  | some _ => s
  | none => { s with w := s.w.set c (some s.f.length), f := s.f ++ [c] }

/-- One iteration of the first W5 update loop (`for i in invclause[pos]`):
clause `i` lost a true literal. `v` is `var(choice)`. -/
def processLoss (F : Formula) (v : Nat) (s : SState) (i : Nat) : SState :=
  let nt := s.numtrue.getD i 0 - 1
  let s1 := { s with numtrue := s.numtrue.set i nt }
  if nt = 0 then
    let s2 := register_unsatisfied s1 i
    { s2 with cost := s2.cost.set v (s2.cost.getD v 0 - 1) }
  else if nt = 1 then
    match (clauseLits F i).find? (fun l => is_true s1.val l) with
    | some l => { s1 with cost := s1.cost.set (var l) (s1.cost.getD (var l) 0 + 1) }
    | none => s1
  else s1

/-- One iteration of the second W5 update loop (`for i in invclause[neg]`):
clause `i` gained a true literal. `v` is `var(choice)`. -/
def processGain (F : Formula) (v : Nat) (neg : Int) (s : SState) (i : Nat) : SState :=
  let nt := s.numtrue.getD i 0 + 1
  let s1 := { s with numtrue := s.numtrue.set i nt }
  if nt = 1 then
    let s2 := register_satisfied s1 i
    { s2 with cost := s2.cost.set v (s2.cost.getD v 0 + 1) }
  else if nt = 2 then
    match (clauseLits F i).find? (fun l => !(l == neg) && is_true s1.val l) with
    | some l => { s1 with cost := s1.cost.set (var l) (s1.cost.getD (var l) 0 - 1) }
    | none => s1
  else s1

/-- Step W5: flip `choice` and update all derived state incrementally. -/
def flipStep (F : Formula) (s : SState) (choice : Int) : SState :=
  let v := var choice
  let pos := if s.val.getD v false = decide (choice > 0) then choice else -choice
  let neg := -pos
  let s1 := { s with val := s.val.set v (!s.val.getD v false) }
  let s2 := (invclause F pos).foldl (processLoss F v) s1
  (invclause F neg).foldl (processGain F v neg) s2

/-- The body of the W1 initialization loop for clause `i`: count the true
literals, remember the last true literal's variable `tl`, then fill `f`/`w`
(if unsatisfied) or `cost` (if exactly one true literal). -/
def initClause (F : Formula) (s : SState) (i : Nat) : SState :=
  let lits := clauseLits F i
  let nt := lits.countP (fun l => is_true s.val l)
  let tl := ((lits.filter (fun l => is_true s.val l)).getLast?).map var |>.getD 0
  let s1 := { s with numtrue := s.numtrue.set i (nt : Int) }
  if nt = 0 then
    { s1 with w := s1.w.set i (some s1.f.length), f := s1.f ++ [i] }
  else if nt = 1 then
    { s1 with cost := s1.cost.set tl (s1.cost.getD tl 0 + 1) }
  else s1

/-- The state at the end of W1, for a given initial assignment `val`
(the random assignment is abstracted as a parameter; `s` starts from the
zero-initialized vectors of the `Cnf` constructor). -/
def initState (F : Formula) (val : List Bool) : SState :=
  (List.range F.nclauses).foldl (initClause F)
    { val := val
      cost := List.replicate (F.nvars + 1) 0
      numtrue := List.replicate F.nclauses 0
      f := []
      w := List.replicate F.nclauses none }

/-- `RAND_MAX` of the target platform (glibc). -/
def RANDMAX : Nat := 2147483647

/-- `flip(p)`: `rand()/RAND_MAX <= p` for the drawn value `r`, with the
real-valued division modelled over `ℚ` (the source uses `float`). -/
def flipR (r : Nat) (p : ℚ) : Bool := decide ((r : ℚ) / (RANDMAX : ℚ) ≤ p)

/-- `PARAM_initial_bias = 0.1`. -/
def initialBias : ℚ := 1 / 10

/-- `PARAM_non_greedy_choice = 0.65`. -/
def nonGreedyChoice : ℚ := 13 / 20

/-- The W1 assignment initialization: one `flip(initial_bias)` draw per
variable `1..nvars`, consuming the pseudo-random stream; `none` when the
stream is exhausted. -/
def initVal : Nat → List Nat → Option (List Bool × List Nat)
  | 0, rs => some ([], rs)
  | _ + 1, [] => none
  | n + 1, r :: rs =>
    (initVal n rs).map (fun p => (flipR r initialBias :: p.1, p.2))

/-- The W3 rejection-sampling loop: `divisor = (RAND_MAX + 1) / n`, then draw
`q = rand() / divisor` until `q < n`. Returns the accepted `q` and the rest
of the stream, or `none` when the stream runs out. -/
def chooseQ (n : Nat) : List Nat → Option (Nat × List Nat)
  | [] => none
  | r :: rs =>
    let divisor := (RANDMAX + 1) / n
    let q := r / divisor
    if q < n then some (q, rs) else chooseQ n rs

/-- The updated `min_cost` after the W4 scan reads a literal of cost `c`:
`if (cost < min_cost) min_cost = cost` (`none` is the initial
`numeric_limits::max()` sentinel, which every actual cost is below). -/
def w4min (m0 : Option Int) (c : Int) : Int :=
  match m0 with
  | none => c
  | some m => if c < m then c else m

/-- The W4 reservoir-counter reset test: the cost was a new minimum and
`!all || min_cost == 0` (with `min_cost` already updated). -/
def w4reset (all : Bool) (m0 : Option Int) (c : Int) : Bool :=
  (match m0 with
   | none => true
   | some m => decide (c < m)) && (!all || decide (w4min m0 c = 0))

/-- The W4 participation test `(all && min_cost > 0) || cost == min_cost`
(with `min_cost` already updated). -/
def w4part (all : Bool) (m0 : Option Int) (c : Int) : Bool :=
  (all && decide (0 < w4min m0 c)) || decide (c = w4min m0 c)

/-- The reservoir counter after the reset test. -/
def w4k (all : Bool) (m0 : Option Int) (c : Int) (k : Nat) : Nat :=
  if w4reset all m0 c then 1 else k

/-- The W4 scan over the literals of the chosen clause, threading
`min_cost`, the reservoir counter `k` and `choice`, consuming one `rand()`
draw per `flip(1.0/k)` call. Returns `none` when the stream runs out. -/
def chooseLitGo (all : Bool) (cost : List Int) :
    List Int → Option Int → Option Int → Nat → List Nat →
    Option (Option Int × List Nat)
  | [], _, choice, _, rs => some (choice, rs)
  | l :: ls, minCost, choice, k, rs =>
    if w4part all minCost (cost.getD (var l) 0) then
      match rs with
      | [] => none
      | r :: rs1 =>
        chooseLitGo all cost ls (some (w4min minCost (cost.getD (var l) 0)))
          (if flipR r (1 / (w4k all minCost (cost.getD (var l) 0) k : ℚ))
            then some l else choice)
          (w4k all minCost (cost.getD (var l) 0) k + 1) rs1
    else
      chooseLitGo all cost ls (some (w4min minCost (cost.getD (var l) 0))) choice
        (w4k all minCost (cost.getD (var l) 0) k) rs

/-- One iteration of the solver loop below the W2 test: W3 clause choice,
the `all` coin, the W4 literal choice (aborting, like `CHECK(choice !=
lit_nil)`, if no literal was chosen), then the W5 flip. Returns the flipped
literal together with the new state and the rest of the stream. -/
def loopOnce (F : Formula) (s : SState) (rs : List Nat) :
    Option (Int × SState × List Nat) :=
  match chooseQ s.f.length rs with
  | none => none
  | some (q, rs1) =>
    match rs1 with
    | [] => none
    | rA :: rs2 =>
      match chooseLitGo (flipR rA nonGreedyChoice) s.cost
        (clauseLits F (s.f.getD q 0)) none none 1 rs2 with
      | none => none
      | some (none, _) => none
      | some (some choice, rs3) => some (choice, flipStep F s choice, rs3)

/-- The `while (true)` loop of `solve`, with explicit fuel; `none` means the
run was cut off (out of fuel or out of random draws), `some` is an actual
return of `solve`. -/
def solveLoop (F : Formula) : Nat → SState → List Nat → Option (Bool × SState)
  | 0, _, _ => none
  | fuel + 1, s, rs =>
    if s.f.isEmpty then some (true, s)
    else
      match loopOnce F s rs with
      | none => none
      | some (_, s', rs') => solveLoop F fuel s' rs'

/-- The sequence of flipped literals of a run (the solver's flip trace). -/
def flipTrace (F : Formula) : Nat → SState → List Nat → List Int
  | 0, _, _ => []
  | fuel + 1, s, rs =>
    if s.f.isEmpty then []
    else
      match loopOnce F s rs with
      | none => []
      | some (choice, s', rs') => choice :: flipTrace F fuel s' rs'

/-- `solve`: W1 initialization (random assignment from the stream, then the
clause scan) followed by the loop. -/
def solveFull (F : Formula) (fuel : Nat) (rs : List Nat) : Option (Bool × SState) :=
  match initVal F.nvars rs with
  | none => none
  | some (coins, rs1) => solveLoop F fuel (initState F (false :: coins)) rs1

/-- The states of the solver at a loop boundary (between the W2 test and the
end of W5): the state at the end of W1, and any state obtained from a
boundary state by one full W3-W5 iteration with some random draws. -/
inductive Reachable (F : Formula) : SState → Prop
  | init (val : List Bool) (h : val.length = F.nvars + 1) :
      Reachable F (initState F val)
  | step (s : SState) (rs : List Nat) (choice : Int) (s' : SState)
      (rs' : List Nat) (h : Reachable F s)
      (hs : loopOnce F s rs = some (choice, s', rs')) :
      Reachable F s'

/-- Well-formedness of the formula store (spec section 3): every literal
names a variable in `1..nvars`. -/
def WfFormula (F : Formula) : Prop :=
  ∀ l ∈ F.clauses, 1 ≤ var l ∧ var l ≤ F.nvars

/-- Each clause mentions each variable at most once (no duplicated literal
and no tautological pair). -/
def VarNodup (F : Formula) : Prop :=
  ∀ k < F.nclauses, ((clauseLits F k).map var).Nodup

/-- The clause-reading loop of `parse`, over the stream of integers after
the problem line, with `acc` the literals of the round in progress. A `0`
with `acc` still empty is the `UNSAT_EXIT` (`nc != EOF && start ==
c.clauses.size()`), returned as `none`; a `0` after literals records the
clause; end of input records a trailing unterminated clause if the round
read literals and otherwise just ends the loop (`if (!read_lit) break`). -/
def parseAux : List Int → List Int → Option (List (List Int))
  | acc, [] => if acc.isEmpty then some [] else some [acc]
  | acc, t :: rest =>
    if t = 0 then
      if acc.isEmpty then none
      else (parseAux [] rest).map (fun cs => acc :: cs)
    else parseAux (acc ++ [t]) rest

/-- The whole clause-reading phase of `parse`: `none` is the UNSAT exit on
an empty clause. -/
def parseClauses (toks : List Int) : Option (List (List Int)) :=
  parseAux [] toks

/-- A `0` token with no preceding literal in its clause: position `i` holds
a `0` and is either first or right after another `0`. -/
def hasEmptyClause (toks : List Int) : Prop :=
  ∃ i < toks.length, toks.getD i 1 = 0 ∧ (i = 0 ∨ toks.getD (i - 1) 1 = 0)

/-- Rebuild the formula store the way `parse` fills it: `clauses` grows by
each clause in order and `start` records the offset at each round's start. -/
def buildFormula (nvars : Nat) (cls : List (List Int)) : Formula :=
  { clauses := cls.flatten
    start := ((cls.map List.length).scanl (· + ·) 0).dropLast
    nvars := nvars }

/-- Observable outcome of a run of `main`. -/
inductive RunResult
  | unsat
  | sat (val : List Bool)
  | looping
  | aborted
deriving DecidableEq, Repr

/-- `main` after flag parsing, with the solver abstracted as a parameter:
parse (UNSAT exit on an empty clause; `CHECK` abort on a clause-count
mismatch), then `if (c.clauses.empty() || solve(&c)) SAT_EXIT(&c)`, where
the short-circuit skips the solver when the clause array is empty and the
assignment is still the zero-initialized one from the `Cnf` constructor. -/
def mainModel (solver : Formula → Option (List Bool)) (nvars nclauses : Nat)
    (toks : List Int) : RunResult :=
  match parseClauses toks with
  | none => RunResult.unsat
  | some cls =>
    if cls.length ≠ nclauses then RunResult.aborted
    else
      let F := buildFormula nvars cls
      if F.clauses.isEmpty then RunResult.sat (List.replicate (nvars + 1) false)
      else
        match solver F with
        | some v => RunResult.sat v
        | none => RunResult.looping

/-- `Cnf::print_assignment`: variable `i` contributes a `"v"` prefix when it
starts a group of 10, then `" -i"` if `val[i]` is true and `" i"` otherwise,
then `" 0"` plus newline after the last variable or a newline after each
group of 10. -/
def printAssignment (nvars : Nat) (val : List Bool) : String :=
  String.join ((List.range nvars).map (fun j =>
    let i := j + 1
    (if j % 10 = 0 then "v" else "") ++
    (if val.getD i false then " -" else " ") ++ toString i ++
    (if i = nvars then " 0\n" else if i % 10 = 0 then "\n" else "")))

/-- The minimum of a list of costs, `none` for the empty list (mirroring the
`numeric_limits::max()` sentinel of the W4 scan). -/
def minO : List Int → Option Int
  | [] => none
  | c :: cs =>
    match minO cs with
    | none => some c
    | some m => some (min c m)

/-- How many entries of `cs` attain `minO cs`. -/
def countMin (cs : List Int) : Nat :=
  match minO cs with
  | none => 0
  | some m => cs.count m

/-- State of the W4 scan in the distribution semantics: the running
`min_cost`, the distribution `mu` of `choice` (over clause positions,
`none` standing for `lit_nil`), the reservoir counter `k`, and the position
counter `idx`. -/
structure DState where
  minC : Option Int
  mu : Option Nat → ℚ
  k : Nat
  idx : Nat

/-- The W4 scan body for one literal of cost `c`, with the source's
`if (flip(1.0/k)) choice = ...` interpreted as the Bernoulli(1/k) mixture
the spec prescribes for `flip` (a uniform variate in `[0,1]` compared to
`1/k`): with probability `1/k` the choice becomes this position, otherwise
it is left alone. `min_cost` and `k` evolve deterministically exactly as in
the source. -/
def distStep (all : Bool) (d : DState) (c : Int) : DState :=
  if w4part all d.minC c then
    { minC := some (w4min d.minC c)
      mu := fun r =>
        (1 / (w4k all d.minC c d.k : ℚ)) * (if r = some d.idx then 1 else 0) +
          (1 - 1 / (w4k all d.minC c d.k : ℚ)) * d.mu r
      k := w4k all d.minC c d.k + 1
      idx := d.idx + 1 }
  else
    { minC := some (w4min d.minC c), mu := d.mu,
      k := w4k all d.minC c d.k, idx := d.idx + 1 }

/-- The W4 scan over a whole cost list, in the distribution semantics. -/
def distRun (all : Bool) (cs : List Int) (d : DState) : DState :=
  cs.foldl (distStep all) d

/-- The initial W4 state: `min_cost` at its sentinel, `choice = lit_nil`
surely, `k = 1`, at position 0. -/
def dInit : DState :=
  { minC := none, mu := fun r => if r = none then 1 else 0, k := 1, idx := 0 }

/-- The costs the W4 scan reads: `cost[var(clauses[itr])]` for each literal
of clause `k`. -/
def w4Costs (F : Formula) (cost : List Int) (k : Nat) : List Int :=
  (clauseLits F k).map (fun l => cost.getD (var l) 0)

/-- Number of `flip(1.0/k)` draws the W4 scan makes on `cs` from a given
scan state: one per literal passing the participation test (which does not
depend on the drawn coins). -/
def npart (all : Bool) : List Int → Option Int → Nat
  | [], _ => 0
  | c :: cs, minCost =>
    if w4part all minCost c then npart all cs (some (w4min minCost c)) + 1
    else npart all cs (some (w4min minCost c))

/-- The W4 scan with the outcomes of the `flip(1.0/k)` calls given as a list
of booleans (consumed only at participating literals), returning the chosen
position. -/
def coinScan (all : Bool) :
    List Int → Option Int → Option Nat → Nat → Nat → List Bool → Option Nat
  | [], _, choice, _, _, _ => choice
  | c :: cs, minCost, choice, k, idx, coins =>
    if w4part all minCost c then
      match coins with
      | [] =>
        coinScan all cs (some (w4min minCost c)) choice
          (w4k all minCost c k + 1) (idx + 1) []
      | b :: coins1 =>
        coinScan all cs (some (w4min minCost c)) (if b then some idx else choice)
          (w4k all minCost c k + 1) (idx + 1) coins1
    else
      coinScan all cs (some (w4min minCost c)) choice
        (w4k all minCost c k) (idx + 1) coins

/-- The probability weight of a given list of coin outcomes for the W4 scan:
the coin at a participating literal with counter `k` has weight `1/k` when
true and `1 - 1/k` when false. -/
def coinWgt (all : Bool) : List Int → Option Int → Nat → List Bool → ℚ
  | [], _, _, _ => 1
  | c :: cs, minCost, k, coins =>
    if w4part all minCost c then
      match coins with
      | [] =>
        coinWgt all cs (some (w4min minCost c)) (w4k all minCost c k + 1) []
      | b :: coins1 =>
        (if b then 1 / (w4k all minCost c k : ℚ)
         else 1 - 1 / (w4k all minCost c k : ℚ)) *
          coinWgt all cs (some (w4min minCost c)) (w4k all minCost c k + 1) coins1
    else coinWgt all cs (some (w4min minCost c)) (w4k all minCost c k) coins

/-- All lists of booleans of length `n` (the sample space of the coin
outcomes of one W4 scan). -/
def allBoolLists : Nat → List (List Bool)
  | 0 => [[]]
  | n + 1 => (allBoolLists n).flatMap (fun l => [true :: l, false :: l])

/-- The probability that the W4 scan on cost list `cs` ends with `choice`
landing on `r`: the total weight of the coin-outcome lists driving the scan
to `r`. -/
def probOf (all : Bool) (cs : List Int) (r : Option Nat) : ℚ :=
  ((allBoolLists (npart all cs none)).map (fun coins =>
    coinWgt all cs none 1 coins *
      (if coinScan all cs none none 1 0 coins = r then 1 else 0))).sum

/-- Modelled from the spec: the pseudo-random generator behind `srand` and
`rand` (glibc, not part of src). Any deterministic generator represents it;
a linear congruential step is used. -/
def prngNext (s : Nat) : Nat := (1103515245 * s + 12345) % 2147483648

/-- Modelled from the spec: the first `n` values of `rand()` after
`srand(seed)`. -/
def prngList (seed : Nat) : Nat → List Nat
  | 0 => []
  | n + 1 => prngNext seed % (RANDMAX + 1) :: prngList (prngNext seed) n

/-- The seeding logic of the `Cnf` constructor:
`if (FLAGS_seed == 0) FLAGS_seed = time(NULL); srand(FLAGS_seed);`, with the
wall-clock reading as an explicit input. -/
def effectiveSeed (seed wallclock : Nat) : Nat :=
  if seed = 0 then wallclock else seed

/-- A full run of `solve` as `main` invokes it: the PRNG is seeded from the
seed flag (or the wall clock when the flag is 0) and all draws come from
that single stream. -/
def runSolve (F : Formula) (seed wallclock fuel draws : Nat) :
    Option (Bool × SState) :=
  solveFull F fuel (prngList (effectiveSeed seed wallclock) draws)

/-- The flip trace of a full run (initial assignment draws included). -/
def runTrace (F : Formula) (seed wallclock fuel draws : Nat) : List Int :=
  match initVal F.nvars (prngList (effectiveSeed seed wallclock) draws) with
  | none => []
  | some (coins, rs1) => flipTrace F fuel (initState F (false :: coins)) rs1

/-- The vectors of the solver state have the sizes the `Cnf` constructor
gives them. -/
def LenInv (F : Formula) (s : SState) : Prop :=
  s.val.length = F.nvars + 1 ∧ s.cost.length = F.nvars + 1 ∧
    s.numtrue.length = F.nclauses ∧ s.w.length = F.nclauses

/-- `numtrue[k]` is the number of true literals of clause `k`, counting
multiplicity. -/
def NumtrueInv (F : Formula) (s : SState) : Prop :=
  ∀ k < F.nclauses, s.numtrue.getD k 0 = (trueCount F s.val k : Int)

/-- The two-way linkage of the unsatisfied stack `f` and its reverse index
`w`: `w[k] = i` implies `f[i] = k`, and `w[f[i]] = i` for every position of
`f`. -/
def FwLinks (s : SState) : Prop :=
  (∀ k i, s.w.getD k none = some i → i < s.f.length ∧ s.f.getD i 0 = k) ∧
    (∀ i < s.f.length, s.w.getD (s.f.getD i 0) none = some i)

/-- A clause is in the unsatisfied stack exactly when it has no true
literal. -/
def ZeroIffInF (F : Formula) (s : SState) : Prop :=
  ∀ k < F.nclauses, (s.numtrue.getD k 0 = 0 ↔ s.w.getD k none ≠ none)

/-- The invariant of claims C1/C3: sizes, `numtrue` correctness, and the
`f`/`w` structure. -/
def StateInv (F : Formula) (s : SState) : Prop :=
  LenInv F s ∧ NumtrueInv F s ∧ FwLinks s ∧ ZeroIffInF F s

/-- The cost invariant of claim C2. -/
def CostInv (F : Formula) (s : SState) : Prop :=
  ∀ v, 1 ≤ v → v ≤ F.nvars → s.cost.getD v 0 = (critCount F s.val v : Int)

/-- A two-clause formula with a duplicated literal: `(x1 OR x1) AND (NOT
x1)`, used to exhibit the failure of the cost invariant under duplicated
literals. -/
def Fdup : Formula := { clauses := [1, 1, -1], start := [0, 2], nvars := 1 }

/-- Random draws driving one W3-W5 iteration of `solve` on `Fdup` from the
all-false assignment: accept clause index 0, draw `all = false`, keep the
first literal of the clause as `choice`. -/
def rsDup : List Nat := [0, 2147483647, 0, 2147483647]

/-- The state after that iteration: `x1` was flipped to true, clause 0 now
has `numtrue = 2`, clause 1 is unsatisfied, and `cost[1]` was left at 1
although no clause has a unique true literal. -/
def sDup : SState :=
  { val := [false, true], cost := [0, 1], numtrue := [2, 0], f := [1],
    w := [none, some 0] }

/-- The one-clause formula `(x1)`. -/
def Fone : Formula := { clauses := [1], start := [0], nvars := 1 }

/-- A small state with two unsatisfied clauses (5 and 7), used to exercise
the swap-remove step of `register_satisfied` concretely. -/
def sSwap : SState :=
  { val := [], cost := [], numtrue := [],
    f := [5, 7],
    w := [none, none, none, none, none, some 0, none, some 1] }

/-- Draws for a terminating run on `Fone`: initial assignment false, pick
clause 0, `all = false`, choose literal `1`. -/
def rsOne : List Nat := [2147483647, 0, 2147483647, 0]

/-- The reservoir-sampling invariant of the W4 scan in the distribution
semantics, after the costs `hist` have been processed (all costs
non-negative): `idx` and `min_cost` track the history; before any literal
the choice is surely `lit_nil`; in `all` mode with a positive minimum every
literal seen is equally likely; otherwise the choice is uniform over the
positions attaining the minimum. -/
def PhiW4 (all : Bool) (hist : List Int) (d : DState) : Prop :=
  d.idx = hist.length ∧ d.minC = minO hist ∧
    (hist = [] → d.k = 1 ∧ ∀ r, d.mu r = if r = none then 1 else 0) ∧
    (∀ m, minO hist = some m →
      ((all = true ∧ 0 < m) →
        d.k = hist.length + 1 ∧ d.mu none = 0 ∧
          ∀ j, d.mu (some j) =
            if j < hist.length then (hist.length : ℚ)⁻¹ else 0) ∧
      ((all = false ∨ m = 0) →
        d.k = hist.count m + 1 ∧ d.mu none = 0 ∧
          ∀ j, d.mu (some j) =
            if j < hist.length ∧ hist.getD j 1 = m then (hist.count m : ℚ)⁻¹
            else 0))

/-!
### List utilities
-/

theorem getD_set_self {α : Type} (l : List α) (i : Nat) (a d : α)
    (h : i < l.length) : (l.set i a).getD i d = a := by
  simp [List.getD_eq_getElem?_getD, List.getElem?_set_self, h]

theorem getD_set_ne {α : Type} (l : List α) (i j : Nat) (a d : α)
    (h : i ≠ j) : (l.set i a).getD j d = l.getD j d := by
  simp [List.getD_eq_getElem?_getD, List.getElem?_set_ne h]

theorem getD_append_self {α : Type} (l : List α) (x d : α) :
    (l ++ [x]).getD l.length d = x := by
  simp [List.getD_eq_getElem?_getD]

theorem getD_append_left {α : Type} (l : List α) (x d : α) (i : Nat)
    (h : i < l.length) : (l ++ [x]).getD i d = l.getD i d := by
  simp [List.getD_eq_getElem?_getD, List.getElem?_append_left h]

theorem getD_dropLast {α : Type} (l : List α) (i : Nat) (d : α)
    (h : i < l.length - 1) : l.dropLast.getD i d = l.getD i d := by
  simp only [List.getD_eq_getElem?_getD]
  rw [List.getElem?_dropLast]
  simp [h]

theorem dropLast_set_last {α : Type} (l : List α) (x : α) :
    (l.set (l.length - 1) x).dropLast = l.dropLast := by
  rcases Nat.eq_zero_or_pos l.length with h | h
  · simp [List.eq_nil_of_length_eq_zero h]
  · apply List.ext_getElem
    · simp
    · intro i h1 h2
      simp only [List.getElem_dropLast]
      rw [List.getElem_set_ne]
      simp [List.length_dropLast] at h1
      omega

theorem mem_iff_getD {α : Type} (l : List α) (a d : α) :
    a ∈ l ↔ ∃ i, i < l.length ∧ l.getD i d = a := by
  constructor
  · intro h
    rcases List.mem_iff_getElem.mp h with ⟨i, hi, he⟩
    exact ⟨i, hi, by rw [List.getD_eq_getElem l d hi]; exact he⟩
  · rintro ⟨i, hi, he⟩
    rw [List.getD_eq_getElem l d hi] at he
    exact he ▸ List.getElem_mem hi

theorem find?_of_countP_one {α : Type} (p : α → Bool) (l : List α) (x : α)
    (h : l.countP p = 1) (hx : x ∈ l) (hpx : p x = true) :
    l.find? p = some x := by
  induction l with
  | nil => cases hx
  | cons y t ih =>
    by_cases hy : p y = true
    · rw [List.find?_cons_of_pos _ hy]
      rw [List.countP_cons, hy] at h
      simp only [if_true, reduceIte] at h
      rcases List.mem_cons.mp hx with rfl | hxt
      · rfl
      · exfalso
        have h2 : 0 < t.countP p := List.countP_pos_iff.mpr ⟨x, hxt, hpx⟩
        omega
    · rw [List.find?_cons_of_neg _ hy]
      rw [List.countP_cons] at h
      simp [hy] at h
      rcases List.mem_cons.mp hx with rfl | hxt
      · exact absurd hpx hy
      · exact ih h hxt

theorem find?_congr_on {α : Type} (p q : α → Bool) (l : List α)
    (h : ∀ x ∈ l, p x = q x) : l.find? p = l.find? q := by
  induction l with
  | nil => rfl
  | cons y t ih =>
    have hy := h y (List.mem_cons_self y t)
    by_cases hp : p y = true
    · rw [List.find?_cons_of_pos _ hp, List.find?_cons_of_pos _ (hy ▸ hp)]
    · rw [List.find?_cons_of_neg _ hp,
        List.find?_cons_of_neg _ (by rw [← hy]; exact hp)]
      exact ih (fun x hx => h x (List.mem_cons_of_mem y hx))

theorem count_le_countP {α : Type} [DecidableEq α] (l : List α) (a : α)
    (p : α → Bool) (h : p a = true) : l.count a ≤ l.countP p := by
  induction l with
  | nil => simp
  | cons y t ih =>
    rw [List.count_cons, List.countP_cons]
    by_cases hy : y = a
    · simp [hy, h]
      omega
    · simp [hy]
      omega

theorem countP_int_sum (l : List Nat) (g : Nat → Bool) :
    ((l.countP g : Int)) = (l.map (fun k => if g k then (1 : Int) else 0)).sum := by
  induction l with
  | nil => simp
  | cons y t ih =>
    rw [List.countP_cons]
    by_cases hy : g y
    · simp [hy, ih]
      ring
    · simp [hy, ih]

theorem length_eq_countP_range (f : List Nat) (n : Nat) (p : Nat → Bool)
    (hnd : f.Nodup) (hm : ∀ j, j ∈ f ↔ (j < n ∧ p j = true)) :
    f.length = (List.range n).countP p := by
  rw [List.countP_eq_length_filter]
  have hperm : f.Perm ((List.range n).filter p) := by
    rw [List.perm_ext_iff_of_nodup hnd ((List.nodup_range n).filter p)]
    intro a
    rw [hm a, List.mem_filter, List.mem_range]
  exact hperm.length_eq

/-!
### Truth-value facts for the flip
-/

theorem is_true_zero (val : List Bool) : is_true val 0 = false := by
  simp [is_true]

theorem is_true_decide (val : List Bool) (l : Int) (hl : l ≠ 0) :
    is_true val l = decide (val.getD (var l) false = decide (0 < l)) := by
  unfold is_true
  rcases lt_trichotomy l 0 with h | h | h
  · cases hb : val.getD (var l) false <;>
      simp [hb, h, not_lt_of_lt h, le_of_lt h]
  · exact absurd h hl
  · cases hb : val.getD (var l) false <;>
      simp [hb, h, not_lt_of_lt h, le_of_lt h]

theorem is_true_set_other (val : List Bool) (v : Nat) (bnew : Bool) (l : Int)
    (h : var l ≠ v) : is_true (val.set v bnew) l = is_true val l := by
  unfold is_true
  rw [getD_set_ne]
  omega

theorem var_neg (l : Int) : var (-l) = var l := by
  simp [var]

/-- The basic facts about `pos` and `neg` in step W5: `pos` is the literal
form of the flipped variable that is true before the flip and false after,
`neg` the converse, and these are the only literal forms of that variable. -/
theorem flip_facts (val : List Bool) (choice : Int) (v : Nat)
    (hvar : var choice = v) (hv1 : 1 ≤ v) (hvlen : v < val.length) :
    var (if val.getD v false = decide (0 < choice) then choice else -choice) = v ∧
    is_true val (if val.getD v false = decide (0 < choice) then choice else -choice) = true ∧
    is_true val (-(if val.getD v false = decide (0 < choice) then choice else -choice)) = false ∧
    is_true (val.set v (!val.getD v false))
      (if val.getD v false = decide (0 < choice) then choice else -choice) = false ∧
    is_true (val.set v (!val.getD v false))
      (-(if val.getD v false = decide (0 < choice) then choice else -choice)) = true ∧
    (∀ l : Int, var l = v →
      l = (if val.getD v false = decide (0 < choice) then choice else -choice) ∨
      l = -(if val.getD v false = decide (0 < choice) then choice else -choice)) := by
  have hch : choice ≠ 0 := by
    intro h
    rw [h] at hvar
    simp [var] at hvar
    omega
  set b := val.getD v false with hb
  set pos : Int := if b = decide (0 < choice) then choice else -choice with hpos
  have hvp : var pos = v := by
    rw [hpos]
    by_cases hc : b = decide (0 < choice) <;> simp [hc, var_neg, hvar]
  have hpz : pos ≠ 0 := by
    rw [hpos]
    by_cases hc : b = decide (0 < choice) <;> simp [hc] <;> exact hch
  have hsign : decide (0 < pos) = b := by
    rw [hpos]
    by_cases hc : b = decide (0 < choice)
    · simp [hc]
    · have hb2 : b = !decide (0 < choice) := by
        cases hhb : b <;> cases hd : decide (0 < choice) <;>
          simp [hhb, hd] at hc ⊢
      simp only [if_neg hc]
      rw [hb2]
      rcases lt_trichotomy choice 0 with h | h | h
      · have h1 : (0 : Int) < -choice := by omega
        have h2 : ¬(0 : Int) < choice := by omega
        simp [h1, h2]
      · exact absurd h hch
      · have h1 : ¬(0 : Int) < -choice := by omega
        simp [h, h1]
  have hnsign : decide (0 < -pos) = !b := by
    rcases lt_trichotomy pos 0 with h | h | h
    · have h1 : (0 : Int) < -pos := by omega
      have h2 : ¬(0 : Int) < pos := by omega
      rw [← hsign]
      simp [h1, h2]
    · exact absurd h hpz
    · have h1 : ¬(0 : Int) < -pos := by omega
      rw [← hsign]
      simp [h, h1]
  have hgd : (val.set v (!b)).getD v false = !b := getD_set_self val v (!b) false hvlen
  refine ⟨hvp, ?_, ?_, ?_, ?_, ?_⟩
  · rw [is_true_decide val pos hpz, hvp, ← hb, hsign]
    simp
  · rw [is_true_decide val (-pos) (by simpa using hpz), var_neg, hvp, ← hb, hnsign]
    cases b <;> simp
  · rw [is_true_decide _ pos hpz, hvp, hgd, hsign]
    cases b <;> simp
  · rw [is_true_decide _ (-pos) (by simpa using hpz), var_neg, hvp, hgd, hnsign]
    simp
  · intro l hl
    have : l.natAbs = pos.natAbs := by
      simp only [var] at hl hvp
      omega
    rcases Int.natAbs_eq_natAbs_iff.mp this with h | h
    · exact Or.inl h
    · exact Or.inr h

/-- How the true-literal count of any clause changes across the flip. -/
theorem countP_flip (L : List Int) (valA valB : List Bool) (pos : Int)
    (hpz : pos ≠ 0)
    (hA : is_true valA pos = true) (hB : is_true valB pos = false)
    (hA2 : is_true valA (-pos) = false) (hB2 : is_true valB (-pos) = true)
    (hother : ∀ l : Int, l ≠ pos → l ≠ -pos → is_true valB l = is_true valA l) :
    L.countP (fun l => is_true valB l) + L.count pos =
      L.countP (fun l => is_true valA l) + L.count (-pos) := by
  induction L with
  | nil => simp
  | cons y t ih =>
    rw [List.countP_cons, List.countP_cons, List.count_cons, List.count_cons]
    by_cases h1 : y = pos
    · subst h1
      have hne : ¬(y = -y) := by
        intro h
        omega
      simp [hA, hB, hne]
      omega
    · by_cases h2 : y = -pos
      · subst h2
        have hne : ¬(-pos = pos) := by
          intro h
          omega
        simp [hA2, hB2, hne]
        omega
      · rw [hother y h1 h2]
        simp [h1, h2]
        omega

/-!
### The unsatisfied stack: `register_unsatisfied` and `register_satisfied`
-/

theorem regUnsat_spec (s : SState) (c : Nat)
    (hw : s.w.getD c none = none) (hc : c < s.w.length) :
    (register_unsatisfied s c).val = s.val ∧
    (register_unsatisfied s c).cost = s.cost ∧
    (register_unsatisfied s c).numtrue = s.numtrue ∧
    (register_unsatisfied s c).f = s.f ++ [c] ∧
    (register_unsatisfied s c).w.length = s.w.length ∧
    (register_unsatisfied s c).w.getD c none = some s.f.length ∧
    (∀ k, k ≠ c → (register_unsatisfied s c).w.getD k none = s.w.getD k none) := by
  unfold register_unsatisfied
  rw [hw]
  refine ⟨rfl, rfl, rfl, rfl, by simp, ?_, ?_⟩
  · exact getD_set_self s.w c (some s.f.length) none hc
  · intro k hk
    exact getD_set_ne s.w c k (some s.f.length) none (fun h => hk h.symm)

theorem regUnsat_links (s : SState) (c : Nat) (hl : FwLinks s)
    (hw : s.w.getD c none = none) (hc : c < s.w.length) :
    FwLinks (register_unsatisfied s c) := by
  obtain ⟨-, -, -, hf, -, hwc, hwk⟩ := regUnsat_spec s c hw hc
  constructor
  · intro k i hki
    rw [hf, List.length_append, List.length_singleton]
    by_cases hkc : k = c
    · subst hkc
      rw [hwc] at hki
      injection hki with hki
      subst hki
      exact ⟨by omega, getD_append_self s.f k 0⟩
    · rw [hwk k hkc] at hki
      obtain ⟨h1, h2⟩ := hl.1 k i hki
      exact ⟨by omega, by rw [getD_append_left s.f c 0 i h1]; exact h2⟩
  · intro i hi
    rw [hf, List.length_append, List.length_singleton] at hi
    rw [hf]
    by_cases hin : i = s.f.length
    · subst hin
      rw [getD_append_self s.f c 0, hwc]
    · have hilt : i < s.f.length := by omega
      rw [getD_append_left s.f c 0 i hilt]
      have hx := hl.2 i hilt
      have hne : s.f.getD i 0 ≠ c := by
        intro h
        rw [h, hw] at hx
        cases hx
      rw [hwk _ hne]
      exact hx

/-- Full characterization of `register_satisfied` under the `f`/`w`
linkage: one swap-remove step, with the reverse index of the swapped-in
element updated and `w[c]` cleared. -/
theorem regSat_spec (s : SState) (c : Nat) (i : Nat) (hl : FwLinks s)
    (hw : s.w.getD c none = some i) :
    (register_satisfied s c).val = s.val ∧
    (register_satisfied s c).cost = s.cost ∧
    (register_satisfied s c).numtrue = s.numtrue ∧
    (register_satisfied s c).f.length = s.f.length - 1 ∧
    (register_satisfied s c).w.length = s.w.length ∧
    (∀ k, (register_satisfied s c).w.getD k none =
      if k = c then none
      else if k = s.f.getD (s.f.length - 1) 0 then some i
      else s.w.getD k none) ∧
    (∀ j, j < s.f.length - 1 → (register_satisfied s c).f.getD j 0 =
      if j = i then s.f.getD (s.f.length - 1) 0 else s.f.getD j 0) := by
  obtain ⟨hi, hfi⟩ := hl.1 c i hw
  have hn1 : 1 ≤ s.f.length := by omega
  have hcw : c < s.w.length := by
    by_contra h
    rw [List.getD_eq_default _ _ (by omega)] at hw
    cases hw
  set n := s.f.length with hn
  set last := s.f.getD (n - 1) 0 with hlast
  have hwlast : s.w.getD last none = some (n - 1) := hl.2 (n - 1) (by omega)
  have hlastlt : last < s.w.length := by
    by_contra h
    rw [List.getD_eq_default _ _ (by omega)] at hwlast
    cases hwlast
  unfold register_satisfied
  rw [hw]
  refine ⟨rfl, rfl, rfl, ?_, ?_, ?_, ?_⟩
  · simp [← hn]
  · simp
  · intro k
    show ((s.w.set last (some i)).set c none).getD k none = _
    by_cases hkc : k = c
    · rw [if_pos hkc, hkc]
      exact getD_set_self _ c none none (by simpa using hcw)
    · rw [if_neg hkc, getD_set_ne _ c k none none (fun h => hkc h.symm)]
      by_cases hkl : k = last
      · rw [if_pos hkl, hkl]
        exact getD_set_self s.w last (some i) none hlastlt
      · rw [if_neg hkl]
        exact getD_set_ne s.w last k (some i) none (fun h => hkl h.symm)
  · intro j hj
    show ((s.f.set i last).set (s.f.length - 1) (s.f.getD i 0)).dropLast.getD j 0 = _
    have hdl : ((s.f.set i last).set (s.f.length - 1) (s.f.getD i 0)).dropLast =
        (s.f.set i last).dropLast := by
      have h2 := dropLast_set_last (s.f.set i last) (s.f.getD i 0)
      simpa using h2
    rw [hdl, getD_dropLast _ j 0 (by simp [← hn]; omega)]
    by_cases hji : j = i
    · rw [if_pos hji, hji]
      exact getD_set_self s.f i last 0 (by omega)
    · rw [if_neg hji]
      exact getD_set_ne s.f i j last 0 (fun h => hji h.symm)

theorem regSat_links (s : SState) (c : Nat) (i : Nat) (hl : FwLinks s)
    (hw : s.w.getD c none = some i) :
    FwLinks (register_satisfied s c) := by
  obtain ⟨hi, hfi⟩ := hl.1 c i hw
  obtain ⟨-, -, -, hflen, -, hwch, hfch⟩ := regSat_spec s c i hl hw
  have hwlast : s.w.getD (s.f.getD (s.f.length - 1) 0) none =
      some (s.f.length - 1) := hl.2 (s.f.length - 1) (by omega)
  constructor
  · intro k j hkj
    rw [hwch k] at hkj
    by_cases hkc : k = c
    · rw [if_pos hkc] at hkj
      cases hkj
    · rw [if_neg hkc] at hkj
      by_cases hkl : k = s.f.getD (s.f.length - 1) 0
      · rw [if_pos hkl] at hkj
        injection hkj with hkj
        subst hkj
        have hine : i ≠ s.f.length - 1 := by
          intro h
          rw [h, ← hkl] at hfi
          exact hkc hfi
        have hjlt : i < s.f.length - 1 := by omega
        rw [hflen, hfch i hjlt, if_pos rfl]
        exact ⟨hjlt, hkl.symm⟩
      · rw [if_neg hkl] at hkj
        obtain ⟨hj1, hj2⟩ := hl.1 k j hkj
        have hjne : j ≠ s.f.length - 1 := by
          intro h
          rw [h] at hj2
          exact hkl hj2.symm
        have hjlt : j < s.f.length - 1 := by omega
        have hji : j ≠ i := by
          intro h
          rw [h] at hj2
          rw [hfi] at hj2
          exact hkc hj2.symm
        rw [hflen, hfch j hjlt, if_neg hji]
        exact ⟨hjlt, hj2⟩
  · intro j hj
    rw [hflen] at hj
    rw [hfch j hj, hwch]
    by_cases hji : j = i
    · rw [if_pos hji]
      have hlne : s.f.getD (s.f.length - 1) 0 ≠ c := by
        intro h
        rw [h] at hwlast
        rw [hwlast] at hw
        injection hw with hw
        omega
      rw [if_neg hlne, if_pos rfl, hji]
    · rw [if_neg hji]
      have hx := hl.2 j (by omega)
      have hne1 : s.f.getD j 0 ≠ c := by
        intro h
        rw [h, hw] at hx
        injection hx with hx
        exact hji hx.symm
      have hne2 : s.f.getD j 0 ≠ s.f.getD (s.f.length - 1) 0 := by
        intro h
        rw [h, hwlast] at hx
        injection hx with hx
        omega
      rw [if_neg hne1, if_neg hne2]
      exact hx

theorem regSat_mem (s : SState) (c : Nat) (i : Nat) (hl : FwLinks s)
    (hw : s.w.getD c none = some i) :
    ∀ j, j ∈ (register_satisfied s c).f ↔ (j ∈ s.f ∧ j ≠ c) := by
  obtain ⟨hi, hfi⟩ := hl.1 c i hw
  obtain ⟨-, -, -, hflen, -, hwch, hfch⟩ := regSat_spec s c i hl hw
  have hwlast : s.w.getD (s.f.getD (s.f.length - 1) 0) none =
      some (s.f.length - 1) := hl.2 (s.f.length - 1) (by omega)
  intro j
  constructor
  · intro hjm
    rcases (mem_iff_getD _ j 0).mp hjm with ⟨idx, hidx, hidxe⟩
    rw [hflen] at hidx
    rw [hfch idx hidx] at hidxe
    by_cases hixi : idx = i
    · rw [if_pos hixi] at hidxe
      subst hidxe
      refine ⟨(mem_iff_getD _ _ 0).mpr ⟨s.f.length - 1, by omega, rfl⟩, ?_⟩
      intro h
      rw [h] at hwlast
      rw [hwlast] at hw
      injection hw with hw
      omega
    · rw [if_neg hixi] at hidxe
      subst hidxe
      refine ⟨(mem_iff_getD _ _ 0).mpr ⟨idx, by omega, rfl⟩, ?_⟩
      intro h
      have hx := hl.2 idx (by omega)
      rw [h, hw] at hx
      injection hx with hx
      exact hixi hx.symm
  · rintro ⟨hjm, hjc⟩
    rcases (mem_iff_getD _ j 0).mp hjm with ⟨idx, hidx, hidxe⟩
    have hx := hl.2 idx hidx
    rw [hidxe] at hx
    have hii : idx ≠ i := by
      intro h
      rw [h] at hidxe
      rw [hfi] at hidxe
      exact hjc hidxe.symm
    by_cases hlst : idx = s.f.length - 1
    · have hine : i ≠ s.f.length - 1 := by omega
      have hilt : i < s.f.length - 1 := by omega
      refine (mem_iff_getD _ j 0).mpr ⟨i, by rw [hflen]; exact hilt, ?_⟩
      rw [hfch i hilt, if_pos rfl, ← hlst, hidxe]
    · have hilt : idx < s.f.length - 1 := by omega
      refine (mem_iff_getD _ j 0).mpr ⟨idx, by rw [hflen]; exact hilt, ?_⟩
      rw [hfch idx hilt, if_neg hii, hidxe]

theorem fwlinks_nodup (s : SState) (hl : FwLinks s) : s.f.Nodup := by
  rw [List.nodup_iff_injective_getElem]
  intro a b hab
  have ha := hl.2 a.1 a.2
  have hb := hl.2 b.1 b.2
  rw [List.getD_eq_getElem s.f 0 a.2] at ha
  rw [List.getD_eq_getElem s.f 0 b.2] at hb
  simp only at hab
  rw [hab, hb] at ha
  injection ha with ha
  exact Fin.ext ha.symm

/-- Claim C5: for every clause `c` with `w[c] ≠ nil` and the `f`/`w` linkage
holding beforehand, `register_satisfied(c)` removes `c` from `f` (shrinking
`f` by exactly one), sets `w[c]` to nil, updates the reverse index of the
element swapped into the vacated slot (the old back of `f`) before anything
is overwritten for the removed clause, and leaves `f[w[j]] = j` for every
clause `j` still in `f` — including the case where `c` is the last element
of `f`. -/
theorem walk_C5 (s : SState) (c i : Nat) (hl : FwLinks s)
    (hw : s.w.getD c none = some i) :
    (register_satisfied s c).f.length = s.f.length - 1 ∧
    1 ≤ s.f.length ∧
    (register_satisfied s c).w.getD c none = none ∧
    (∀ j, j ∈ (register_satisfied s c).f ↔ (j ∈ s.f ∧ j ≠ c)) ∧
    FwLinks (register_satisfied s c) ∧
    (s.f.getD (s.f.length - 1) 0 ≠ c →
      (register_satisfied s c).w.getD (s.f.getD (s.f.length - 1) 0) none =
        some i) := by
  obtain ⟨hi, hfi⟩ := hl.1 c i hw
  obtain ⟨-, -, -, hflen, -, hwch, -⟩ := regSat_spec s c i hl hw
  refine ⟨hflen, by omega, ?_, regSat_mem s c i hl hw, regSat_links s c i hl hw, ?_⟩
  · rw [hwch c, if_pos rfl]
  · intro hlc
    rw [hwch _, if_neg hlc, if_pos rfl]

/-- Witness for C5 at a concrete state: removing clause 5 (not the last
element, so the swap is nontrivial) from the stack `[5, 7]`. -/
theorem walk_C5_witness :
    (register_satisfied sSwap 5).f.length = 1 ∧
    (register_satisfied sSwap 5).w.getD 5 none = none ∧
    (7 ∈ (register_satisfied sSwap 5).f ∧ ¬5 ∈ (register_satisfied sSwap 5).f) ∧
    (register_satisfied sSwap 5).w.getD 7 none = some 0 := by
  have hl : FwLinks sSwap := by
    constructor
    · intro k j hkj
      by_cases hk : k < 8
      · interval_cases k <;> simp [sSwap, List.getD] at hkj <;> simp [sSwap, ← hkj]
      · rw [List.getD_eq_default _ _ (by simp [sSwap]; omega)] at hkj
        cases hkj
    · intro idx hidx
      simp [sSwap] at hidx
      interval_cases idx <;> decide
  have h := walk_C5 sSwap 5 0 hl (by decide)
  refine ⟨h.1, h.2.2.1, ?_, ?_⟩
  · constructor
    · exact (h.2.2.2.1 7).mpr ⟨by decide, by decide⟩
    · intro hmem
      exact absurd ((h.2.2.2.1 5).mp hmem).2 (by decide)
  · have := h.2.2.2.2.2 (by decide)
    simpa [sSwap] using this

/-!
### The inverse-clause index
-/

theorem count_flatMap_replicate (xs : List Nat) (g : Nat → Nat) (j : Nat)
    (hnd : xs.Nodup) :
    ((xs.flatMap (fun k => List.replicate (g k) k)).count j) =
      if j ∈ xs then g j else 0 := by
  induction xs with
  | nil => simp
  | cons y t ih =>
    rw [List.flatMap_cons, List.count_append]
    have hnd2 := List.nodup_cons.mp hnd
    rw [ih hnd2.2, List.count_replicate]
    by_cases hjy : j = y
    · subst hjy
      simp [hnd2.1]
    · simp [hjy, Ne.symm hjy]

theorem invclause_count (F : Formula) (l : Int) (k : Nat) :
    (invclause F l).count k =
      if k < F.nclauses then (clauseLits F k).count l else 0 := by
  unfold invclause
  rw [count_flatMap_replicate _ _ _ (List.nodup_range _)]
  simp [List.mem_range]

theorem invclause_mem (F : Formula) (l : Int) (k : Nat) :
    k ∈ invclause F l ↔ (k < F.nclauses ∧ l ∈ clauseLits F k) := by
  rw [← List.count_pos_iff, invclause_count]
  by_cases hk : k < F.nclauses
  · simp [hk, List.count_pos_iff]
  · simp [hk]

theorem clauseLits_subset (F : Formula) (k : Nat) :
    ∀ l ∈ clauseLits F k, l ∈ F.clauses := by
  intro l hl
  unfold clauseLits at hl
  exact List.mem_of_mem_drop (List.mem_of_mem_take hl)

/-!
### One entry of the W5 update loops
-/

theorem stepLoss (F : Formula) (v : Nat) (s : SState) (i : Nat)
    (hwl : s.w.length = F.nclauses) (hnl : s.numtrue.length = F.nclauses)
    (hi : i < F.nclauses) (hpos : 1 ≤ s.numtrue.getD i 0)
    (hl : FwLinks s) (hz : ZeroIffInF F s) :
    (processLoss F v s i).val = s.val ∧
    (processLoss F v s i).w.length = F.nclauses ∧
    (processLoss F v s i).numtrue.length = F.nclauses ∧
    (processLoss F v s i).cost.length = s.cost.length ∧
    (processLoss F v s i).numtrue.getD i 0 = s.numtrue.getD i 0 - 1 ∧
    (∀ k, k ≠ i → (processLoss F v s i).numtrue.getD k 0 = s.numtrue.getD k 0) ∧
    FwLinks (processLoss F v s i) ∧ ZeroIffInF F (processLoss F v s i) := by
  have hilen : i < s.numtrue.length := by omega
  have hwi0 : s.w.getD i none = none := by
    by_contra hne
    have := (hz i hi).mpr hne
    omega
  have hs1get : ({ s with numtrue := s.numtrue.set i (s.numtrue.getD i 0 - 1) }
      : SState).numtrue.getD i 0 = s.numtrue.getD i 0 - 1 :=
    getD_set_self _ _ _ _ hilen
  have hs1getk : ∀ k, k ≠ i →
      ({ s with numtrue := s.numtrue.set i (s.numtrue.getD i 0 - 1) }
        : SState).numtrue.getD k 0 = s.numtrue.getD k 0 :=
    fun k hk => getD_set_ne _ _ _ _ _ (fun h => hk h.symm)
  have hl1 : FwLinks
      ({ s with numtrue := s.numtrue.set i (s.numtrue.getD i 0 - 1) } : SState) := hl
  by_cases h0 : s.numtrue.getD i 0 - 1 = 0
  · have hred : processLoss F v s i =
        { register_unsatisfied
            { s with numtrue := s.numtrue.set i (s.numtrue.getD i 0 - 1) } i with
          cost := (register_unsatisfied
            { s with numtrue := s.numtrue.set i (s.numtrue.getD i 0 - 1) } i).cost.set v
            ((register_unsatisfied
              { s with numtrue := s.numtrue.set i (s.numtrue.getD i 0 - 1) } i).cost.getD v 0 - 1) } := by
      unfold processLoss
      rw [if_pos h0]
    obtain ⟨hv2, hc2, hn2, hf2, hwlen2, hwc2, hwk2⟩ :=
      regUnsat_spec { s with numtrue := s.numtrue.set i (s.numtrue.getD i 0 - 1) } i
        hwi0 (by simp; omega)
    have hlk2 : FwLinks (register_unsatisfied
        { s with numtrue := s.numtrue.set i (s.numtrue.getD i 0 - 1) } i) :=
      regUnsat_links _ i hl1 hwi0 (by simp; omega)
    rw [hred]
    refine ⟨by rw [hv2], by rw [hwlen2]; simp; omega, ?_, ?_, ?_, ?_, ?_, ?_⟩
    · rw [hn2]
      simp
      omega
    · rw [hc2]
      simp
    · rw [hn2, hs1get]
    · intro k hk
      rw [hn2]
      exact hs1getk k hk
    · exact hlk2
    · intro k hk
      by_cases hki : k = i
      · subst hki
        rw [hn2, hs1get, hwc2]
        constructor
        · intro _
          simp
        · intro _
          omega
      · rw [hn2, hs1getk k hki, hwk2 k hki]
        exact hz k hk
  · have hznew : ∀ k, k < F.nclauses →
        (({ s with numtrue := s.numtrue.set i (s.numtrue.getD i 0 - 1) }
          : SState).numtrue.getD k 0 = 0 ↔
         ({ s with numtrue := s.numtrue.set i (s.numtrue.getD i 0 - 1) }
          : SState).w.getD k none ≠ none) := by
      intro k hk
      by_cases hki : k = i
      · subst hki
        rw [hs1get]
        constructor
        · intro h
          exact absurd h h0
        · intro h
          exact absurd ((hz k hk).mpr h) (by omega)
      · rw [hs1getk k hki]
        exact hz k hk
    by_cases h1 : s.numtrue.getD i 0 - 1 = 1
    · have hred : processLoss F v s i =
          match (clauseLits F i).find? (fun l => is_true
            ({ s with numtrue := s.numtrue.set i (s.numtrue.getD i 0 - 1) }
              : SState).val l) with
          | some l =>
            { ({ s with numtrue := s.numtrue.set i (s.numtrue.getD i 0 - 1) }
                : SState) with
              cost := s.cost.set (var l) (s.cost.getD (var l) 0 + 1) }
          | none =>
            { s with numtrue := s.numtrue.set i (s.numtrue.getD i 0 - 1) } := by
        unfold processLoss
        rw [if_neg h0, if_pos h1]
      rw [hred]
      rcases hfind : (clauseLits F i).find? (fun l => is_true
          ({ s with numtrue := s.numtrue.set i (s.numtrue.getD i 0 - 1) }
            : SState).val l) with - | l
      · exact ⟨rfl, by simp; omega, by simp; omega, by simp,
          hs1get, hs1getk, hl1, hznew⟩
      · exact ⟨rfl, by simp; omega, by simp; omega, by simp,
          hs1get, hs1getk, hl1, hznew⟩
    · have hred : processLoss F v s i =
          { s with numtrue := s.numtrue.set i (s.numtrue.getD i 0 - 1) } := by
        unfold processLoss
        rw [if_neg h0, if_neg h1]
      rw [hred]
      exact ⟨rfl, by simp; omega, by simp; omega, by simp,
        hs1get, hs1getk, hl1, hznew⟩

theorem stepGain (F : Formula) (v : Nat) (neg : Int) (s : SState) (i : Nat)
    (hwl : s.w.length = F.nclauses) (hnl : s.numtrue.length = F.nclauses)
    (hi : i < F.nclauses) (hnn : 0 ≤ s.numtrue.getD i 0)
    (hl : FwLinks s) (hz : ZeroIffInF F s) :
    (processGain F v neg s i).val = s.val ∧
    (processGain F v neg s i).w.length = F.nclauses ∧
    (processGain F v neg s i).numtrue.length = F.nclauses ∧
    (processGain F v neg s i).cost.length = s.cost.length ∧
    (processGain F v neg s i).numtrue.getD i 0 = s.numtrue.getD i 0 + 1 ∧
    (∀ k, k ≠ i → (processGain F v neg s i).numtrue.getD k 0 = s.numtrue.getD k 0) ∧
    FwLinks (processGain F v neg s i) ∧ ZeroIffInF F (processGain F v neg s i) := by
  have hilen : i < s.numtrue.length := by omega
  have hs1get : ({ s with numtrue := s.numtrue.set i (s.numtrue.getD i 0 + 1) }
      : SState).numtrue.getD i 0 = s.numtrue.getD i 0 + 1 :=
    getD_set_self _ _ _ _ hilen
  have hs1getk : ∀ k, k ≠ i →
      ({ s with numtrue := s.numtrue.set i (s.numtrue.getD i 0 + 1) }
        : SState).numtrue.getD k 0 = s.numtrue.getD k 0 :=
    fun k hk => getD_set_ne _ _ _ _ _ (fun h => hk h.symm)
  have hl1 : FwLinks
      ({ s with numtrue := s.numtrue.set i (s.numtrue.getD i 0 + 1) } : SState) := hl
  by_cases h0 : s.numtrue.getD i 0 + 1 = 1
  · have hzi : s.numtrue.getD i 0 = 0 := by omega
    have hwi : ({ s with numtrue := s.numtrue.set i (s.numtrue.getD i 0 + 1) }
        : SState).w.getD i none ≠ none := (hz i hi).mp hzi
    rcases hidx : ({ s with numtrue := s.numtrue.set i (s.numtrue.getD i 0 + 1) }
        : SState).w.getD i none with - | idx
    · exact absurd hidx hwi
    · have hred : processGain F v neg s i =
          { register_satisfied
              { s with numtrue := s.numtrue.set i (s.numtrue.getD i 0 + 1) } i with
            cost := (register_satisfied
              { s with numtrue := s.numtrue.set i (s.numtrue.getD i 0 + 1) } i).cost.set v
              ((register_satisfied
                { s with numtrue := s.numtrue.set i (s.numtrue.getD i 0 + 1) } i).cost.getD v 0 + 1) } := by
        unfold processGain
        rw [if_pos h0]
      obtain ⟨hv2, hc2, hn2, hf2, hwlen2, hwch2, hfch2⟩ :=
        regSat_spec { s with numtrue := s.numtrue.set i (s.numtrue.getD i 0 + 1) } i
          idx hl1 hidx
      have hlk2 := regSat_links
        { s with numtrue := s.numtrue.set i (s.numtrue.getD i 0 + 1) } i idx hl1 hidx
      obtain ⟨hii, hfidx⟩ := hl1.1 i idx hidx
      have hwlast : ({ s with numtrue := s.numtrue.set i (s.numtrue.getD i 0 + 1) }
          : SState).w.getD
            (({ s with numtrue := s.numtrue.set i (s.numtrue.getD i 0 + 1) }
              : SState).f.getD
              (({ s with numtrue := s.numtrue.set i (s.numtrue.getD i 0 + 1) }
                : SState).f.length - 1) 0) none =
          some (({ s with numtrue := s.numtrue.set i (s.numtrue.getD i 0 + 1) }
            : SState).f.length - 1) :=
        hl1.2 _ (by omega)
      rw [hred]
      refine ⟨by rw [hv2], by rw [hwlen2]; simp; omega, ?_, ?_, ?_, ?_, ?_, ?_⟩
      · rw [hn2]
        simp
        omega
      · rw [hc2]
        simp
      · rw [hn2, hs1get]
      · intro k hk
        rw [hn2]
        exact hs1getk k hk
      · exact hlk2
      · intro k hk
        rw [hn2]
        by_cases hki : k = i
        · subst hki
          rw [hs1get, hwch2 k, if_pos rfl]
          constructor
          · intro hcon
            omega
          · intro hcon
            exact absurd rfl hcon
        · rw [hs1getk k hki, hwch2 k, if_neg hki]
          by_cases hkl : k = ({ s with numtrue := s.numtrue.set i (s.numtrue.getD i 0 + 1) }
              : SState).f.getD
              (({ s with numtrue := s.numtrue.set i (s.numtrue.getD i 0 + 1) }
                : SState).f.length - 1) 0
          · rw [if_pos hkl]
            rw [hz k hk]
            constructor
            · intro _
              simp
            · intro _
              rw [hkl]
              rw [hwlast]
              simp
          · rw [if_neg hkl]
            exact hz k hk
  · have hznew : ∀ k, k < F.nclauses →
        (({ s with numtrue := s.numtrue.set i (s.numtrue.getD i 0 + 1) }
          : SState).numtrue.getD k 0 = 0 ↔
         ({ s with numtrue := s.numtrue.set i (s.numtrue.getD i 0 + 1) }
          : SState).w.getD k none ≠ none) := by
      intro k hk
      by_cases hki : k = i
      · subst hki
        rw [hs1get]
        constructor
        · intro h
          omega
        · intro h
          have := (hz k hk).mpr h
          omega
      · rw [hs1getk k hki]
        exact hz k hk
    by_cases h1 : s.numtrue.getD i 0 + 1 = 2
    · have hred : processGain F v neg s i =
          match (clauseLits F i).find? (fun l => !(l == neg) && is_true
            ({ s with numtrue := s.numtrue.set i (s.numtrue.getD i 0 + 1) }
              : SState).val l) with
          | some l =>
            { ({ s with numtrue := s.numtrue.set i (s.numtrue.getD i 0 + 1) }
                : SState) with
              cost := s.cost.set (var l) (s.cost.getD (var l) 0 - 1) }
          | none =>
            { s with numtrue := s.numtrue.set i (s.numtrue.getD i 0 + 1) } := by
        unfold processGain
        rw [if_neg h0, if_pos h1]
      rw [hred]
      rcases hfind : (clauseLits F i).find? (fun l => !(l == neg) && is_true
          ({ s with numtrue := s.numtrue.set i (s.numtrue.getD i 0 + 1) }
            : SState).val l) with - | l
      · exact ⟨rfl, by simp; omega, by simp; omega, by simp,
          hs1get, hs1getk, hl1, hznew⟩
      · exact ⟨rfl, by simp; omega, by simp; omega, by simp,
          hs1get, hs1getk, hl1, hznew⟩
    · have hred : processGain F v neg s i =
          { s with numtrue := s.numtrue.set i (s.numtrue.getD i 0 + 1) } := by
        unfold processGain
        rw [if_neg h0, if_neg h1]
      rw [hred]
      exact ⟨rfl, by simp; omega, by simp; omega, by simp,
        hs1get, hs1getk, hl1, hznew⟩

/-!
### The whole W5 update loops
-/

theorem foldLoss (F : Formula) (v : Nat) (L : List Nat) :
    ∀ s : SState,
    (∀ k ∈ L, k < F.nclauses) →
    s.w.length = F.nclauses → s.numtrue.length = F.nclauses →
    (∀ k, k < F.nclauses → (L.count k : Int) ≤ s.numtrue.getD k 0) →
    FwLinks s → ZeroIffInF F s →
    (L.foldl (processLoss F v) s).val = s.val ∧
    (L.foldl (processLoss F v) s).w.length = F.nclauses ∧
    (L.foldl (processLoss F v) s).numtrue.length = F.nclauses ∧
    (L.foldl (processLoss F v) s).cost.length = s.cost.length ∧
    (∀ k, (L.foldl (processLoss F v) s).numtrue.getD k 0 =
      s.numtrue.getD k 0 - (L.count k : Int)) ∧
    FwLinks (L.foldl (processLoss F v) s) ∧
    ZeroIffInF F (L.foldl (processLoss F v) s) := by
  induction L with
  | nil =>
    intro s hmem hwl hnl hcnt hl hz
    exact ⟨rfl, hwl, hnl, rfl, by simp, hl, hz⟩
  | cons i t ih =>
    intro s hmem hwl hnl hcnt hl hz
    have hi : i < F.nclauses := hmem i (List.mem_cons_self i t)
    have hcnti : (1 : Int) ≤ s.numtrue.getD i 0 := by
      have := hcnt i hi
      rw [List.count_cons_self] at this
      have hc : (0 : Int) ≤ (t.count i : Int) := by positivity
      omega
    obtain ⟨hval, hwl2, hnl2, hcl2, hgi, hgk, hl2, hz2⟩ :=
      stepLoss F v s i hwl hnl hi hcnti hl hz
    have hcnt2 : ∀ k, k < F.nclauses →
        (t.count k : Int) ≤ (processLoss F v s i).numtrue.getD k 0 := by
      intro k hk
      by_cases hki : k = i
      · subst hki
        rw [hgi]
        have := hcnt k hk
        rw [List.count_cons_self] at this
        push_cast at this ⊢
        omega
      · rw [hgk k hki]
        have := hcnt k hk
        rw [List.count_cons_of_ne hki] at this
        exact this
    obtain ⟨hval3, hwl3, hnl3, hcl3, hg3, hl3, hz3⟩ :=
      ih (processLoss F v s i)
        (fun k hk => hmem k (List.mem_cons_of_mem i hk)) hwl2 hnl2 hcnt2 hl2 hz2
    rw [List.foldl_cons]
    refine ⟨by rw [hval3, hval], hwl3, hnl3, by rw [hcl3, hcl2], ?_, hl3, hz3⟩
    intro k
    rw [hg3 k]
    by_cases hki : k = i
    · subst hki
      rw [hgi, List.count_cons_self]
      push_cast
      ring
    · rw [hgk k hki, List.count_cons_of_ne hki]

theorem foldGain (F : Formula) (v : Nat) (neg : Int) (L : List Nat) :
    ∀ s : SState,
    (∀ k ∈ L, k < F.nclauses) →
    s.w.length = F.nclauses → s.numtrue.length = F.nclauses →
    (∀ k, k < F.nclauses → 0 ≤ s.numtrue.getD k 0) →
    FwLinks s → ZeroIffInF F s →
    (L.foldl (processGain F v neg) s).val = s.val ∧
    (L.foldl (processGain F v neg) s).w.length = F.nclauses ∧
    (L.foldl (processGain F v neg) s).numtrue.length = F.nclauses ∧
    (L.foldl (processGain F v neg) s).cost.length = s.cost.length ∧
    (∀ k, (L.foldl (processGain F v neg) s).numtrue.getD k 0 =
      s.numtrue.getD k 0 + (L.count k : Int)) ∧
    FwLinks (L.foldl (processGain F v neg) s) ∧
    ZeroIffInF F (L.foldl (processGain F v neg) s) := by
  induction L with
  | nil =>
    intro s hmem hwl hnl hnn hl hz
    exact ⟨rfl, hwl, hnl, rfl, by simp, hl, hz⟩
  | cons i t ih =>
    intro s hmem hwl hnl hnn hl hz
    have hi : i < F.nclauses := hmem i (List.mem_cons_self i t)
    obtain ⟨hval, hwl2, hnl2, hcl2, hgi, hgk, hl2, hz2⟩ :=
      stepGain F v neg s i hwl hnl hi (hnn i hi) hl hz
    have hnn2 : ∀ k, k < F.nclauses → 0 ≤ (processGain F v neg s i).numtrue.getD k 0 := by
      intro k hk
      by_cases hki : k = i
      · subst hki
        rw [hgi]
        have := hnn k hk
        omega
      · rw [hgk k hki]
        exact hnn k hk
    obtain ⟨hval3, hwl3, hnl3, hcl3, hg3, hl3, hz3⟩ :=
      ih (processGain F v neg s i)
        (fun k hk => hmem k (List.mem_cons_of_mem i hk)) hwl2 hnl2 hnn2 hl2 hz2
    rw [List.foldl_cons]
    refine ⟨by rw [hval3, hval], hwl3, hnl3, by rw [hcl3, hcl2], ?_, hl3, hz3⟩
    intro k
    rw [hg3 k]
    by_cases hki : k = i
    · subst hki
      rw [hgi, List.count_cons_self]
      push_cast
      ring
    · rw [hgk k hki, List.count_cons_of_ne hki]

/-- The two W5 update loops restore the `numtrue`, `f`, `w` invariants with
respect to the flipped assignment, for an arbitrary formula (duplicated
literals included). `s1` is the state right after `val[v]` was flipped:
its `numtrue` still counts under the old assignment `valOld`. -/
theorem flip_inv_aux (F : Formula) (s1 : SState) (pos : Int) (v : Nat)
    (valOld : List Bool) (hpz : pos ≠ 0)
    (hwlen : s1.w.length = F.nclauses) (hnlen : s1.numtrue.length = F.nclauses)
    (hl : FwLinks s1) (hz : ZeroIffInF F s1)
    (hnum : ∀ k, k < F.nclauses → s1.numtrue.getD k 0 = (trueCount F valOld k : Int))
    (hA : is_true valOld pos = true) (hA2 : is_true valOld (-pos) = false)
    (hB : is_true s1.val pos = false) (hB2 : is_true s1.val (-pos) = true)
    (hoth : ∀ l : Int, l ≠ pos → l ≠ -pos → is_true s1.val l = is_true valOld l) :
    ((invclause F (-pos)).foldl (processGain F v (-pos))
      ((invclause F pos).foldl (processLoss F v) s1)).val = s1.val ∧
    ((invclause F (-pos)).foldl (processGain F v (-pos))
      ((invclause F pos).foldl (processLoss F v) s1)).w.length = F.nclauses ∧
    ((invclause F (-pos)).foldl (processGain F v (-pos))
      ((invclause F pos).foldl (processLoss F v) s1)).numtrue.length = F.nclauses ∧
    ((invclause F (-pos)).foldl (processGain F v (-pos))
      ((invclause F pos).foldl (processLoss F v) s1)).cost.length = s1.cost.length ∧
    (∀ k, k < F.nclauses →
      ((invclause F (-pos)).foldl (processGain F v (-pos))
        ((invclause F pos).foldl (processLoss F v) s1)).numtrue.getD k 0 =
        (trueCount F s1.val k : Int)) ∧
    FwLinks ((invclause F (-pos)).foldl (processGain F v (-pos))
      ((invclause F pos).foldl (processLoss F v) s1)) ∧
    ZeroIffInF F ((invclause F (-pos)).foldl (processGain F v (-pos))
      ((invclause F pos).foldl (processLoss F v) s1)) := by
  have hcountA : ∀ k, k < F.nclauses →
      ((invclause F pos).count k : Int) = ((clauseLits F k).count pos : Int) := by
    intro k hk
    rw [invclause_count, if_pos hk]
  have hcountB : ∀ k, k < F.nclauses →
      ((invclause F (-pos)).count k : Int) = ((clauseLits F k).count (-pos) : Int) := by
    intro k hk
    rw [invclause_count, if_pos hk]
  have hposle : ∀ k, k < F.nclauses →
      ((clauseLits F k).count pos : Int) ≤ (trueCount F valOld k : Int) := by
    intro k hk
    unfold trueCount
    exact_mod_cast count_le_countP (clauseLits F k) pos _ hA
  obtain ⟨hval2, hwl2, hnl2, hcl2, hg2, hl2, hz2⟩ :=
    foldLoss F v (invclause F pos) s1
      (fun k hk => ((invclause_mem F pos k).mp hk).1) hwlen hnlen
      (by
        intro k hk
        rw [hcountA k hk, hnum k hk]
        exact hposle k hk)
      hl hz
  have hnnB : ∀ k, k < F.nclauses →
      0 ≤ ((invclause F pos).foldl (processLoss F v) s1).numtrue.getD k 0 := by
    intro k hk
    rw [hg2 k, hnum k hk, hcountA k hk]
    have := hposle k hk
    omega
  obtain ⟨hval3, hwl3, hnl3, hcl3, hg3, hl3, hz3⟩ :=
    foldGain F v (-pos) (invclause F (-pos))
      ((invclause F pos).foldl (processLoss F v) s1)
      (fun k hk => ((invclause_mem F (-pos) k).mp hk).1) hwl2 hnl2 hnnB hl2 hz2
  refine ⟨by rw [hval3, hval2], hwl3, hnl3, by rw [hcl3, hcl2], ?_, hl3, hz3⟩
  intro k hk
  rw [hg3 k, hg2 k, hnum k hk, hcountA k hk, hcountB k hk]
  have hflip := countP_flip (clauseLits F k) valOld s1.val pos hpz hA hB hA2 hB2 hoth
  unfold trueCount
  push_cast at hflip
  omega

/-- Step W5 preserves the sizes, `numtrue` and `f`/`w` invariants, for any
formula and any chosen literal over a valid variable. -/
theorem flip_StateInv (F : Formula) (s : SState) (choice : Int)
    (h1 : 1 ≤ var choice) (h2 : var choice ≤ F.nvars)
    (hinv : StateInv F s) : StateInv F (flipStep F s choice) := by
  obtain ⟨⟨hvl, hcl, hnl, hwl⟩, hnt, hl, hz⟩ := hinv
  have hvlen : var choice < s.val.length := by omega
  obtain ⟨hvp, hA, hA2, hB, hB2, hclass⟩ :=
    flip_facts s.val choice (var choice) rfl h1 hvlen
  have hflip : flipStep F s choice =
      (invclause F
        (-(if s.val.getD (var choice) false = decide (0 < choice) then choice
           else -choice))).foldl
        (processGain F (var choice)
          (-(if s.val.getD (var choice) false = decide (0 < choice) then choice
             else -choice)))
        ((invclause F
          (if s.val.getD (var choice) false = decide (0 < choice) then choice
           else -choice)).foldl
          (processLoss F (var choice))
          { s with val := s.val.set (var choice) (!s.val.getD (var choice) false) }) := by
    unfold flipStep
    rfl
  have hpz : (if s.val.getD (var choice) false = decide (0 < choice) then choice
      else -choice) ≠ 0 := by
    intro hzero
    rw [hzero] at hvp
    simp [var] at hvp
    unfold var at h1
    omega
  have hoth : ∀ l : Int,
      l ≠ (if s.val.getD (var choice) false = decide (0 < choice) then choice
        else -choice) →
      l ≠ -(if s.val.getD (var choice) false = decide (0 < choice) then choice
        else -choice) →
      is_true ({ s with
        val := s.val.set (var choice) (!s.val.getD (var choice) false) }
          : SState).val l = is_true s.val l := by
    intro l hl1 hl2
    by_cases hlz : l = 0
    · subst hlz
      rw [is_true_zero, is_true_zero]
    · by_cases hlv : var l = var choice
      · rcases hclass l hlv with h | h
        · exact absurd h hl1
        · exact absurd h hl2
      · exact is_true_set_other s.val (var choice) _ l hlv
  obtain ⟨hval3, hwl3, hnl3, hcl3, hg3, hl3, hz3⟩ :=
    flip_inv_aux F
      { s with val := s.val.set (var choice) (!s.val.getD (var choice) false) }
      (if s.val.getD (var choice) false = decide (0 < choice) then choice
        else -choice)
      (var choice) s.val hpz (by simpa using hwl) (by simpa using hnl)
      hl hz (fun k hk => hnt k hk) hA hA2 hB hB2 hoth
  rw [hflip]
  refine ⟨⟨?_, ?_, hnl3, hwl3⟩, ?_, hl3, hz3⟩
  · rw [hval3]
    simp [hvl]
  · rw [hcl3]
    simpa using hcl
  · intro k hk
    rw [hg3 k hk, hval3]

/-!
### Initialization (W1)
-/

theorem getD_replicate {α : Type} (n k : Nat) (d : α) :
    (List.replicate n d).getD k d = d := by
  rcases Nat.lt_or_ge k n with h | h
  · rw [List.getD_eq_getElem _ _ (by simpa using h)]
    simp
  · rw [List.getD_eq_default _ _ (by simpa using h)]

theorem initClause_step (F : Formula) (s : SState) (i : Nat)
    (hi : i < F.nclauses)
    (hwl : s.w.length = F.nclauses) (hnl : s.numtrue.length = F.nclauses)
    (hwi : s.w.getD i none = none) (hl : FwLinks s) :
    (initClause F s i).val = s.val ∧
    (initClause F s i).w.length = F.nclauses ∧
    (initClause F s i).numtrue.length = F.nclauses ∧
    (initClause F s i).cost.length = s.cost.length ∧
    (initClause F s i).numtrue.getD i 0 = (trueCount F s.val i : Int) ∧
    (∀ k, k ≠ i → (initClause F s i).numtrue.getD k 0 = s.numtrue.getD k 0) ∧
    (∀ k, k ≠ i → (initClause F s i).w.getD k none = s.w.getD k none) ∧
    ((initClause F s i).numtrue.getD i 0 = 0 ↔
      (initClause F s i).w.getD i none ≠ none) ∧
    FwLinks (initClause F s i) := by
  have hilen : i < s.numtrue.length := by omega
  have hg1 : ({ s with numtrue := s.numtrue.set i (trueCount F s.val i : Int) }
      : SState).numtrue.getD i 0 = (trueCount F s.val i : Int) :=
    getD_set_self _ _ _ _ hilen
  have hgk : ∀ k, k ≠ i →
      ({ s with numtrue := s.numtrue.set i (trueCount F s.val i : Int) }
        : SState).numtrue.getD k 0 = s.numtrue.getD k 0 :=
    fun k hk => getD_set_ne _ _ _ _ _ (fun h => hk h.symm)
  by_cases h0 : trueCount F s.val i = 0
  · have hred : initClause F s i = register_unsatisfied
        { s with numtrue := s.numtrue.set i (trueCount F s.val i : Int) } i := by
      unfold initClause
      rw [if_pos (show (clauseLits F i).countP (fun l => is_true s.val l) = 0 from h0)]
      unfold register_unsatisfied
      rw [show ({ s with numtrue := s.numtrue.set i (trueCount F s.val i : Int) }
          : SState).w.getD i none = none from hwi]
      rfl
    obtain ⟨hv2, hc2, hn2, hf2, hwlen2, hwc2, hwk2⟩ :=
      regUnsat_spec { s with numtrue := s.numtrue.set i (trueCount F s.val i : Int) } i
        hwi (by simp; omega)
    have hlk2 := regUnsat_links
      { s with numtrue := s.numtrue.set i (trueCount F s.val i : Int) } i
      hl hwi (by simp; omega)
    rw [hred]
    refine ⟨by rw [hv2], by rw [hwlen2]; simp; omega, ?_, by rw [hc2], ?_, ?_, ?_, ?_, hlk2⟩
    · rw [hn2]
      simp
      omega
    · rw [hn2]
      exact hg1
    · intro k hk
      rw [hn2]
      exact hgk k hk
    · intro k hk
      exact hwk2 k hk
    · rw [hn2, hwc2]
      rw [hg1]
      constructor
      · intro _
        simp
      · intro _
        exact_mod_cast congrArg Nat.cast h0
  · have hznew : (({ s with numtrue := s.numtrue.set i (trueCount F s.val i : Int) }
        : SState).numtrue.getD i 0 = 0 ↔
        ({ s with numtrue := s.numtrue.set i (trueCount F s.val i : Int) }
          : SState).w.getD i none ≠ none) := by
      rw [hg1]
      constructor
      · intro hcon
        exfalso
        apply h0
        exact_mod_cast hcon
      · intro hcon
        exact absurd hwi hcon
    by_cases h1 : trueCount F s.val i = 1
    · have hred : initClause F s i =
          { s with
            numtrue := s.numtrue.set i (trueCount F s.val i : Int)
            cost := s.cost.set
              ((((clauseLits F i).filter (fun l => is_true s.val l)).getLast?).map var |>.getD 0)
              (s.cost.getD ((((clauseLits F i).filter (fun l => is_true s.val l)).getLast?).map var |>.getD 0) 0 + 1) } := by
        unfold initClause
        rw [if_neg (show ¬(clauseLits F i).countP (fun l => is_true s.val l) = 0 from h0),
          if_pos (show (clauseLits F i).countP (fun l => is_true s.val l) = 1 from h1)]
        rfl
      rw [hred]
      exact ⟨rfl, by simp; omega, by simp; omega, by simp, hg1,
        hgk, fun k _ => rfl, hznew, hl⟩
    · have hred : initClause F s i =
          { s with numtrue := s.numtrue.set i (trueCount F s.val i : Int) } := by
        unfold initClause
        rw [if_neg (show ¬(clauseLits F i).countP (fun l => is_true s.val l) = 0 from h0),
          if_neg (show ¬(clauseLits F i).countP (fun l => is_true s.val l) = 1 from h1)]
        rfl
      rw [hred]
      exact ⟨rfl, by simp; omega, by simp; omega, by simp, hg1,
        hgk, fun k _ => rfl, hznew, hl⟩

theorem initFold (F : Formula) (val : List Bool) :
    ∀ (m i : Nat) (s : SState), i + m = F.nclauses →
    s.val = val →
    s.w.length = F.nclauses → s.numtrue.length = F.nclauses →
    (∀ k, k < i → s.numtrue.getD k 0 = (trueCount F val k : Int)) →
    (∀ k, k < i → (s.numtrue.getD k 0 = 0 ↔ s.w.getD k none ≠ none)) →
    (∀ k, i ≤ k → s.w.getD k none = none) →
    FwLinks s →
    ((List.range' i m).foldl (initClause F) s).val = val ∧
    ((List.range' i m).foldl (initClause F) s).w.length = F.nclauses ∧
    ((List.range' i m).foldl (initClause F) s).numtrue.length = F.nclauses ∧
    ((List.range' i m).foldl (initClause F) s).cost.length = s.cost.length ∧
    (∀ k, k < F.nclauses →
      ((List.range' i m).foldl (initClause F) s).numtrue.getD k 0 =
        (trueCount F val k : Int)) ∧
    ZeroIffInF F ((List.range' i m).foldl (initClause F) s) ∧
    FwLinks ((List.range' i m).foldl (initClause F) s) := by
  intro m
  induction m with
  | zero =>
    intro i s him hv hwlen hnlen hnumk hiffk hwk hl
    simp only [List.range'_zero, List.foldl_nil]
    refine ⟨hv, hwlen, hnlen, trivial, ?_, ?_, hl⟩
    · intro k hk
      exact hnumk k (by omega)
    · intro k hk
      exact hiffk k (by omega)
  | succ m ih =>
    intro i s him hv hwlen hnlen hnumk hiffk hwk hl
    rw [List.range'_succ, List.foldl_cons]
    have hi : i < F.nclauses := by omega
    obtain ⟨h1, h2, h3, h4, h5, h6, h7, h8, h9⟩ :=
      initClause_step F s i hi hwlen hnlen (hwk i (le_refl i)) hl
    obtain ⟨g1, g2, g3, g4, g5, g6, g7⟩ :=
      ih (i + 1) (initClause F s i) (by omega) (by rw [h1, hv]) h2 h3
        (by
          intro k hk
          by_cases hki : k = i
          · subst hki
            rw [h5, hv]
          · rw [h6 k hki]
            exact hnumk k (by omega))
        (by
          intro k hk
          by_cases hki : k = i
          · subst hki
            exact h8
          · rw [h6 k hki, h7 k hki]
            exact hiffk k (by omega))
        (by
          intro k hk
          rw [h7 k (by omega)]
          exact hwk k (by omega))
        h9
    exact ⟨g1, g2, g3, by rw [g4, h4], g5, g6, g7⟩

theorem init_StateInv (F : Formula) (val : List Bool)
    (hvl : val.length = F.nvars + 1) : StateInv F (initState F val) := by
  have hbase : FwLinks
      ({ val := val, cost := List.replicate (F.nvars + 1) 0,
         numtrue := List.replicate F.nclauses 0, f := [],
         w := List.replicate F.nclauses none } : SState) := by
    constructor
    · intro k j hkj
      rw [getD_replicate] at hkj
      cases hkj
    · intro j hj
      simp at hj
  have hred : initState F val =
      (List.range' 0 F.nclauses).foldl (initClause F)
        { val := val, cost := List.replicate (F.nvars + 1) 0,
          numtrue := List.replicate F.nclauses 0, f := [],
          w := List.replicate F.nclauses none } := by
    unfold initState
    rw [List.range_eq_range']
  obtain ⟨h1, h2, h3, h4, h5, h6, h7⟩ :=
    initFold F val F.nclauses 0
      { val := val, cost := List.replicate (F.nvars + 1) 0,
        numtrue := List.replicate F.nclauses 0, f := [],
        w := List.replicate F.nclauses none }
      (by omega) rfl (by simp) (by simp)
      (fun k hk => absurd hk (by omega))
      (fun k hk => absurd hk (by omega))
      (fun k _ => getD_replicate _ _ _)
      hbase
  rw [hred]
  refine ⟨⟨by rw [h1]; exact hvl, ?_, h3, h2⟩, ?_, h7, h6⟩
  · rw [h4]
    simp
  · intro k hk
    rw [h5 k hk, h1]

/-!
### The driver loop
-/

theorem chooseQ_lt (n : Nat) : ∀ (rs : List Nat) (q : Nat) (rest : List Nat),
    chooseQ n rs = some (q, rest) → q < n := by
  intro rs
  induction rs with
  | nil =>
    intro q rest h
    cases h
  | cons r t ih =>
    intro q rest h
    unfold chooseQ at h
    by_cases hq : r / ((RANDMAX + 1) / n) < n
    · rw [if_pos hq] at h
      injection h with h
      injection h with h1 h2
      omega
    · rw [if_neg hq] at h
      exact ih q rest h

theorem chooseLit_mem (all : Bool) (cost : List Int) :
    ∀ (ls : List Int) (m0 : Option Int) (ch : Option Int) (k : Nat)
      (rs : List Nat) (ch2 : Option Int) (rest : List Nat) (l : Int),
    chooseLitGo all cost ls m0 ch k rs = some (ch2, rest) → ch2 = some l →
    ch = some l ∨ l ∈ ls := by
  intro ls
  induction ls with
  | nil =>
    intro m0 ch k rs ch2 rest l h hl
    unfold chooseLitGo at h
    injection h with h
    injection h with h1 h2
    subst h1
    exact Or.inl hl
  | cons c t ih =>
    intro m0 ch k rs ch2 rest l h hl
    unfold chooseLitGo at h
    by_cases hp : w4part all m0 (cost.getD (var c) 0) = true
    · rw [if_pos hp] at h
      rcases rs with - | ⟨r, rs1⟩
      · cases h
      · rcases ih _ _ _ _ _ _ l h hl with hc | hmem
        · by_cases hf : flipR r
              (1 / (w4k all m0 (cost.getD (var c) 0) k : ℚ)) = true
          · rw [if_pos hf] at hc
            injection hc with hc
            subst hc
            exact Or.inr (List.mem_cons_self c t)
          · rw [if_neg hf] at hc
            exact Or.inl hc
        · exact Or.inr (List.mem_cons_of_mem c hmem)
    · rw [if_neg hp] at h
      rcases ih _ _ _ _ _ _ l h hl with hc | hmem
      · exact Or.inl hc
      · exact Or.inr (List.mem_cons_of_mem c hmem)

theorem loopOnce_spec (F : Formula) (s : SState) (rs : List Nat)
    (choice : Int) (s' : SState) (rs' : List Nat)
    (hinv : StateInv F s)
    (h : loopOnce F s rs = some (choice, s', rs')) :
    s' = flipStep F s choice ∧ choice ∈ F.clauses := by
  unfold loopOnce at h
  split at h
  · cases h
  · rename_i q rs1 hq
    split at h
    · cases h
    · rename_i rA rs2
      split at h
      · cases h
      · cases h
      · rename_i ch2 rs3 hcl2
        injection h with h
        injection h with h1 h2
        injection h2 with h2 h3
        subst h1
        have hmem : ch2 ∈ clauseLits F (s.f.getD q 0) := by
          rcases chooseLit_mem (flipR rA nonGreedyChoice) s.cost
            (clauseLits F (s.f.getD q 0)) none none 1 rs2 (some ch2) rs3 ch2
            hcl2 rfl with hc | hm
          · cases hc
          · exact hm
        exact ⟨h2.symm, clauseLits_subset F (s.f.getD q 0) ch2 hmem⟩

theorem reach_StateInv (F : Formula) (s : SState) (hwf : WfFormula F)
    (hr : Reachable F s) : StateInv F s := by
  induction hr with
  | init val hlen => exact init_StateInv F val hlen
  | step s rs choice s' rs' hrs hstep ih =>
    obtain ⟨hs', hmem⟩ := loopOnce_spec F s rs choice s' rs' ih hstep
    obtain ⟨hv1, hv2⟩ := hwf choice hmem
    rw [hs']
    exact flip_StateInv F s choice hv1 hv2 ih

theorem inv_f_mem (F : Formula) (s : SState) (hinv : StateInv F s) :
    ∀ j, j ∈ s.f ↔ (j < F.nclauses ∧ s.numtrue.getD j 0 = 0) := by
  obtain ⟨⟨-, -, -, hwl⟩, -, hl, hz⟩ := hinv
  intro j
  constructor
  · intro hj
    rcases (mem_iff_getD s.f j 0).mp hj with ⟨idx, hidx, hie⟩
    have hx := hl.2 idx hidx
    rw [hie] at hx
    have hjn : j < F.nclauses := by
      by_contra hcon
      rw [List.getD_eq_default _ _ (by omega)] at hx
      cases hx
    refine ⟨hjn, (hz j hjn).mpr ?_⟩
    rw [hx]
    simp
  · rintro ⟨hjn, hz0⟩
    have hwj := (hz j hjn).mp hz0
    rcases hww : s.w.getD j none with - | idx
    · exact absurd hww hwj
    · obtain ⟨h1, h2⟩ := hl.1 j idx hww
      exact (mem_iff_getD s.f j 0).mpr ⟨idx, h1, h2⟩

/-- Claim C3: at every loop boundary between W2 and the end of W5,
`numtrue[k]` is the number of true literals of clause `k` under the current
assignment (counting multiplicity); `w[k]` is non-nil exactly when
`numtrue[k] = 0`; whenever `w[k]` is non-nil, `f[w[k]] = k`; and `f` has no
duplicates, so `|f|` is the number of clauses with `numtrue = 0`. -/
theorem walk_C3 (F : Formula) (s : SState) (hwf : WfFormula F)
    (hr : Reachable F s) :
    (∀ k, k < F.nclauses → s.numtrue.getD k 0 = (trueCount F s.val k : Int)) ∧
    (∀ k, k < F.nclauses → (s.w.getD k none ≠ none ↔ s.numtrue.getD k 0 = 0)) ∧
    (∀ k i, s.w.getD k none = some i → i < s.f.length ∧ s.f.getD i 0 = k) ∧
    s.f.Nodup ∧
    s.f.length = (List.range F.nclauses).countP
      (fun k => decide (s.numtrue.getD k 0 = 0)) := by
  have hinv := reach_StateInv F s hwf hr
  obtain ⟨⟨hvl, hcl, hnl, hwl⟩, hnt, hl, hz⟩ := hinv
  refine ⟨hnt, ?_, hl.1, fwlinks_nodup s hl, ?_⟩
  · intro k hk
    exact (hz k hk).symm
  · refine length_eq_countP_range s.f F.nclauses _ (fwlinks_nodup s hl) ?_
    intro j
    rw [inv_f_mem F s ⟨⟨hvl, hcl, hnl, hwl⟩, hnt, hl, hz⟩ j]
    simp

/-- Witness for C3: the invariant at the end of W1 on the one-clause
formula `(x1)` with the all-false initial assignment. -/
theorem walk_C3_witness :
    (initState Fone [false, false]).f.Nodup ∧
    (initState Fone [false, false]).f.length =
      (List.range Fone.nclauses).countP
        (fun k => decide ((initState Fone [false, false]).numtrue.getD k 0 = 0)) ∧
    (initState Fone [false, false]).numtrue.getD 0 0 =
      (trueCount Fone (initState Fone [false, false]).val 0 : Int) := by
  have h := walk_C3 Fone (initState Fone [false, false])
    (by unfold WfFormula; decide)
    (Reachable.init [false, false] (by decide))
  exact ⟨h.2.2.2.1, h.2.2.2.2, h.1 0 (by decide)⟩

/-!
### Claim C1: termination implies a satisfying assignment
-/

theorem satisfied_of_empty (F : Formula) (s : SState) (hinv : StateInv F s)
    (hf : s.f = []) :
    ∀ k, k < F.nclauses → is_satisfied F s.val k = true := by
  intro k hk
  obtain ⟨-, hnt, hl, hz⟩ := hinv
  by_cases hzero : s.numtrue.getD k 0 = 0
  · exfalso
    have hwk := (hz k hk).mp hzero
    rcases hww : s.w.getD k none with - | idx
    · exact hwk hww
    · obtain ⟨h1, -⟩ := hl.1 k idx hww
      rw [hf] at h1
      simp at h1
  · have htc : trueCount F s.val k ≠ 0 := by
      intro hcon
      apply hzero
      rw [hnt k hk, hcon]
      rfl
    have hpos : 0 < (clauseLits F k).countP (fun l => is_true s.val l) := by
      unfold trueCount at htc
      omega
    rcases List.countP_pos_iff.mp hpos with ⟨l, hlm, hlt⟩
    unfold is_satisfied
    rw [List.any_eq_true]
    exact ⟨l, hlm, hlt⟩

theorem solveLoop_ret (F : Formula) (hwf : WfFormula F) :
    ∀ (fuel : Nat) (s : SState) (rs : List Nat) (b : Bool) (s' : SState),
    StateInv F s → solveLoop F fuel s rs = some (b, s') →
    b = true ∧ s'.f = [] ∧ StateInv F s' := by
  intro fuel
  induction fuel with
  | zero =>
    intro s rs b s' hinv h
    cases h
  | succ fuel ih =>
    intro s rs b s' hinv h
    unfold solveLoop at h
    by_cases hf : s.f.isEmpty
    · rw [if_pos hf] at h
      injection h with h
      injection h with h1 h2
      subst h2
      exact ⟨h1.symm, List.isEmpty_iff.mp hf, hinv⟩
    · rw [if_neg hf] at h
      split at h
      · cases h
      · rename_i choice s2 rs2 hstep
        obtain ⟨hs2, hmem⟩ := loopOnce_spec F s rs choice s2 rs2 hinv hstep
        obtain ⟨hv1, hv2⟩ := hwf choice hmem
        have hinv2 : StateInv F s2 := by
          rw [hs2]
          exact flip_StateInv F s choice hv1 hv2 hinv
        exact ih s2 rs2 b s' hinv2 h

theorem initVal_len : ∀ (n : Nat) (rs : List Nat) (coins : List Bool)
    (rest : List Nat), initVal n rs = some (coins, rest) → coins.length = n := by
  intro n
  induction n with
  | zero =>
    intro rs coins rest h
    rw [show initVal 0 rs = some ([], rs) from rfl] at h
    injection h with h
    injection h with h1 h2
    rw [← h1]
    rfl
  | succ n ih =>
    intro rs coins rest h
    rcases rs with - | ⟨r, rs1⟩
    · rw [show initVal (n + 1) ([] : List Nat) = none from rfl] at h
      cases h
    · rw [show initVal (n + 1) (r :: rs1) =
        (initVal n rs1).map (fun p => (flipR r initialBias :: p.1, p.2)) from rfl] at h
      rcases hrec : initVal n rs1 with - | ⟨coins2, rest2⟩
      · rw [hrec] at h
        cases h
      · rw [hrec] at h
        simp only [Option.map] at h
        injection h with h
        injection h with h1 h2
        rw [← h1, List.length_cons, ih rs1 coins2 rest2 hrec]

/-- Claim C1: whenever `solve` terminates, it returns `true` with the
unsatisfied stack `f` empty, and the assignment `val` it returns satisfies
the formula: every clause has at least one true literal
(`is_satisfied`). -/
theorem walk_C1 (F : Formula) (fuel : Nat) (rs : List Nat) (b : Bool)
    (s' : SState) (hwf : WfFormula F)
    (h : solveFull F fuel rs = some (b, s')) :
    b = true ∧ s'.f = [] ∧
    ∀ k, k < F.nclauses → is_satisfied F s'.val k = true := by
  unfold solveFull at h
  split at h
  · cases h
  · rename_i coins rs1 hiv
    have hlen : coins.length = F.nvars := initVal_len F.nvars rs coins rs1 hiv
    have hinv0 : StateInv F (initState F (false :: coins)) :=
      init_StateInv F (false :: coins) (by rw [List.length_cons, hlen])
    obtain ⟨hb, hf, hinv'⟩ := solveLoop_ret F hwf fuel _ rs1 b s' hinv0 h
    exact ⟨hb, hf, satisfied_of_empty F s' hinv' hf⟩

/-- Witness for C1: a terminating run on the one-clause formula `(x1)`. -/
theorem walk_C1_witness :
    (∀ l ∈ Fone.clauses, 1 ≤ var l ∧ var l ≤ Fone.nvars) ∧
    solveFull Fone 3 rsOne =
      some (true, ⟨[false, true], [0, 1], [1], [], [none]⟩) ∧
    (∀ k, k < Fone.nclauses →
      is_satisfied Fone
        (⟨[false, true], [0, 1], [1], [], [none]⟩ : SState).val k = true) := by
  refine ⟨by decide, by with_unfolding_all rfl, ?_⟩
  have h := walk_C1 Fone 3 rsOne true
    ⟨[false, true], [0, 1], [1], [], [none]⟩ (by unfold WfFormula; decide)
    (by with_unfolding_all rfl)
  exact h.2.2

/-!
### Cost accounting (claim C2)
-/

theorem regSat_cost_eq (s : SState) (c : Nat) :
    (register_satisfied s c).cost = s.cost := by
  unfold register_satisfied
  split
  · rfl
  · rfl

theorem regUnsat_cost_eq (s : SState) (c : Nat) :
    (register_unsatisfied s c).cost = s.cost := by
  unfold register_unsatisfied
  split
  · rfl
  · rfl

theorem two_count_le_countP {α : Type} [DecidableEq α] (l : List α) (a b : α)
    (p : α → Bool) (hab : a ≠ b) (hpa : p a = true) (hpb : p b = true) :
    l.count a + l.count b ≤ l.countP p := by
  induction l with
  | nil => simp
  | cons y t ih =>
    rw [List.count_cons, List.count_cons, List.countP_cons]
    simp only [beq_iff_eq]
    by_cases hya : y = a
    · rw [if_pos hya, if_neg (by rw [hya]; exact hab),
        if_pos (by rw [hya]; exact hpa)]
      omega
    · rw [if_neg hya]
      by_cases hyb : y = b
      · rw [if_pos hyb, if_pos (by rw [hyb]; exact hpb)]
        omega
      · rw [if_neg hyb]
        by_cases hpy : p y = true
        · rw [if_pos hpy]
          omega
        · rw [if_neg hpy]
          omega

theorem countP_var_eq_count_map (l : List Int) (v : Nat) :
    l.countP (fun x => decide (var x = v)) = (l.map var).count v := by
  induction l with
  | nil => simp
  | cons y t ih =>
    rw [List.countP_cons, List.map_cons, List.count_cons]
    by_cases hy : var y = v
    · simp [hy, ih]
    · simp [hy, Ne.symm hy, ih]

theorem find?_eq_head_filter {α : Type} (p : α → Bool) (l : List α) :
    l.find? p = (l.filter p).head? := by
  induction l with
  | nil => rfl
  | cons y t ih =>
    by_cases hy : p y = true
    · rw [List.find?_cons_of_pos _ hy, List.filter_cons_of_pos hy]
      rfl
    · rw [List.find?_cons_of_neg _ hy, List.filter_cons_of_neg (by simpa using hy)]
      exact ih

theorem sum_map_add (l : List Nat) (f g : Nat → Int) :
    (l.map (fun k => f k + g k)).sum = (l.map f).sum + (l.map g).sum := by
  induction l with
  | nil => simp
  | cons y t ih =>
    simp [ih]
    ring

theorem sum_range_single (n a : Nat) (f : Nat → Int) (h : a < n) :
    ((List.range n).map (fun k => if k = a then f k else 0)).sum = f a := by
  induction n with
  | zero => omega
  | succ n ih =>
    rw [List.range_succ, List.map_append, List.sum_append]
    by_cases han : a = n
    · subst han
      have hz : ((List.range a).map (fun k => if k = a then f k else 0)).sum = 0 := by
        apply List.sum_eq_zero
        intro x hx
        rcases List.mem_map.mp hx with ⟨k, hk, he⟩
        rw [List.mem_range] at hk
        rw [if_neg (by omega)] at he
        exact he.symm
      simp [hz]
    · have ha : a < n := by omega
      rw [ih ha]
      simp [Ne.symm han, han]

theorem sum_range_ite_mem (n : Nat) (A : List Nat) (f : Nat → Int)
    (hnd : A.Nodup) (hmem : ∀ a ∈ A, a < n) :
    ((List.range n).map (fun k => if k ∈ A then f k else 0)).sum =
      (A.map f).sum := by
  induction A with
  | nil => simp
  | cons a t ih =>
    have hnd2 := List.nodup_cons.mp hnd
    have hsplit : ((List.range n).map (fun k => if k ∈ a :: t then f k else 0)) =
        ((List.range n).map (fun k =>
          (if k = a then f k else 0) + (if k ∈ t then f k else 0))) := by
      apply List.map_congr_left
      intro k _
      by_cases hka : k = a
      · subst hka
        simp [hnd2.1]
      · simp [hka]
    rw [hsplit, sum_map_add, sum_range_single n a f (hmem a (List.mem_cons_self a t)),
      ih hnd2.2 (fun x hx => hmem x (List.mem_cons_of_mem a hx))]
    simp

theorem lossCost (F : Formula) (v : Nat) (s : SState) (i : Nat)
    (valOld : List Bool)
    (hcl : s.cost.length = F.nvars + 1) (hnl : s.numtrue.length = F.nclauses)
    (hi : i < F.nclauses) (hv1 : 1 ≤ v) (hv2 : v ≤ F.nvars)
    (hnum : s.numtrue.getD i 0 = (trueCount F valOld i : Int))
    (ht1 : 1 ≤ trueCount F valOld i)
    (htc : trueCount F s.val i + 1 = trueCount F valOld i)
    (hu1 : trueCount F valOld i = 1 → (firstTrue F valOld i).map var = some v)
    (hwfc : ∀ l ∈ clauseLits F i, var l ≤ F.nvars) :
    ∀ u, 1 ≤ u → u ≤ F.nvars →
      (processLoss F v s i).cost.getD u 0 =
        s.cost.getD u 0 + (if contrib F s.val i u then (1 : Int) else 0)
          - (if contrib F valOld i u then (1 : Int) else 0) := by
  intro u hu1b hu2b
  have hvlen : v < s.cost.length := by omega
  by_cases h1 : trueCount F valOld i = 1
  · have h0 : s.numtrue.getD i 0 - 1 = 0 := by
      rw [hnum, h1]
      rfl
    have hred : processLoss F v s i =
        { register_unsatisfied
            { s with numtrue := s.numtrue.set i (s.numtrue.getD i 0 - 1) } i with
          cost := (register_unsatisfied
            { s with numtrue := s.numtrue.set i (s.numtrue.getD i 0 - 1) } i).cost.set v
            ((register_unsatisfied
              { s with numtrue := s.numtrue.set i (s.numtrue.getD i 0 - 1) } i).cost.getD v 0 - 1) } := by
      unfold processLoss
      rw [if_pos h0]
    have hcost2 : (register_unsatisfied
        { s with numtrue := s.numtrue.set i (s.numtrue.getD i 0 - 1) } i).cost = s.cost := by
      rw [regUnsat_cost_eq]
    rw [hred]
    have hgoalc : ({ register_unsatisfied
        { s with numtrue := s.numtrue.set i (s.numtrue.getD i 0 - 1) } i with
          cost := (register_unsatisfied
            { s with numtrue := s.numtrue.set i (s.numtrue.getD i 0 - 1) } i).cost.set v
            ((register_unsatisfied
              { s with numtrue := s.numtrue.set i (s.numtrue.getD i 0 - 1) } i).cost.getD v 0 - 1) } : SState).cost =
        s.cost.set v (s.cost.getD v 0 - 1) := by
      rw [show ({ register_unsatisfied
        { s with numtrue := s.numtrue.set i (s.numtrue.getD i 0 - 1) } i with
          cost := (register_unsatisfied
            { s with numtrue := s.numtrue.set i (s.numtrue.getD i 0 - 1) } i).cost.set v
            ((register_unsatisfied
              { s with numtrue := s.numtrue.set i (s.numtrue.getD i 0 - 1) } i).cost.getD v 0 - 1) } : SState).cost =
        (register_unsatisfied
            { s with numtrue := s.numtrue.set i (s.numtrue.getD i 0 - 1) } i).cost.set v
            ((register_unsatisfied
              { s with numtrue := s.numtrue.set i (s.numtrue.getD i 0 - 1) } i).cost.getD v 0 - 1) from rfl,
        hcost2]
    rw [hgoalc]
    have hcnew : contrib F s.val i u = false := by
      unfold contrib
      have : trueCount F s.val i = 0 := by omega
      simp [this]
    have hcold : contrib F valOld i u = decide (v = u) := by
      unfold contrib
      rw [hu1 h1, h1]
      simp
    rw [hcnew, hcold]
    by_cases huv : u = v
    · subst huv
      rw [getD_set_self _ _ _ _ hvlen]
      simp
    · rw [getD_set_ne _ _ _ _ _ (fun h => huv h.symm)]
      simp [Ne.symm huv]
  · by_cases h2 : trueCount F valOld i = 2
    · have h0 : ¬(s.numtrue.getD i 0 - 1 = 0) := by
        rw [hnum, h2]
        intro hcon
        omega
      have h1b : s.numtrue.getD i 0 - 1 = 1 := by
        rw [hnum, h2]
        rfl
      have hred : processLoss F v s i =
          match (clauseLits F i).find? (fun l => is_true s.val l) with
          | some l =>
            { ({ s with numtrue := s.numtrue.set i (s.numtrue.getD i 0 - 1) }
                : SState) with
              cost := s.cost.set (var l) (s.cost.getD (var l) 0 + 1) }
          | none =>
            { s with numtrue := s.numtrue.set i (s.numtrue.getD i 0 - 1) } := by
        unfold processLoss
        rw [if_neg h0, if_pos h1b]
      rw [hred]
      have htnew : trueCount F s.val i = 1 := by omega
      have hpos : 0 < (clauseLits F i).countP (fun l => is_true s.val l) := by
        unfold trueCount at htnew
        omega
      rcases List.countP_pos_iff.mp hpos with ⟨x, hxm, hxp⟩
      rcases hfind : (clauseLits F i).find? (fun l => is_true s.val l) with - | L
      · exfalso
        rw [List.find?_eq_none] at hfind
        exact (hfind x hxm) hxp
      · have hLmem : L ∈ clauseLits F i := List.mem_of_find?_eq_some hfind
        have hLlen : var L < s.cost.length := by
          have := hwfc L hLmem
          omega
        have hcnew : contrib F s.val i u = decide (var L = u) := by
          unfold contrib firstTrue
          rw [hfind, htnew]
          simp
        have hcold : contrib F valOld i u = false := by
          unfold contrib
          simp [h2]
        rw [hcnew, hcold]
        by_cases huL : u = var L
        · subst huL
          rw [getD_set_self _ _ _ _ hLlen]
          simp
        · rw [getD_set_ne _ _ _ _ _ (fun h => huL h.symm)]
          simp [Ne.symm huL]
    · have h0 : ¬(s.numtrue.getD i 0 - 1 = 0) := by
        rw [hnum]
        intro hcon
        have : trueCount F valOld i = 1 := by omega
        exact h1 this
      have h1b : ¬(s.numtrue.getD i 0 - 1 = 1) := by
        rw [hnum]
        intro hcon
        have : trueCount F valOld i = 2 := by omega
        exact h2 this
      have hred : processLoss F v s i =
          { s with numtrue := s.numtrue.set i (s.numtrue.getD i 0 - 1) } := by
        unfold processLoss
        rw [if_neg h0, if_neg h1b]
      rw [hred]
      have hcnew : contrib F s.val i u = false := by
        unfold contrib
        have : ¬trueCount F s.val i = 1 := by omega
        simp [this]
      have hcold : contrib F valOld i u = false := by
        unfold contrib
        simp [h1]
      rw [hcnew, hcold]
      simp

theorem gainCost (F : Formula) (v : Nat) (neg : Int) (s : SState) (i : Nat)
    (valOld : List Bool)
    (hcl : s.cost.length = F.nvars + 1)
    (hv1 : 1 ≤ v) (hv2 : v ≤ F.nvars)
    (hnum : s.numtrue.getD i 0 = (trueCount F valOld i : Int))
    (htc : trueCount F s.val i = trueCount F valOld i + 1)
    (hu0 : trueCount F valOld i = 0 → (firstTrue F s.val i).map var = some v)
    (hu1 : trueCount F valOld i = 1 →
      (clauseLits F i).find? (fun l => !(l == neg) && is_true s.val l) =
        firstTrue F valOld i)
    (hwfc : ∀ l ∈ clauseLits F i, var l ≤ F.nvars) :
    ∀ u, 1 ≤ u → u ≤ F.nvars →
      (processGain F v neg s i).cost.getD u 0 =
        s.cost.getD u 0 + (if contrib F s.val i u then (1 : Int) else 0)
          - (if contrib F valOld i u then (1 : Int) else 0) := by
  intro u hu1b hu2b
  have hvlen : v < s.cost.length := by omega
  by_cases h0c : trueCount F valOld i = 0
  · have h0 : s.numtrue.getD i 0 + 1 = 1 := by
      rw [hnum, h0c]
      rfl
    have hred : processGain F v neg s i =
        { register_satisfied
            { s with numtrue := s.numtrue.set i (s.numtrue.getD i 0 + 1) } i with
          cost := (register_satisfied
            { s with numtrue := s.numtrue.set i (s.numtrue.getD i 0 + 1) } i).cost.set v
            ((register_satisfied
              { s with numtrue := s.numtrue.set i (s.numtrue.getD i 0 + 1) } i).cost.getD v 0 + 1) } := by
      unfold processGain
      rw [if_pos h0]
    have hcost2 : (register_satisfied
        { s with numtrue := s.numtrue.set i (s.numtrue.getD i 0 + 1) } i).cost = s.cost := by
      rw [regSat_cost_eq]
    rw [hred]
    have hgoalc : ({ register_satisfied
        { s with numtrue := s.numtrue.set i (s.numtrue.getD i 0 + 1) } i with
          cost := (register_satisfied
            { s with numtrue := s.numtrue.set i (s.numtrue.getD i 0 + 1) } i).cost.set v
            ((register_satisfied
              { s with numtrue := s.numtrue.set i (s.numtrue.getD i 0 + 1) } i).cost.getD v 0 + 1) } : SState).cost =
        s.cost.set v (s.cost.getD v 0 + 1) := by
      rw [show ({ register_satisfied
        { s with numtrue := s.numtrue.set i (s.numtrue.getD i 0 + 1) } i with
          cost := (register_satisfied
            { s with numtrue := s.numtrue.set i (s.numtrue.getD i 0 + 1) } i).cost.set v
            ((register_satisfied
              { s with numtrue := s.numtrue.set i (s.numtrue.getD i 0 + 1) } i).cost.getD v 0 + 1) } : SState).cost =
        (register_satisfied
            { s with numtrue := s.numtrue.set i (s.numtrue.getD i 0 + 1) } i).cost.set v
            ((register_satisfied
              { s with numtrue := s.numtrue.set i (s.numtrue.getD i 0 + 1) } i).cost.getD v 0 + 1) from rfl,
        hcost2]
    rw [hgoalc]
    have hcnew : contrib F s.val i u = decide (v = u) := by
      unfold contrib
      rw [hu0 h0c]
      have : trueCount F s.val i = 1 := by omega
      simp [this]
    have hcold : contrib F valOld i u = false := by
      unfold contrib
      simp [h0c]
    rw [hcnew, hcold]
    by_cases huv : u = v
    · subst huv
      rw [getD_set_self _ _ _ _ hvlen]
      simp
    · rw [getD_set_ne _ _ _ _ _ (fun h => huv h.symm)]
      simp [Ne.symm huv]
  · by_cases h1c : trueCount F valOld i = 1
    · have h0 : ¬(s.numtrue.getD i 0 + 1 = 1) := by
        rw [hnum, h1c]
        intro hcon
        omega
      have h1b : s.numtrue.getD i 0 + 1 = 2 := by
        rw [hnum, h1c]
        rfl
      have hred : processGain F v neg s i =
          match (clauseLits F i).find? (fun l => !(l == neg) && is_true s.val l) with
          | some l =>
            { ({ s with numtrue := s.numtrue.set i (s.numtrue.getD i 0 + 1) }
                : SState) with
              cost := s.cost.set (var l) (s.cost.getD (var l) 0 - 1) }
          | none =>
            { s with numtrue := s.numtrue.set i (s.numtrue.getD i 0 + 1) } := by
        unfold processGain
        rw [if_neg h0, if_pos h1b]
      rw [hred]
      have hposo : 0 < (clauseLits F i).countP (fun l => is_true valOld l) := by
        unfold trueCount at h1c
        omega
      rcases hfindo : (clauseLits F i).find? (fun l => is_true valOld l) with - | U
      · exfalso
        rcases List.countP_pos_iff.mp hposo with ⟨x, hxm, hxp⟩
        rw [List.find?_eq_none] at hfindo
        exact (hfindo x hxm) hxp
      · have hfind2 : (clauseLits F i).find?
            (fun l => !(l == neg) && is_true s.val l) = some U := by
          rw [hu1 h1c]
          exact hfindo
        rw [hfind2]
        have hUmem : U ∈ clauseLits F i := List.mem_of_find?_eq_some hfindo
        have hUlen : var U < s.cost.length := by
          have := hwfc U hUmem
          omega
        have hcnew : contrib F s.val i u = false := by
          unfold contrib
          have : ¬trueCount F s.val i = 1 := by omega
          simp [this]
        have hcold : contrib F valOld i u = decide (var U = u) := by
          unfold contrib firstTrue
          rw [hfindo, h1c]
          simp
        rw [hcnew, hcold]
        by_cases huU : u = var U
        · subst huU
          rw [getD_set_self _ _ _ _ hUlen]
          simp
        · rw [getD_set_ne _ _ _ _ _ (fun h => huU h.symm)]
          simp [Ne.symm huU]
    · have h0 : ¬(s.numtrue.getD i 0 + 1 = 1) := by
        rw [hnum]
        intro hcon
        have : trueCount F valOld i = 0 := by omega
        exact h0c this
      have h1b : ¬(s.numtrue.getD i 0 + 1 = 2) := by
        rw [hnum]
        intro hcon
        have : trueCount F valOld i = 1 := by omega
        exact h1c this
      have hred : processGain F v neg s i =
          { s with numtrue := s.numtrue.set i (s.numtrue.getD i 0 + 1) } := by
        unfold processGain
        rw [if_neg h0, if_neg h1b]
      rw [hred]
      have hcnew : contrib F s.val i u = false := by
        unfold contrib
        have : ¬trueCount F s.val i = 1 := by omega
        simp [this]
      have hcold : contrib F valOld i u = false := by
        unfold contrib
        simp [h1c]
      rw [hcnew, hcold]
      simp

theorem regSat_val_eq (s : SState) (c : Nat) :
    (register_satisfied s c).val = s.val := by
  unfold register_satisfied
  split
  · rfl
  · rfl

theorem regUnsat_val_eq (s : SState) (c : Nat) :
    (register_unsatisfied s c).val = s.val := by
  unfold register_unsatisfied
  split
  · rfl
  · rfl

theorem regSat_numtrue_eq (s : SState) (c : Nat) :
    (register_satisfied s c).numtrue = s.numtrue := by
  unfold register_satisfied
  split
  · rfl
  · rfl

theorem regUnsat_numtrue_eq (s : SState) (c : Nat) :
    (register_unsatisfied s c).numtrue = s.numtrue := by
  unfold register_unsatisfied
  split
  · rfl
  · rfl

theorem processLoss_fields (F : Formula) (v : Nat) (s : SState) (i : Nat) :
    (processLoss F v s i).val = s.val ∧
    (processLoss F v s i).cost.length = s.cost.length ∧
    (processLoss F v s i).numtrue = s.numtrue.set i (s.numtrue.getD i 0 - 1) := by
  by_cases h0 : s.numtrue.getD i 0 - 1 = 0
  · have hred : processLoss F v s i =
        { register_unsatisfied
            { s with numtrue := s.numtrue.set i (s.numtrue.getD i 0 - 1) } i with
          cost := (register_unsatisfied
            { s with numtrue := s.numtrue.set i (s.numtrue.getD i 0 - 1) } i).cost.set v
            ((register_unsatisfied
              { s with numtrue := s.numtrue.set i (s.numtrue.getD i 0 - 1) } i).cost.getD v 0 - 1) } := by
      unfold processLoss
      rw [if_pos h0]
    rw [hred]
    refine ⟨?_, ?_, ?_⟩
    · rw [show ∀ t : SState, ({ t with
        cost := t.cost.set v (t.cost.getD v 0 - 1) } : SState).val = t.val
        from fun t => rfl]
      rw [regUnsat_val_eq]
    · rw [show ∀ t : SState, ({ t with
        cost := t.cost.set v (t.cost.getD v 0 - 1) } : SState).cost =
        t.cost.set v (t.cost.getD v 0 - 1) from fun t => rfl]
      rw [List.length_set, regUnsat_cost_eq]
    · rw [show ∀ t : SState, ({ t with
        cost := t.cost.set v (t.cost.getD v 0 - 1) } : SState).numtrue = t.numtrue
        from fun t => rfl]
      rw [regUnsat_numtrue_eq]
  · by_cases h1 : s.numtrue.getD i 0 - 1 = 1
    · have hred : processLoss F v s i =
          match (clauseLits F i).find? (fun l => is_true s.val l) with
          | some l =>
            { ({ s with numtrue := s.numtrue.set i (s.numtrue.getD i 0 - 1) }
                : SState) with
              cost := s.cost.set (var l) (s.cost.getD (var l) 0 + 1) }
          | none =>
            { s with numtrue := s.numtrue.set i (s.numtrue.getD i 0 - 1) } := by
        unfold processLoss
        rw [if_neg h0, if_pos h1]
      rw [hred]
      rcases hfind : (clauseLits F i).find? (fun l => is_true s.val l) with - | L
      · exact ⟨rfl, rfl, rfl⟩
      · exact ⟨rfl, by simp, rfl⟩
    · have hred : processLoss F v s i =
          { s with numtrue := s.numtrue.set i (s.numtrue.getD i 0 - 1) } := by
        unfold processLoss
        rw [if_neg h0, if_neg h1]
      rw [hred]
      exact ⟨rfl, rfl, rfl⟩

theorem processGain_fields (F : Formula) (v : Nat) (neg : Int) (s : SState)
    (i : Nat) :
    (processGain F v neg s i).val = s.val ∧
    (processGain F v neg s i).cost.length = s.cost.length ∧
    (processGain F v neg s i).numtrue = s.numtrue.set i (s.numtrue.getD i 0 + 1) := by
  by_cases h0 : s.numtrue.getD i 0 + 1 = 1
  · have hred : processGain F v neg s i =
        { register_satisfied
            { s with numtrue := s.numtrue.set i (s.numtrue.getD i 0 + 1) } i with
          cost := (register_satisfied
            { s with numtrue := s.numtrue.set i (s.numtrue.getD i 0 + 1) } i).cost.set v
            ((register_satisfied
              { s with numtrue := s.numtrue.set i (s.numtrue.getD i 0 + 1) } i).cost.getD v 0 + 1) } := by
      unfold processGain
      rw [if_pos h0]
    rw [hred]
    refine ⟨?_, ?_, ?_⟩
    · rw [show ∀ t : SState, ({ t with
        cost := t.cost.set v (t.cost.getD v 0 + 1) } : SState).val = t.val
        from fun t => rfl]
      rw [regSat_val_eq]
    · rw [show ∀ t : SState, ({ t with
        cost := t.cost.set v (t.cost.getD v 0 + 1) } : SState).cost =
        t.cost.set v (t.cost.getD v 0 + 1) from fun t => rfl]
      rw [List.length_set, regSat_cost_eq]
    · rw [show ∀ t : SState, ({ t with
        cost := t.cost.set v (t.cost.getD v 0 + 1) } : SState).numtrue = t.numtrue
        from fun t => rfl]
      rw [regSat_numtrue_eq]
  · by_cases h1 : s.numtrue.getD i 0 + 1 = 2
    · have hred : processGain F v neg s i =
          match (clauseLits F i).find? (fun l => !(l == neg) && is_true s.val l) with
          | some l =>
            { ({ s with numtrue := s.numtrue.set i (s.numtrue.getD i 0 + 1) }
                : SState) with
              cost := s.cost.set (var l) (s.cost.getD (var l) 0 - 1) }
          | none =>
            { s with numtrue := s.numtrue.set i (s.numtrue.getD i 0 + 1) } := by
        unfold processGain
        rw [if_neg h0, if_pos h1]
      rw [hred]
      rcases hfind : (clauseLits F i).find?
          (fun l => !(l == neg) && is_true s.val l) with - | L
      · exact ⟨rfl, rfl, rfl⟩
      · exact ⟨rfl, by simp, rfl⟩
    · have hred : processGain F v neg s i =
          { s with numtrue := s.numtrue.set i (s.numtrue.getD i 0 + 1) } := by
        unfold processGain
        rw [if_neg h0, if_neg h1]
      rw [hred]
      exact ⟨rfl, rfl, rfl⟩

theorem processLoss_numtrue_other (F : Formula) (v : Nat) (s : SState)
    (i k : Nat) (hk : k ≠ i) :
    (processLoss F v s i).numtrue.getD k 0 = s.numtrue.getD k 0 := by
  rw [(processLoss_fields F v s i).2.2]
  exact getD_set_ne _ _ _ _ _ (fun h => hk h.symm)

theorem processGain_numtrue_other (F : Formula) (v : Nat) (neg : Int)
    (s : SState) (i k : Nat) (hk : k ≠ i) :
    (processGain F v neg s i).numtrue.getD k 0 = s.numtrue.getD k 0 := by
  rw [(processGain_fields F v neg s i).2.2]
  exact getD_set_ne _ _ _ _ _ (fun h => hk h.symm)

theorem foldLossCost (F : Formula) (v : Nat) (valOld : List Bool)
    (hv1 : 1 ≤ v) (hv2 : v ≤ F.nvars) (L : List Nat) :
    ∀ s : SState, L.Nodup →
    s.cost.length = F.nvars + 1 → s.numtrue.length = F.nclauses →
    (∀ i ∈ L, i < F.nclauses ∧
      trueCount F s.val i + 1 = trueCount F valOld i ∧
      (trueCount F valOld i = 1 → (firstTrue F valOld i).map var = some v) ∧
      (∀ l ∈ clauseLits F i, var l ≤ F.nvars)) →
    (∀ i ∈ L, s.numtrue.getD i 0 = (trueCount F valOld i : Int)) →
    (L.foldl (processLoss F v) s).val = s.val ∧
    (L.foldl (processLoss F v) s).cost.length = s.cost.length ∧
    (L.foldl (processLoss F v) s).numtrue.length = s.numtrue.length ∧
    (∀ k, k ∉ L →
      (L.foldl (processLoss F v) s).numtrue.getD k 0 = s.numtrue.getD k 0) ∧
    (∀ u, 1 ≤ u → u ≤ F.nvars →
      (L.foldl (processLoss F v) s).cost.getD u 0 =
        s.cost.getD u 0 + (L.map (fun i =>
          (if contrib F s.val i u then (1 : Int) else 0) -
            (if contrib F valOld i u then (1 : Int) else 0))).sum) := by
  induction L with
  | nil =>
    intro s hnd hcl hnl hent hnum
    exact ⟨rfl, rfl, rfl, fun k _ => rfl, fun u h1 h2 => by simp⟩
  | cons i t ih =>
    intro s hnd hcl hnl hent hnum
    have hnd2 := List.nodup_cons.mp hnd
    obtain ⟨hi, htc, hu1, hwfc⟩ := hent i (List.mem_cons_self i t)
    obtain ⟨hval1, hclen1, hnum1⟩ := processLoss_fields F v s i
    have hcost1 := lossCost F v s i valOld hcl hnl hi hv1 hv2
      (hnum i (List.mem_cons_self i t)) (by omega) htc hu1 hwfc
    obtain ⟨g1, g2, g3, g4, g5⟩ := ih (processLoss F v s i) hnd2.2
      (by rw [hclen1]; exact hcl)
      (by rw [hnum1]; simp; exact hnl)
      (by
        intro j hj
        obtain ⟨p1, p2, p3, p4⟩ := hent j (List.mem_cons_of_mem i hj)
        rw [hval1]
        exact ⟨p1, p2, p3, p4⟩)
      (by
        intro j hj
        have hji : j ≠ i := by
          intro h
          rw [h] at hj
          exact hnd2.1 hj
        rw [processLoss_numtrue_other F v s i j hji]
        exact hnum j (List.mem_cons_of_mem i hj))
    rw [List.foldl_cons]
    refine ⟨by rw [g1, hval1], by rw [g2, hclen1], ?_, ?_, ?_⟩
    · rw [g3, hnum1]
      simp
    · intro k hk
      have hki : k ≠ i := by
        intro h
        rw [h] at hk
        exact hk (List.mem_cons_self i t)
      rw [g4 k (fun h => hk (List.mem_cons_of_mem i h)),
        processLoss_numtrue_other F v s i k hki]
    · intro u h1 h2
      rw [g5 u h1 h2, hcost1 u h1 h2, List.map_cons, List.sum_cons, hval1]
      ring

theorem foldGainCost (F : Formula) (v : Nat) (neg : Int) (valOld : List Bool)
    (hv1 : 1 ≤ v) (hv2 : v ≤ F.nvars) (L : List Nat) :
    ∀ s : SState, L.Nodup →
    s.cost.length = F.nvars + 1 →
    (∀ i ∈ L, i < F.nclauses ∧
      trueCount F s.val i = trueCount F valOld i + 1 ∧
      (trueCount F valOld i = 0 → (firstTrue F s.val i).map var = some v) ∧
      (trueCount F valOld i = 1 →
        (clauseLits F i).find? (fun l => !(l == neg) && is_true s.val l) =
          firstTrue F valOld i) ∧
      (∀ l ∈ clauseLits F i, var l ≤ F.nvars)) →
    (∀ i ∈ L, s.numtrue.getD i 0 = (trueCount F valOld i : Int)) →
    (L.foldl (processGain F v neg) s).val = s.val ∧
    (L.foldl (processGain F v neg) s).cost.length = s.cost.length ∧
    (∀ u, 1 ≤ u → u ≤ F.nvars →
      (L.foldl (processGain F v neg) s).cost.getD u 0 =
        s.cost.getD u 0 + (L.map (fun i =>
          (if contrib F s.val i u then (1 : Int) else 0) -
            (if contrib F valOld i u then (1 : Int) else 0))).sum) := by
  induction L with
  | nil =>
    intro s hnd hcl hent hnum
    exact ⟨rfl, rfl, fun u h1 h2 => by simp⟩
  | cons i t ih =>
    intro s hnd hcl hent hnum
    have hnd2 := List.nodup_cons.mp hnd
    obtain ⟨hi, htc, hu0, hu1, hwfc⟩ := hent i (List.mem_cons_self i t)
    obtain ⟨hval1, hclen1, hnum1⟩ := processGain_fields F v neg s i
    have hcost1 := gainCost F v neg s i valOld hcl hv1 hv2
      (hnum i (List.mem_cons_self i t)) htc hu0 hu1 hwfc
    obtain ⟨g1, g2, g3⟩ := ih (processGain F v neg s i) hnd2.2
      (by rw [hclen1]; exact hcl)
      (by
        intro j hj
        obtain ⟨p1, p2, p3, p4, p5⟩ := hent j (List.mem_cons_of_mem i hj)
        rw [hval1]
        exact ⟨p1, p2, p3, p4, p5⟩)
      (by
        intro j hj
        have hji : j ≠ i := by
          intro h
          rw [h] at hj
          exact hnd2.1 hj
        rw [processGain_numtrue_other F v neg s i j hji]
        exact hnum j (List.mem_cons_of_mem i hj))
    rw [List.foldl_cons]
    refine ⟨by rw [g1, hval1], by rw [g2, hclen1], ?_⟩
    intro u h1 h2
    rw [g3 u h1 h2, hcost1 u h1 h2, List.map_cons, List.sum_cons, hval1]
    ring

theorem sum_map_sub (l : List Nat) (f g : Nat → Int) :
    (l.map (fun k => f k - g k)).sum = (l.map f).sum - (l.map g).sum := by
  induction l with
  | nil => simp
  | cons y t ih =>
    simp [ih]
    ring

/-- The W5 update loops restore the cost invariant with respect to the
flipped assignment, provided every clause mentions each variable at most
once. `s1` is the state right after `val[v]` was flipped. -/
theorem flip_cost_aux (F : Formula) (s1 : SState) (pos : Int) (v : Nat)
    (valOld : List Bool)
    (hpz : pos ≠ 0) (hvarpos : var pos = v)
    (hv1 : 1 ≤ v) (hv2 : v ≤ F.nvars)
    (hvn : VarNodup F) (hwf : WfFormula F)
    (hcl : s1.cost.length = F.nvars + 1) (hnl : s1.numtrue.length = F.nclauses)
    (hnum : ∀ k, k < F.nclauses → s1.numtrue.getD k 0 = (trueCount F valOld k : Int))
    (hcost : ∀ u, 1 ≤ u → u ≤ F.nvars →
      s1.cost.getD u 0 = (critCount F valOld u : Int))
    (hA : is_true valOld pos = true) (hA2 : is_true valOld (-pos) = false)
    (hB : is_true s1.val pos = false) (hB2 : is_true s1.val (-pos) = true)
    (hoth : ∀ l : Int, l ≠ pos → l ≠ -pos → is_true s1.val l = is_true valOld l) :
    ∀ u, 1 ≤ u → u ≤ F.nvars →
      ((invclause F (-pos)).foldl (processGain F v (-pos))
        ((invclause F pos).foldl (processLoss F v) s1)).cost.getD u 0 =
      (critCount F s1.val u : Int) := by
  have hvar_neg : var (-pos) = v := by rw [var_neg]; exact hvarpos
  have hposneg : pos ≠ -pos := by omega
  have hkey : ∀ k, k < F.nclauses →
      (clauseLits F k).count pos + (clauseLits F k).count (-pos) ≤ 1 := by
    intro k hk
    have hnd := hvn k hk
    have h2c := two_count_le_countP (clauseLits F k) pos (-pos)
      (fun x => decide (var x = v)) hposneg (by simp [hvarpos]) (by simp [hvar_neg])
    rw [countP_var_eq_count_map] at h2c
    have hle := List.nodup_iff_count_le_one.mp hnd v
    omega
  have hAnodup : (invclause F pos).Nodup := by
    rw [List.nodup_iff_count_le_one]
    intro k
    rw [invclause_count]
    by_cases hk : k < F.nclauses
    · rw [if_pos hk]
      have := hkey k hk
      omega
    · rw [if_neg hk]
      omega
  have hBnodup : (invclause F (-pos)).Nodup := by
    rw [List.nodup_iff_count_le_one]
    intro k
    rw [invclause_count]
    by_cases hk : k < F.nclauses
    · rw [if_pos hk]
      have := hkey k hk
      omega
    · rw [if_neg hk]
      omega
  have hdisj : ∀ k, k ∈ invclause F pos → k ∉ invclause F (-pos) := by
    intro k hkA hkB
    obtain ⟨hk, hmemA⟩ := (invclause_mem F pos k).mp hkA
    obtain ⟨-, hmemB⟩ := (invclause_mem F (-pos) k).mp hkB
    have c1 : 0 < (clauseLits F k).count pos := List.count_pos_iff.mpr hmemA
    have c2 : 0 < (clauseLits F k).count (-pos) := List.count_pos_iff.mpr hmemB
    have := hkey k hk
    omega
  have hwfc : ∀ k, ∀ l ∈ clauseLits F k, var l ≤ F.nvars := by
    intro k l hlm
    exact (hwf l (clauseLits_subset F k l hlm)).2
  have hentA : ∀ i ∈ invclause F pos, i < F.nclauses ∧
      trueCount F s1.val i + 1 = trueCount F valOld i ∧
      (trueCount F valOld i = 1 → (firstTrue F valOld i).map var = some v) ∧
      (∀ l ∈ clauseLits F i, var l ≤ F.nvars) := by
    intro i hiA
    obtain ⟨hi, hmem⟩ := (invclause_mem F pos i).mp hiA
    have c1 : 0 < (clauseLits F i).count pos := List.count_pos_iff.mpr hmem
    have c2 : (clauseLits F i).count (-pos) = 0 := by
      have := hkey i hi
      omega
    have cpos1 : (clauseLits F i).count pos = 1 := by
      have := hkey i hi
      omega
    have hflipc := countP_flip (clauseLits F i) valOld s1.val pos hpz hA hB hA2 hB2 hoth
    rw [cpos1, c2] at hflipc
    refine ⟨hi, ?_, ?_, hwfc i⟩
    · unfold trueCount
      omega
    · intro ht1
      have hfind : (clauseLits F i).find? (fun l => is_true valOld l) = some pos := by
        apply find?_of_countP_one
        · unfold trueCount at ht1
          exact ht1
        · exact hmem
        · exact hA
      unfold firstTrue
      rw [hfind]
      simp [hvarpos]
  have hentB : ∀ i ∈ invclause F (-pos), i < F.nclauses ∧
      trueCount F s1.val i = trueCount F valOld i + 1 ∧
      (trueCount F valOld i = 0 → (firstTrue F s1.val i).map var = some v) ∧
      (trueCount F valOld i = 1 →
        (clauseLits F i).find? (fun l => !(l == -pos) && is_true s1.val l) =
          firstTrue F valOld i) ∧
      (∀ l ∈ clauseLits F i, var l ≤ F.nvars) := by
    intro i hiB
    obtain ⟨hi, hmem⟩ := (invclause_mem F (-pos) i).mp hiB
    have c1 : 0 < (clauseLits F i).count (-pos) := List.count_pos_iff.mpr hmem
    have c2 : (clauseLits F i).count pos = 0 := by
      have := hkey i hi
      omega
    have hposnot : pos ∉ clauseLits F i := by
      rw [← List.count_eq_zero]
      exact c2
    have cneg1 : (clauseLits F i).count (-pos) = 1 := by
      have := hkey i hi
      omega
    have hflipc := countP_flip (clauseLits F i) valOld s1.val pos hpz hA hB hA2 hB2 hoth
    rw [cneg1, c2] at hflipc
    refine ⟨hi, ?_, ?_, ?_, hwfc i⟩
    · unfold trueCount
      omega
    · intro ht0
      have htn1 : (clauseLits F i).countP (fun l => is_true s1.val l) = 1 := by
        unfold trueCount at ht0
        omega
      have hfind : (clauseLits F i).find? (fun l => is_true s1.val l) = some (-pos) :=
        find?_of_countP_one _ _ _ htn1 hmem hB2
      unfold firstTrue
      rw [hfind]
      simp [hvar_neg]
    · intro ht1
      unfold firstTrue
      apply find?_congr_on
      intro l hlm
      by_cases hlneg : l = -pos
      · subst hlneg
        simp [hA2]
      · have hlpos : l ≠ pos := by
          intro h
          rw [h] at hlm
          exact hposnot hlm
        rw [hoth l hlpos hlneg]
        simp [hlneg]
  obtain ⟨aval, aclen, anlen, another, acost⟩ :=
    foldLossCost F v valOld hv1 hv2 (invclause F pos) s1 hAnodup hcl hnl hentA
      (fun i hiA => hnum i ((invclause_mem F pos i).mp hiA).1)
  obtain ⟨bval, bclen, bcost⟩ :=
    foldGainCost F v (-pos) valOld hv1 hv2 (invclause F (-pos))
      ((invclause F pos).foldl (processLoss F v) s1) hBnodup
      (by rw [aclen]; exact hcl)
      (by
        intro i hiB
        obtain ⟨p1, p2, p3, p4, p5⟩ := hentB i hiB
        rw [aval]
        exact ⟨p1, p2, p3, p4, p5⟩)
      (by
        intro i hiB
        have hnotA : i ∉ invclause F pos := by
          intro hiA
          exact hdisj i hiA hiB
        rw [another i hnotA]
        exact hnum i ((invclause_mem F (-pos) i).mp hiB).1)
  intro u h1u h2u
  rw [bcost u h1u h2u, acost u h1u h2u, aval]
  have hsum : (critCount F s1.val u : Int) - (critCount F valOld u : Int) =
      ((invclause F pos).map (fun i =>
        (if contrib F s1.val i u then (1 : Int) else 0) -
          (if contrib F valOld i u then (1 : Int) else 0))).sum +
      ((invclause F (-pos)).map (fun i =>
        (if contrib F s1.val i u then (1 : Int) else 0) -
          (if contrib F valOld i u then (1 : Int) else 0))).sum := by
    unfold critCount
    rw [countP_int_sum, countP_int_sum, ← sum_map_sub]
    have hpt : (List.range F.nclauses).map (fun k =>
        (if contrib F s1.val k u then (1 : Int) else 0) -
          (if contrib F valOld k u then (1 : Int) else 0)) =
        (List.range F.nclauses).map (fun k =>
          (if k ∈ invclause F pos then
            (if contrib F s1.val k u then (1 : Int) else 0) -
              (if contrib F valOld k u then (1 : Int) else 0) else 0) +
          (if k ∈ invclause F (-pos) then
            (if contrib F s1.val k u then (1 : Int) else 0) -
              (if contrib F valOld k u then (1 : Int) else 0) else 0)) := by
      apply List.map_congr_left
      intro k hk
      rw [List.mem_range] at hk
      by_cases hkA : k ∈ invclause F pos
      · rw [if_pos hkA, if_neg (hdisj k hkA)]
        ring
      · rw [if_neg hkA]
        by_cases hkB : k ∈ invclause F (-pos)
        · rw [if_pos hkB]
          ring
        · rw [if_neg hkB]
          have hposnot : pos ∉ clauseLits F k := by
            intro hmem
            exact hkA ((invclause_mem F pos k).mpr ⟨hk, hmem⟩)
          have hnegnot : -pos ∉ clauseLits F k := by
            intro hmem
            exact hkB ((invclause_mem F (-pos) k).mpr ⟨hk, hmem⟩)
          have hceq : contrib F s1.val k u = contrib F valOld k u := by
            unfold contrib trueCount firstTrue
            have hpeq : ∀ l ∈ clauseLits F k,
                is_true s1.val l = is_true valOld l := by
              intro l hlm
              apply hoth l
              · intro h
                rw [h] at hlm
                exact hposnot hlm
              · intro h
                rw [h] at hlm
                exact hnegnot hlm
            rw [List.countP_congr (fun x hx => by rw [hpeq x hx]),
              find?_congr_on (fun l => is_true s1.val l)
                (fun l => is_true valOld l) _ hpeq]
          rw [hceq]
          ring
    rw [hpt, sum_map_add,
      sum_range_ite_mem F.nclauses (invclause F pos) _ hAnodup
        (fun a ha => ((invclause_mem F pos a).mp ha).1),
      sum_range_ite_mem F.nclauses (invclause F (-pos)) _ hBnodup
        (fun a ha => ((invclause_mem F (-pos) a).mp ha).1)]
  rw [hcost u h1u h2u]
  omega

/-- One full W5 flip keeps the cost invariant, provided the formula is
well-formed and no clause mentions a variable twice. -/
theorem flip_CostInv (F : Formula) (s : SState) (choice : Int)
    (hwf : WfFormula F) (hvn : VarNodup F)
    (h1 : 1 ≤ var choice) (h2 : var choice ≤ F.nvars)
    (hinv : StateInv F s) (hc : CostInv F s) :
    CostInv F (flipStep F s choice) := by
  obtain ⟨⟨hvl, hcl, hnl, hwl⟩, hnt, hl, hz⟩ := hinv
  have hvlen : var choice < s.val.length := by omega
  obtain ⟨hvp, hA, hA2, hB, hB2, hclass⟩ :=
    flip_facts s.val choice (var choice) rfl h1 hvlen
  have hflip : flipStep F s choice =
      (invclause F
        (-(if s.val.getD (var choice) false = decide (0 < choice) then choice
           else -choice))).foldl
        (processGain F (var choice)
          (-(if s.val.getD (var choice) false = decide (0 < choice) then choice
             else -choice)))
        ((invclause F
          (if s.val.getD (var choice) false = decide (0 < choice) then choice
           else -choice)).foldl
          (processLoss F (var choice))
          { s with val := s.val.set (var choice) (!s.val.getD (var choice) false) }) := by
    unfold flipStep
    rfl
  have hpz : (if s.val.getD (var choice) false = decide (0 < choice) then choice
      else -choice) ≠ 0 := by
    intro hzero
    rw [hzero] at hvp
    simp [var] at hvp
    unfold var at h1
    omega
  have hoth : ∀ l : Int,
      l ≠ (if s.val.getD (var choice) false = decide (0 < choice) then choice
        else -choice) →
      l ≠ -(if s.val.getD (var choice) false = decide (0 < choice) then choice
        else -choice) →
      is_true ({ s with
        val := s.val.set (var choice) (!s.val.getD (var choice) false) }
          : SState).val l = is_true s.val l := by
    intro l hl1 hl2
    by_cases hlz : l = 0
    · subst hlz
      rw [is_true_zero, is_true_zero]
    · by_cases hlv : var l = var choice
      · rcases hclass l hlv with h | h
        · exact absurd h hl1
        · exact absurd h hl2
      · exact is_true_set_other s.val (var choice) _ l hlv
  obtain ⟨hval3, -, -, -, -, -, -⟩ :=
    flip_inv_aux F
      { s with val := s.val.set (var choice) (!s.val.getD (var choice) false) }
      (if s.val.getD (var choice) false = decide (0 < choice) then choice
        else -choice)
      (var choice) s.val hpz (by simpa using hwl) (by simpa using hnl)
      hl hz (fun k hk => hnt k hk) hA hA2 hB hB2 hoth
  have hcost3 :=
    flip_cost_aux F
      { s with val := s.val.set (var choice) (!s.val.getD (var choice) false) }
      (if s.val.getD (var choice) false = decide (0 < choice) then choice
        else -choice)
      (var choice) s.val hpz hvp h1 h2 hvn hwf
      (by simpa using hcl) (by simpa using hnl)
      (fun k hk => hnt k hk) (fun u a b => hc u a b) hA hA2 hB hB2 hoth
  intro u hu1 hu2
  rw [hflip, hcost3 u hu1 hu2, hval3]

theorem filter_find?_of_countP_one {α : Type} (p : α → Bool) (l : List α)
    (h : l.countP p = 1) : ∃ e, l.filter p = [e] ∧ l.find? p = some e := by
  induction l with
  | nil => simp at h
  | cons a t ih =>
    by_cases hp : p a = true
    · rw [List.countP_cons_of_pos _ _ hp] at h
      have ht : t.countP p = 0 := by omega
      have htf : t.filter p = [] := by
        rw [List.countP_eq_length_filter] at ht
        exact List.eq_nil_of_length_eq_zero ht
      refine ⟨a, ?_, ?_⟩
      · rw [List.filter_cons_of_pos hp, htf]
      · rw [List.find?_cons_of_pos _ hp]
    · have hp' : ¬ p a = true := hp
      rw [List.countP_cons_of_neg _ _ hp'] at h
      obtain ⟨e, h1, h2⟩ := ih h
      refine ⟨e, ?_, ?_⟩
      · rw [List.filter_cons_of_neg hp']
        exact h1
      · rw [List.find?_cons_of_neg _ hp']
        exact h2

/-- The W1 body for clause `i` adds the `contrib` indicator of clause `i`
to `cost[u]`, for every variable `u` in range. -/
theorem initClause_cost (F : Formula) (s : SState) (i : Nat)
    (hwfc : ∀ l ∈ clauseLits F i, var l ≤ F.nvars)
    (hcl : s.cost.length = F.nvars + 1) :
    (initClause F s i).val = s.val ∧
    (initClause F s i).cost.length = F.nvars + 1 ∧
    (∀ u, 1 ≤ u → u ≤ F.nvars →
      (initClause F s i).cost.getD u 0 =
        s.cost.getD u 0 + (if contrib F s.val i u then (1 : Int) else 0)) := by
  by_cases h0 : (clauseLits F i).countP (fun l => is_true s.val l) = 0
  · have hred : initClause F s i =
        { s with
          numtrue := s.numtrue.set i
            (((clauseLits F i).countP (fun l => is_true s.val l) : Int))
          w := s.w.set i (some s.f.length)
          f := s.f ++ [i] } := by
      unfold initClause
      rw [if_pos h0]
    have hcontrib : ∀ u, contrib F s.val i u = false := by
      intro u
      have hne : trueCount F s.val i ≠ 1 := by
        unfold trueCount
        omega
      simp [contrib, hne]
    rw [hred]
    exact ⟨rfl, hcl, fun u _ _ => by rw [hcontrib u]; simp⟩
  · by_cases h1 : (clauseLits F i).countP (fun l => is_true s.val l) = 1
    · obtain ⟨e, hef, hefind⟩ :=
        filter_find?_of_countP_one (fun l => is_true s.val l) (clauseLits F i) h1
      have hemem : e ∈ clauseLits F i := by
        have : e ∈ (clauseLits F i).filter (fun l => is_true s.val l) := by
          rw [hef]
          exact List.mem_singleton_self e
        exact (List.mem_filter.mp this).1
      have hvare : var e ≤ F.nvars := hwfc e hemem
      have htl : ((((clauseLits F i).filter (fun l => is_true s.val l)).getLast?).map
          var).getD 0 = var e := by
        rw [hef]
        rfl
      have hred : initClause F s i =
          { s with
            numtrue := s.numtrue.set i
              (((clauseLits F i).countP (fun l => is_true s.val l) : Int))
            cost := s.cost.set (var e) (s.cost.getD (var e) 0 + 1) } := by
        unfold initClause
        rw [if_neg h0, if_pos h1, htl]
      have hcontrib : ∀ u, contrib F s.val i u = decide (var e = u) := by
        intro u
        have ht1 : trueCount F s.val i = 1 := h1
        unfold contrib firstTrue
        rw [ht1, hefind]
        simp
      rw [hred]
      refine ⟨rfl, by simp [hcl], ?_⟩
      intro u hu1 hu2
      by_cases hue : var e = u
      · subst hue
        rw [getD_set_self _ _ _ _ (by omega), hcontrib (var e)]
        simp
      · rw [getD_set_ne _ _ _ _ _ hue, hcontrib u]
        simp [hue]
    · have hred : initClause F s i =
          { s with
            numtrue := s.numtrue.set i
              (((clauseLits F i).countP (fun l => is_true s.val l) : Int)) } := by
        unfold initClause
        rw [if_neg h0, if_neg h1]
      have hcontrib : ∀ u, contrib F s.val i u = false := by
        intro u
        have hne : trueCount F s.val i ≠ 1 := h1
        simp [contrib, hne]
      rw [hred]
      exact ⟨rfl, hcl, fun u _ _ => by rw [hcontrib u]; simp⟩

theorem initFoldCost (F : Formula) (val : List Bool) (hwf : WfFormula F) :
    ∀ (m i : Nat) (s : SState), s.val = val →
    s.cost.length = F.nvars + 1 →
    ((List.range' i m).foldl (initClause F) s).cost.length = F.nvars + 1 ∧
    (∀ u, 1 ≤ u → u ≤ F.nvars →
      ((List.range' i m).foldl (initClause F) s).cost.getD u 0 =
        s.cost.getD u 0 +
          (((List.range' i m).countP (fun k => contrib F val k u)) : Int)) := by
  intro m
  induction m with
  | zero =>
    intro i s hv hc
    exact ⟨hc, fun u _ _ => by simp⟩
  | succ n ih =>
    intro i s hv hc
    obtain ⟨hval1, hclen1, hcost1⟩ := initClause_cost F s i
      (fun l hlm => (hwf l (clauseLits_subset F i l hlm)).2) hc
    obtain ⟨g1, g2⟩ := ih (i + 1) (initClause F s i) (by rw [hval1, hv]) hclen1
    constructor
    · rw [List.range'_succ, List.foldl_cons]
      exact g1
    · intro u h1u h2u
      rw [List.range'_succ, List.foldl_cons, g2 u h1u h2u, hcost1 u h1u h2u,
        List.countP_cons, hv]
      by_cases hcase : contrib F val i u = true
      · simp [hcase]
        ring
      · simp [hcase]

theorem init_CostInv (F : Formula) (val : List Bool) (hwf : WfFormula F) :
    CostInv F (initState F val) := by
  have hred : initState F val =
      (List.range' 0 F.nclauses).foldl (initClause F)
        { val := val, cost := List.replicate (F.nvars + 1) 0,
          numtrue := List.replicate F.nclauses 0, f := [],
          w := List.replicate F.nclauses none } := by
    unfold initState
    rw [List.range_eq_range']
  obtain ⟨hvalF, -, -, -, -, -, -⟩ := initFold F val F.nclauses 0
    { val := val, cost := List.replicate (F.nvars + 1) 0,
      numtrue := List.replicate F.nclauses 0, f := [],
      w := List.replicate F.nclauses none }
    (by omega) rfl (by simp) (by simp)
    (fun k hk => absurd hk (by omega))
    (fun k hk => absurd hk (by omega))
    (fun k _ => getD_replicate _ _ _)
    (by
      constructor
      · intro k j hkj
        rw [getD_replicate] at hkj
        cases hkj
      · intro j hj
        simp at hj)
  obtain ⟨-, hcost⟩ := initFoldCost F val hwf F.nclauses 0
    { val := val, cost := List.replicate (F.nvars + 1) 0,
      numtrue := List.replicate F.nclauses 0, f := [],
      w := List.replicate F.nclauses none } rfl (by simp)
  intro u h1u h2u
  rw [hred, hcost u h1u h2u]
  have hbase : (List.replicate (F.nvars + 1) (0 : Int)).getD u 0 = 0 :=
    getD_replicate _ _ _
  rw [hbase]
  have hvv : ((List.range' 0 F.nclauses).foldl (initClause F)
      { val := val, cost := List.replicate (F.nvars + 1) 0,
        numtrue := List.replicate F.nclauses 0, f := [],
        w := List.replicate F.nclauses none } : SState).val = val := hvalF
  rw [hvv]
  unfold critCount
  rw [List.range_eq_range']
  omega

theorem reach_CostInv (F : Formula) (s : SState) (hwf : WfFormula F)
    (hvn : VarNodup F) (hr : Reachable F s) : CostInv F s := by
  induction hr with
  | init val hlen => exact init_CostInv F val hwf
  | step s rs choice s' rs' hrs hstep ih =>
    have hinv := reach_StateInv F s hwf hrs
    obtain ⟨hs', hmem⟩ := loopOnce_spec F s rs choice s' rs' hinv hstep
    obtain ⟨hv1, hv2⟩ := hwf choice hmem
    rw [hs']
    exact flip_CostInv F s choice hwf hvn hv1 hv2 hinv ih

/-- C2: the claimed cost invariant as stated — including for formulas with
duplicated literals in a clause — is FALSE; the counterexample theorem
below exhibits a reachable state on such a formula where it fails, and the
spec's multiplicity note is thereby refuted. The amended claim proved
here: at every loop boundary, `cost[v]` equals the number of clauses with
`numtrue = 1` whose unique true literal's variable is `v`, for every
formula in which no clause mentions the same variable twice (no duplicated
literal and no tautological pair within a clause). -/
theorem walk_C2 (F : Formula) (s : SState) (hwf : WfFormula F)
    (hvn : VarNodup F) (hr : Reachable F s) : CostInv F s :=
  reach_CostInv F s hwf hvn hr

theorem walk_C2_witness :
    WfFormula Fone ∧ VarNodup Fone ∧
      CostInv Fone (initState Fone [false, false]) :=
  ⟨by unfold WfFormula; decide, by unfold VarNodup; decide,
    walk_C2 Fone (initState Fone [false, false])
      (by unfold WfFormula; decide) (by unfold VarNodup; decide)
      (Reachable.init [false, false] (by decide))⟩

/-- C2 counterexample: on `Fdup = (x1 OR x1) AND (NOT x1)` — a formula with
a duplicated literal, which the claim explicitly covers — the state `sDup`
is reachable (one W3-W5 iteration from the all-false initial assignment,
driven by the draws `rsDup`), yet `cost[1] = 1` while no clause has a
unique true literal (clause 0 has two true literals counting multiplicity,
clause 1 has none), so the invariant fails at a loop boundary. -/
theorem walk_C2_cex :
    Reachable Fdup sDup ∧ sDup.cost.getD 1 0 = 1 ∧
      critCount Fdup sDup.val 1 = 0 ∧ ¬ CostInv Fdup sDup := by
  have hreach : Reachable Fdup sDup :=
    Reachable.step (initState Fdup [false, false]) rsDup 1 sDup []
      (Reachable.init [false, false] (by decide))
      (by with_unfolding_all rfl)
  refine ⟨hreach, rfl, by decide, ?_⟩
  intro hc
  have h1 := hc 1 (Nat.le_refl 1) (by decide)
  rw [show sDup.cost.getD 1 0 = 1 from rfl,
    show critCount Fdup sDup.val 1 = 0 from by decide] at h1
  exact absurd h1 (by decide)

/-!
### The W4 choice distribution (claim C4)
-/

theorem w4min_some (m c : Int) : w4min (some m) c = min c m := by
  simp only [w4min, Int.min_def]
  by_cases h : c < m
  · rw [if_pos h, if_pos (le_of_lt h)]
  · rw [if_neg h]
    by_cases h2 : c ≤ m
    · rw [if_pos h2]
      omega
    · rw [if_neg h2]

theorem minO_eq_none_iff (p : List Int) : minO p = none ↔ p = [] := by
  cases p with
  | nil => simp [minO]
  | cons c cs =>
    simp only [minO]
    constructor
    · intro h
      cases hm : minO cs with
      | none => rw [hm] at h; cases h
      | some m => rw [hm] at h; cases h
    · intro h
      cases h

theorem minO_append (p : List Int) (c : Int) :
    minO (p ++ [c]) = some (w4min (minO p) c) := by
  induction p with
  | nil => rfl
  | cons a t ih =>
    show minO (a :: (t ++ [c])) = some (w4min (minO (a :: t)) c)
    cases hm : minO t with
    | none =>
      have ht : t = [] := (minO_eq_none_iff t).mp hm
      subst ht
      show some (min a c) = some (w4min (some a) c)
      rw [w4min_some, Int.min_comm]
    | some m =>
      rw [show minO (a :: (t ++ [c])) =
          (match minO (t ++ [c]) with
           | none => some a
           | some m2 => some (min a m2)) from rfl, ih, hm]
      rw [show minO (a :: t) =
          (match minO t with
           | none => some a
           | some m2 => some (min a m2)) from rfl, hm]
      show some (min a (w4min (some m) c)) = some (w4min (some (min a m)) c)
      rw [w4min_some, w4min_some]
      congr 1
      omega

theorem minO_le (p : List Int) (m : Int) (h : minO p = some m) :
    ∀ x ∈ p, m ≤ x := by
  induction p generalizing m with
  | nil => cases h
  | cons a t ih =>
    intro x hx
    rw [show minO (a :: t) =
        (match minO t with
         | none => some a
         | some m2 => some (min a m2)) from rfl] at h
    cases hm : minO t with
    | none =>
      rw [hm] at h
      injection h with h
      subst h
      have ht : t = [] := (minO_eq_none_iff t).mp hm
      subst ht
      rw [List.mem_singleton] at hx
      omega
    | some m2 =>
      rw [hm] at h
      injection h with h
      subst h
      rcases List.mem_cons.mp hx with rfl | hxt
      · omega
      · have := ih m2 hm x hxt
        omega

theorem minO_mem (p : List Int) (m : Int) (h : minO p = some m) : m ∈ p := by
  induction p generalizing m with
  | nil => cases h
  | cons a t ih =>
    rw [show minO (a :: t) =
        (match minO t with
         | none => some a
         | some m2 => some (min a m2)) from rfl] at h
    cases hm : minO t with
    | none =>
      rw [hm] at h
      injection h with h
      subst h
      exact List.mem_cons_self a t
    | some m2 =>
      rw [hm] at h
      injection h with h
      subst h
      by_cases hm2 : a ≤ m2
      · have hmin : min a m2 = a := by omega
        rw [hmin]
        exact List.mem_cons_self a t
      · have hmin : min a m2 = m2 := by omega
        rw [hmin]
        exact List.mem_cons_of_mem a (ih m2 hm)

theorem count_append_singleton (l : List Int) (c a : Int) :
    (l ++ [c]).count a = l.count a + if c = a then 1 else 0 := by
  rw [List.count_append]
  simp [List.count_cons, List.count_nil]

/-- A strict new minimum resets the reservoir: the mixed distribution with
weight `1/1` on the new position is the point mass there, which is the
uniform distribution over the (single) position attaining the new minimum. -/
theorem phiNewMin (hist : List Int) (d : DState) (c : Int)
    (hidx : d.idx = hist.length)
    (hgt : ∀ x ∈ hist, c < x) :
    ((1 : ℚ) / ((1 : Nat) : ℚ)) * (if (none : Option Nat) = some d.idx then 1 else 0) +
      (1 - 1 / ((1 : Nat) : ℚ)) * d.mu none = 0 ∧
    ∀ j, ((1 : ℚ) / ((1 : Nat) : ℚ)) * (if (some j : Option Nat) = some d.idx then 1 else 0) +
      (1 - 1 / ((1 : Nat) : ℚ)) * d.mu (some j) =
      if j < (hist ++ [c]).length ∧ (hist ++ [c]).getD j 1 = c
        then (((hist ++ [c]).count c : Nat) : ℚ)⁻¹ else 0 := by
  have hnotmem : c ∉ hist := by
    intro hmem
    exact absurd rfl (ne_of_gt (hgt c hmem))
  have hcnt : (hist ++ [c]).count c = 1 := by
    rw [count_append_singleton, List.count_eq_zero.mpr hnotmem]
    simp
  constructor
  · rw [if_neg (by simp)]
    norm_num
  · intro j
    rw [hcnt, hidx]
    have hlen : (hist ++ [c]).length = hist.length + 1 := by simp
    by_cases hj : j = hist.length
    · subst hj
      rw [if_pos rfl, if_pos ⟨by omega, by rw [getD_append_self]⟩]
      norm_num
    · rw [if_neg (by simpa using hj)]
      by_cases hjl : j < hist.length
      · rw [if_neg ?_]
        · norm_num
        · rintro ⟨-, hget⟩
          rw [getD_append_left _ _ _ _ hjl] at hget
          have hmem : hist.getD j 1 ∈ hist := by
            rw [List.getD_eq_getElem _ _ hjl]
            exact List.getElem_mem hjl
          exact absurd hget (ne_of_gt (hgt _ hmem))
      · rw [if_neg (by omega)]
        norm_num

/-- A tie with the running minimum joins the reservoir: mixing the point
mass on the new position with weight `1/(count+1)` into the uniform
distribution over the previous minimum positions gives the uniform
distribution over all `count+1` of them. -/
theorem phiTie (hist : List Int) (d : DState) (m0 : Int)
    (hidx : d.idx = hist.length)
    (hkO : d.k = hist.count m0 + 1)
    (hmuN : d.mu none = 0)
    (hmuJ : ∀ j, d.mu (some j) =
      if j < hist.length ∧ hist.getD j 1 = m0 then ((hist.count m0 : Nat) : ℚ)⁻¹ else 0)
    (hmem : m0 ∈ hist) :
    ((1 : ℚ) / (d.k : ℚ)) * (if (none : Option Nat) = some d.idx then 1 else 0) +
      (1 - 1 / (d.k : ℚ)) * d.mu none = 0 ∧
    ∀ j, ((1 : ℚ) / (d.k : ℚ)) * (if (some j : Option Nat) = some d.idx then 1 else 0) +
      (1 - 1 / (d.k : ℚ)) * d.mu (some j) =
      if j < (hist ++ [m0]).length ∧ (hist ++ [m0]).getD j 1 = m0
        then (((hist ++ [m0]).count m0 : Nat) : ℚ)⁻¹ else 0 := by
  have hcpos : 1 ≤ hist.count m0 := List.count_pos_iff.mpr hmem
  have hcnt : (hist ++ [m0]).count m0 = hist.count m0 + 1 := by
    rw [count_append_singleton, if_pos rfl]
  have hC : ((hist.count m0 : Nat) : ℚ) ≠ 0 := by
    rw [Nat.cast_ne_zero]
    omega
  have hC1 : ((hist.count m0 : Nat) : ℚ) + 1 ≠ 0 := by
    have : (0 : ℚ) ≤ ((hist.count m0 : Nat) : ℚ) := Nat.cast_nonneg _
    intro h
    rw [← h] at this
    nlinarith
  have hlen1 : (hist ++ [m0]).length = hist.length + 1 := by simp
  constructor
  · rw [if_neg (by simp), hmuN]
    ring
  · intro j
    rw [hcnt, hidx, hkO, hlen1]
    by_cases hj : j = hist.length
    · subst hj
      rw [if_pos rfl, hmuJ, if_neg (by omega), if_pos ⟨by omega, by rw [getD_append_self]⟩]
      push_cast
      field_simp
    · rw [if_neg (by simpa using hj), hmuJ]
      by_cases hjl : j < hist.length
      · by_cases hget : hist.getD j 1 = m0
        · rw [if_pos ⟨hjl, hget⟩,
            if_pos ⟨by omega, by rw [getD_append_left _ _ _ _ hjl]; exact hget⟩]
          push_cast
          field_simp
          ring
        · rw [if_neg (by tauto),
            if_neg (by rw [getD_append_left _ _ _ _ hjl]; tauto)]
          ring
      · rw [if_neg (by tauto), if_neg (by omega)]
        ring

/-- A literal not joining the reservoir leaves the distribution unchanged,
and it is still the uniform distribution over the minimum positions of the
extended history. -/
theorem phiSkip (hist : List Int) (d : DState) (c m0 : Int) (hne : c ≠ m0)
    (hmuJ : ∀ j, d.mu (some j) =
      if j < hist.length ∧ hist.getD j 1 = m0 then ((hist.count m0 : Nat) : ℚ)⁻¹ else 0) :
    ∀ j, d.mu (some j) =
      if j < (hist ++ [c]).length ∧ (hist ++ [c]).getD j 1 = m0
        then (((hist ++ [c]).count m0 : Nat) : ℚ)⁻¹ else 0 := by
  have hcnt : (hist ++ [c]).count m0 = hist.count m0 := by
    rw [count_append_singleton, if_neg hne]
    omega
  have hlen1 : (hist ++ [c]).length = hist.length + 1 := by simp
  intro j
  rw [hcnt, hmuJ, hlen1]
  by_cases hjl : j < hist.length
  · rw [getD_append_left _ _ _ _ hjl]
    by_cases hget : hist.getD j 1 = m0
    · rw [if_pos ⟨hjl, hget⟩, if_pos ⟨by omega, hget⟩]
    · rw [if_neg (by tauto), if_neg (by tauto)]
  · by_cases hj : j = hist.length
    · subst hj
      rw [if_neg (by omega), if_neg ?_]
      rintro ⟨-, hget⟩
      rw [getD_append_self] at hget
      exact hne hget
    · rw [if_neg (by omega), if_neg (by omega)]

/-- In `all` mode with every cost positive the reservoir counts every
literal: mixing the point mass on the new position with weight
`1/(len+1)` into the uniform distribution over the first `len` positions
gives the uniform distribution over all `len+1`. -/
theorem phiAll (hist : List Int) (d : DState) (c : Int)
    (hidx : d.idx = hist.length) (hlen : 1 ≤ hist.length)
    (hkO : d.k = hist.length + 1)
    (hmuN : d.mu none = 0)
    (hmuJ : ∀ j, d.mu (some j) =
      if j < hist.length then ((hist.length : Nat) : ℚ)⁻¹ else 0) :
    ((1 : ℚ) / (d.k : ℚ)) * (if (none : Option Nat) = some d.idx then 1 else 0) +
      (1 - 1 / (d.k : ℚ)) * d.mu none = 0 ∧
    ∀ j, ((1 : ℚ) / (d.k : ℚ)) * (if (some j : Option Nat) = some d.idx then 1 else 0) +
      (1 - 1 / (d.k : ℚ)) * d.mu (some j) =
      if j < (hist ++ [c]).length then (((hist ++ [c]).length : Nat) : ℚ)⁻¹ else 0 := by
  have hL : ((hist.length : Nat) : ℚ) ≠ 0 := by
    rw [Nat.cast_ne_zero]
    omega
  have hL1 : ((hist.length : Nat) : ℚ) + 1 ≠ 0 := by
    have : (0 : ℚ) ≤ ((hist.length : Nat) : ℚ) := Nat.cast_nonneg _
    intro h
    rw [← h] at this
    nlinarith
  have hlen1 : (hist ++ [c]).length = hist.length + 1 := by simp
  constructor
  · rw [if_neg (by simp), hmuN]
    ring
  · intro j
    rw [hlen1, hidx, hkO]
    by_cases hj : j = hist.length
    · subst hj
      rw [if_pos rfl, hmuJ, if_neg (by omega), if_pos (by omega)]
      push_cast
      field_simp
    · rw [if_neg (by simpa using hj), hmuJ]
      by_cases hjl : j < hist.length
      · rw [if_pos hjl, if_pos (by omega)]
        push_cast
        field_simp
        ring
      · rw [if_neg hjl, if_neg (by omega)]
        ring

/-- One step of the W4 scan preserves the reservoir-sampling invariant
(costs non-negative in `all` mode, as the program's costs are counts). -/
theorem distStep_PhiW4 (all : Bool) (hist : List Int) (d : DState) (c : Int)
    (hPhi : PhiW4 all hist d)
    (hc : all = true → 0 ≤ c)
    (hhist : all = true → ∀ x ∈ hist, 0 ≤ x) :
    PhiW4 all (hist ++ [c]) (distStep all d c) := by
  obtain ⟨hidx, hminC, hemp, hm⟩ := hPhi
  have hstep_idx : (distStep all d c).idx = d.idx + 1 := by
    unfold distStep
    split <;> rfl
  have hstep_minC : (distStep all d c).minC = some (w4min d.minC c) := by
    unfold distStep
    split <;> rfl
  have hstep_k_part : w4part all d.minC c = true →
      (distStep all d c).k = w4k all d.minC c d.k + 1 := by
    intro hp
    unfold distStep
    rw [if_pos hp]
  have hstep_k_nopart : w4part all d.minC c = false →
      (distStep all d c).k = w4k all d.minC c d.k := by
    intro hp
    unfold distStep
    rw [if_neg (by simp [hp])]
  have hstep_mu_part : w4part all d.minC c = true → ∀ r,
      (distStep all d c).mu r =
        (1 / (w4k all d.minC c d.k : ℚ)) * (if r = some d.idx then 1 else 0) +
          (1 - 1 / (w4k all d.minC c d.k : ℚ)) * d.mu r := by
    intro hp r
    unfold distStep
    rw [if_pos hp]
  have hstep_mu_nopart : w4part all d.minC c = false → ∀ r,
      (distStep all d c).mu r = d.mu r := by
    intro hp r
    unfold distStep
    rw [if_neg (by simp [hp])]
  by_cases hH : hist = []
  · subst hH
    obtain ⟨hk1, hmu⟩ := hemp rfl
    have hmc : d.minC = none := hminC
    have hidx0 : d.idx = 0 := hidx
    have hpart : w4part all d.minC c = true := by
      rw [hmc]
      simp [w4part, w4min]
    have hK1 : w4k all d.minC c d.k = 1 := by
      unfold w4k
      by_cases hr : w4reset all d.minC c = true
      · rw [if_pos hr]
      · rw [if_neg hr]
        exact hk1
    refine ⟨?_, ?_, ?_, ?_⟩
    · rw [hstep_idx, hidx0]
      simp
    · rw [hstep_minC, hmc]
      rfl
    · intro habs
      exact absurd habs (by simp)
    · intro m hmm
      have hmeq : c = m := by
        rw [show minO ([] ++ [c]) = some c from rfl] at hmm
        exact Option.some.inj hmm
      subst hmeq
      have hmuval : ∀ r, (distStep all d c).mu r = if r = some 0 then 1 else 0 := by
        intro r
        rw [hstep_mu_part hpart r, hK1, hidx0, hmu r]
        by_cases hr0 : r = some 0
        · rw [if_pos hr0, if_neg (show ¬ r = none by rw [hr0]; simp)]
          norm_num
        · rw [if_neg hr0]
          by_cases hrn : r = none
          · rw [if_pos hrn]
            norm_num
          · rw [if_neg hrn]
            norm_num
      constructor
      · rintro ⟨-, -⟩
        refine ⟨?_, ?_, ?_⟩
        · rw [hstep_k_part hpart, hK1]
          simp
        · rw [hmuval none]
          simp
        · intro j
          rw [hmuval (some j)]
          simp only [List.nil_append, List.length_cons, List.length_nil]
          by_cases hj : j = 0
          · subst hj
            norm_num
          · rw [if_neg (by simpa using hj), if_neg (by omega)]
      · intro hor
        have hcnt : (([] ++ [c] : List Int)).count c = 1 := by simp
        refine ⟨?_, ?_, ?_⟩
        · rw [hstep_k_part hpart, hK1, hcnt]
        · rw [hmuval none]
          simp
        · intro j
          rw [hmuval (some j), hcnt]
          by_cases hj : j = 0
          · subst hj
            rw [if_pos rfl, if_pos ⟨by simp, by simp⟩]
            norm_num
          · rw [if_neg (by simpa using hj), if_neg ?_]
            rintro ⟨h1, -⟩
            simp at h1
            omega
  · obtain ⟨m0, hm0⟩ : ∃ m0, minO hist = some m0 := by
      cases hmo : minO hist with
      | none => exact absurd ((minO_eq_none_iff hist).mp hmo) hH
      | some m0 => exact ⟨m0, rfl⟩
    have hmc : d.minC = some m0 := by rw [hminC, hm0]
    have hlen1 : 1 ≤ hist.length := by
      have := List.length_pos.mpr hH
      omega
    obtain ⟨hall_old, hmin_old⟩ := hm m0 hm0
    have hminO' : minO (hist ++ [c]) = some (w4min (some m0) c) := by
      rw [minO_append, hm0]
    refine ⟨?_, ?_, ?_, ?_⟩
    · rw [hstep_idx, hidx]
      simp
    · rw [hstep_minC, hmc, hminO']
    · intro habs
      exact absurd habs (by simp)
    · intro m hmm
      have hmeq : m = w4min (some m0) c := by
        rw [hminO'] at hmm
        injection hmm with h
        exact h.symm
      subst hmeq
      constructor
      · rintro ⟨hat, hpos⟩
        have hminc : 0 < min c m0 := by rw [w4min_some] at hpos; exact hpos
        have h0m0 : 0 < m0 := by omega
        obtain ⟨hkO, hmuN, hmuJ⟩ := hall_old ⟨hat, h0m0⟩
        have hpart : w4part all d.minC c = true := by
          rw [hmc]
          simp [w4part, hat, hpos]
        have hreset : w4reset all d.minC c = false := by
          rw [hmc]
          have hne : ¬ w4min (some m0) c = 0 := by
            rw [w4min_some]
            omega
          simp [w4reset, hat, hne]
        have hKk : w4k all d.minC c d.k = d.k := by
          unfold w4k
          simp [hreset]
        obtain ⟨hN, hJ⟩ := phiAll hist d c hidx hlen1 hkO hmuN hmuJ
        refine ⟨?_, ?_, ?_⟩
        · rw [hstep_k_part hpart, hKk, hkO]
          simp
        · rw [hstep_mu_part hpart none, hKk]
          exact hN
        · intro j
          rw [hstep_mu_part hpart (some j), hKk]
          exact hJ j
      · intro hor
        cases all with
        | false =>
          obtain ⟨hkO, hmuN, hmuJ⟩ := hmin_old (Or.inl rfl)
          rcases lt_trichotomy c m0 with hlt | heq | hgt
          · have hm1 : w4min (some m0) c = c := by
              rw [w4min_some]
              omega
            have hpart : w4part false d.minC c = true := by
              rw [hmc]
              simp [w4part, hm1]
            have hreset : w4reset false d.minC c = true := by
              rw [hmc]
              simp [w4reset, hlt]
            have hK1 : w4k false d.minC c d.k = 1 := by
              unfold w4k
              simp [hreset]
            have hgtall : ∀ x ∈ hist, c < x :=
              fun x hx => lt_of_lt_of_le hlt (minO_le hist m0 hm0 x hx)
            have hnot : c ∉ hist := fun hmem => absurd rfl (ne_of_gt (hgtall c hmem))
            obtain ⟨hN, hJ⟩ := phiNewMin hist d c hidx hgtall
            refine ⟨?_, ?_, ?_⟩
            · rw [hstep_k_part hpart, hK1, hm1, count_append_singleton,
                List.count_eq_zero.mpr hnot]
              simp
            · rw [hstep_mu_part hpart none, hK1]
              exact hN
            · intro j
              rw [hstep_mu_part hpart (some j), hK1, hm1]
              exact hJ j
          · subst heq
            have hm1 : w4min (some c) c = c := by
              rw [w4min_some, min_self]
            have hpart : w4part false d.minC c = true := by
              rw [hmc]
              simp [w4part, hm1]
            have hreset : w4reset false d.minC c = false := by
              rw [hmc]
              simp [w4reset, lt_irrefl]
            have hKk : w4k false d.minC c d.k = d.k := by
              unfold w4k
              simp [hreset]
            have hmem : c ∈ hist := minO_mem hist c hm0
            obtain ⟨hN, hJ⟩ := phiTie hist d c hidx hkO hmuN hmuJ hmem
            refine ⟨?_, ?_, ?_⟩
            · rw [hstep_k_part hpart, hKk, hkO, hm1, count_append_singleton,
                if_pos rfl]
            · rw [hstep_mu_part hpart none, hKk]
              exact hN
            · intro j
              rw [hstep_mu_part hpart (some j), hKk, hm1]
              exact hJ j
          · have hne : c ≠ m0 := by omega
            have hm1 : w4min (some m0) c = m0 := by
              rw [w4min_some]
              omega
            have hpartF : w4part false d.minC c = false := by
              rw [hmc]
              simp [w4part, hm1, hne]
            have hresetF : w4reset false d.minC c = false := by
              rw [hmc]
              have hnlt : ¬ c < m0 := by omega
              simp [w4reset, hnlt]
            have hKk : w4k false d.minC c d.k = d.k := by
              unfold w4k
              simp [hresetF]
            have hJ := phiSkip hist d c m0 hne hmuJ
            refine ⟨?_, ?_, ?_⟩
            · rw [hstep_k_nopart hpartF, hKk, hkO, hm1, count_append_singleton,
                if_neg hne]
            · rw [hstep_mu_nopart hpartF none]
              exact hmuN
            · intro j
              rw [hstep_mu_nopart hpartF (some j), hm1]
              exact hJ j
        | true =>
          have hz : w4min (some m0) c = 0 := by
            rcases hor with h | h
            · exact absurd h (by decide)
            · exact h
          have h0c : 0 ≤ c := hc rfl
          have h0m0 : 0 ≤ m0 := hhist rfl m0 (minO_mem hist m0 hm0)
          have hminz : min c m0 = 0 := by rw [w4min_some] at hz; exact hz
          by_cases hm00 : m0 = 0
          · subst hm00
            obtain ⟨hkO, hmuN, hmuJ⟩ := hmin_old (Or.inr rfl)
            by_cases hc0 : c = 0
            · subst hc0
              have hm1 : w4min (some (0 : Int)) 0 = 0 := by
                rw [w4min_some, min_self]
              have hpart : w4part true d.minC 0 = true := by
                rw [hmc]
                simp [w4part, hm1]
              have hreset : w4reset true d.minC 0 = false := by
                rw [hmc]
                simp [w4reset, lt_irrefl]
              have hKk : w4k true d.minC 0 d.k = d.k := by
                unfold w4k
                simp [hreset]
              have hmem : (0 : Int) ∈ hist := minO_mem hist 0 hm0
              obtain ⟨hN, hJ⟩ := phiTie hist d 0 hidx hkO hmuN hmuJ hmem
              refine ⟨?_, ?_, ?_⟩
              · rw [hstep_k_part hpart, hKk, hkO, hm1, count_append_singleton,
                  if_pos rfl]
              · rw [hstep_mu_part hpart none, hKk]
                exact hN
              · intro j
                rw [hstep_mu_part hpart (some j), hKk, hm1]
                exact hJ j
            · have hm1 : w4min (some (0 : Int)) c = 0 := by
                rw [w4min_some]
                omega
              have hpartF : w4part true d.minC c = false := by
                rw [hmc]
                simp [w4part, hm1, hc0]
              have hresetF : w4reset true d.minC c = false := by
                rw [hmc]
                have hnlt : ¬ c < 0 := by omega
                simp [w4reset, hnlt]
              have hKk : w4k true d.minC c d.k = d.k := by
                unfold w4k
                simp [hresetF]
              have hJ := phiSkip hist d c 0 hc0 hmuJ
              refine ⟨?_, ?_, ?_⟩
              · rw [hstep_k_nopart hpartF, hKk, hkO, hm1, count_append_singleton,
                  if_neg hc0]
              · rw [hstep_mu_nopart hpartF none]
                exact hmuN
              · intro j
                rw [hstep_mu_nopart hpartF (some j), hm1]
                exact hJ j
          · have h0m0' : 0 < m0 := by omega
            obtain ⟨hkO, hmuN, hmuJ⟩ := hall_old ⟨rfl, h0m0'⟩
            have hc0 : c = 0 := by omega
            subst hc0
            have hm1 : w4min (some m0) 0 = 0 := by
              rw [w4min_some]
              omega
            have hpart : w4part true d.minC 0 = true := by
              rw [hmc]
              simp [w4part, hm1]
            have hreset : w4reset true d.minC 0 = true := by
              rw [hmc]
              simp [w4reset, hm1, h0m0']
            have hK1 : w4k true d.minC 0 d.k = 1 := by
              unfold w4k
              simp [hreset]
            have hgtall : ∀ x ∈ hist, (0 : Int) < x :=
              fun x hx => lt_of_lt_of_le h0m0' (minO_le hist m0 hm0 x hx)
            have hnot : (0 : Int) ∉ hist :=
              fun hmem => absurd rfl (ne_of_gt (hgtall 0 hmem))
            obtain ⟨hN, hJ⟩ := phiNewMin hist d 0 hidx hgtall
            refine ⟨?_, ?_, ?_⟩
            · rw [hstep_k_part hpart, hK1, hm1, count_append_singleton,
                List.count_eq_zero.mpr hnot]
              simp
            · rw [hstep_mu_part hpart none, hK1]
              exact hN
            · intro j
              rw [hstep_mu_part hpart (some j), hK1, hm1]
              exact hJ j

theorem distStep_idx (all : Bool) (d : DState) (c : Int) :
    (distStep all d c).idx = d.idx + 1 := by
  unfold distStep
  split <;> rfl

theorem distStep_minC (all : Bool) (d : DState) (c : Int) :
    (distStep all d c).minC = some (w4min d.minC c) := by
  unfold distStep
  split <;> rfl

theorem distStep_k_part (all : Bool) (d : DState) (c : Int)
    (hp : w4part all d.minC c = true) :
    (distStep all d c).k = w4k all d.minC c d.k + 1 := by
  unfold distStep
  rw [if_pos hp]

theorem distStep_k_nopart (all : Bool) (d : DState) (c : Int)
    (hp : w4part all d.minC c = false) :
    (distStep all d c).k = w4k all d.minC c d.k := by
  unfold distStep
  rw [if_neg (by simp [hp])]

theorem distStep_mu_part (all : Bool) (d : DState) (c : Int)
    (hp : w4part all d.minC c = true) (r : Option Nat) :
    (distStep all d c).mu r =
      (1 / (w4k all d.minC c d.k : ℚ)) * (if r = some d.idx then 1 else 0) +
        (1 - 1 / (w4k all d.minC c d.k : ℚ)) * d.mu r := by
  unfold distStep
  rw [if_pos hp]

theorem distStep_mu_nopart (all : Bool) (d : DState) (c : Int)
    (hp : w4part all d.minC c = false) (r : Option Nat) :
    (distStep all d c).mu r = d.mu r := by
  unfold distStep
  rw [if_neg (by simp [hp])]

theorem dInit_PhiW4 (all : Bool) : PhiW4 all [] dInit := by
  refine ⟨rfl, rfl, ?_, ?_⟩
  · intro _
    exact ⟨rfl, fun r => rfl⟩
  · intro m hm
    simp [minO] at hm

theorem distRun_PhiW4 : ∀ (cs : List Int) (all : Bool) (hist : List Int)
    (d : DState), PhiW4 all hist d →
    (all = true → ∀ c ∈ cs, 0 ≤ c) → (all = true → ∀ x ∈ hist, 0 ≤ x) →
    PhiW4 all (hist ++ cs) (distRun all cs d) := by
  intro cs
  induction cs with
  | nil =>
    intro all hist d h _ _
    simpa using h
  | cons c cs ih =>
    intro all hist d h hnn hhist
    have h1 := distStep_PhiW4 all hist d c h
      (fun ha => hnn ha c (List.mem_cons_self c cs)) hhist
    have h2 := ih all (hist ++ [c]) (distStep all d c) h1
      (fun ha x hx => hnn ha x (List.mem_cons_of_mem c hx))
      (fun ha x hx => by
        rcases List.mem_append.mp hx with hxh | hxc
        · exact hhist ha x hxh
        · rw [List.mem_singleton.mp hxc]
          exact hnn ha c (List.mem_cons_self c cs))
    rw [show hist ++ c :: cs = (hist ++ [c]) ++ cs by simp]
    exact h2

theorem sum_map_pairsplit (l : List (List Bool)) (t u : List Bool → List Bool)
    (F : List Bool → ℚ) :
    ((l.flatMap (fun x => [t x, u x])).map F).sum =
      (l.map (fun x => F (t x) + F (u x))).sum := by
  induction l with
  | nil => rfl
  | cons a s ih =>
    simp only [List.flatMap_cons, List.map_append, List.sum_append, List.map_cons,
      List.sum_cons, List.map_nil, List.sum_nil, ih]
    ring

theorem sum_map_affine {α : Type} (l : List α) (f g : α → ℚ) (a b : ℚ) :
    (l.map (fun x => a * f x + b * g x)).sum = a * (l.map f).sum + b * (l.map g).sum := by
  induction l with
  | nil => simp
  | cons x s ih =>
    simp only [List.map_cons, List.sum_cons, ih]
    ring

theorem distRun_mu_affine : ∀ (cs : List Int) (all : Bool) (d1 d2 d3 : DState)
    (a : ℚ), d1.minC = d2.minC → d2.minC = d3.minC →
    d1.k = d2.k → d2.k = d3.k → d1.idx = d2.idx → d2.idx = d3.idx →
    (∀ x, d1.mu x = a * d2.mu x + (1 - a) * d3.mu x) →
    ∀ r, (distRun all cs d1).mu r =
      a * (distRun all cs d2).mu r + (1 - a) * (distRun all cs d3).mu r := by
  intro cs
  induction cs with
  | nil =>
    intro all d1 d2 d3 a hm1 hm2 hk1 hk2 hi1 hi2 hmu r
    exact hmu r
  | cons c cs ih =>
    intro all d1 d2 d3 a hm1 hm2 hk1 hk2 hi1 hi2 hmu r
    show (distRun all cs (distStep all d1 c)).mu r =
      a * (distRun all cs (distStep all d2 c)).mu r +
        (1 - a) * (distRun all cs (distStep all d3 c)).mu r
    apply ih
    · rw [distStep_minC, distStep_minC, hm1]
    · rw [distStep_minC, distStep_minC, hm2]
    · by_cases hp : w4part all d1.minC c = true
      · rw [distStep_k_part all d1 c hp, distStep_k_part all d2 c (by rw [← hm1]; exact hp),
          hm1, hk1]
      · have hpf : w4part all d1.minC c = false := by
          cases hb : w4part all d1.minC c
          · rfl
          · exact absurd hb hp
        rw [distStep_k_nopart all d1 c hpf,
          distStep_k_nopart all d2 c (by rw [← hm1]; exact hpf), hm1, hk1]
    · by_cases hp : w4part all d2.minC c = true
      · rw [distStep_k_part all d2 c hp, distStep_k_part all d3 c (by rw [← hm2]; exact hp),
          hm2, hk2]
      · have hpf : w4part all d2.minC c = false := by
          cases hb : w4part all d2.minC c
          · rfl
          · exact absurd hb hp
        rw [distStep_k_nopart all d2 c hpf,
          distStep_k_nopart all d3 c (by rw [← hm2]; exact hpf), hm2, hk2]
    · rw [distStep_idx, distStep_idx, hi1]
    · rw [distStep_idx, distStep_idx, hi2]
    · intro x
      by_cases hp : w4part all d1.minC c = true
      · rw [distStep_mu_part all d1 c hp x,
          distStep_mu_part all d2 c (by rw [← hm1]; exact hp) x,
          distStep_mu_part all d3 c (by rw [← hm2, ← hm1]; exact hp) x,
          hmu x, ← hm1, ← hm2, ← hm1, hi1, hi2, hk1, hk2]
        ring
      · have hpf : w4part all d1.minC c = false := by
          cases hb : w4part all d1.minC c
          · rfl
          · exact absurd hb hp
        rw [distStep_mu_nopart all d1 c hpf x,
          distStep_mu_nopart all d2 c (by rw [← hm1]; exact hpf) x,
          distStep_mu_nopart all d3 c (by rw [← hm2, ← hm1]; exact hpf) x,
          hmu x]

/-- The probability-weighted sum over all coin outcomes of the W4 scan
equals the distribution-transformer semantics run from the matching state. -/
theorem coin_bridge : ∀ (cs : List Int) (all : Bool) (m0 : Option Int)
    (k idx : Nat) (ch : Option Nat) (r : Option Nat) (d : DState),
    d.minC = m0 → d.k = k → d.idx = idx →
    (∀ x, d.mu x = if x = ch then 1 else 0) →
    ((allBoolLists (npart all cs m0)).map (fun coins =>
      coinWgt all cs m0 k coins *
        (if coinScan all cs m0 ch k idx coins = r then 1 else 0))).sum =
    (distRun all cs d).mu r := by
  intro cs
  induction cs with
  | nil =>
    intro all m0 k idx ch r d hdm hdk hdi hmu0
    rw [show distRun all [] d = d from rfl]
    simp only [npart, allBoolLists, List.map_cons, List.map_nil, List.sum_cons,
      List.sum_nil, coinWgt, coinScan]
    rw [hmu0 r]
    by_cases hch : ch = r
    · subst hch
      simp
    · rw [if_neg hch, if_neg (fun h => hch h.symm)]
      ring
  | cons c cs ih =>
    intro all m0 k idx ch r d hdm hdk hdi hmu0
    by_cases hp : w4part all m0 c = true
    · have hp' : w4part all d.minC c = true := by rw [hdm]; exact hp
      have hnp : npart all (c :: cs) m0 = npart all cs (some (w4min m0 c)) + 1 := by
        simp only [npart]
        rw [if_pos hp]
      have hwgt_t : ∀ x, coinWgt all (c :: cs) m0 k (true :: x) =
          (1 / (w4k all m0 c k : ℚ)) * coinWgt all cs (some (w4min m0 c))
            (w4k all m0 c k + 1) x := by
        intro x
        simp only [coinWgt]
        rw [if_pos hp]
        rfl
      have hwgt_f : ∀ x, coinWgt all (c :: cs) m0 k (false :: x) =
          (1 - 1 / (w4k all m0 c k : ℚ)) * coinWgt all cs (some (w4min m0 c))
            (w4k all m0 c k + 1) x := by
        intro x
        simp only [coinWgt]
        rw [if_pos hp]
        rfl
      have hscan_t : ∀ x, coinScan all (c :: cs) m0 ch k idx (true :: x) =
          coinScan all cs (some (w4min m0 c)) (some idx)
            (w4k all m0 c k + 1) (idx + 1) x := by
        intro x
        simp only [coinScan]
        rw [if_pos hp]
        rfl
      have hscan_f : ∀ x, coinScan all (c :: cs) m0 ch k idx (false :: x) =
          coinScan all cs (some (w4min m0 c)) ch
            (w4k all m0 c k + 1) (idx + 1) x := by
        intro x
        simp only [coinScan]
        rw [if_pos hp]
        rfl
      rw [hnp,
        show allBoolLists (npart all cs (some (w4min m0 c)) + 1) =
          (allBoolLists (npart all cs (some (w4min m0 c)))).flatMap
            (fun l => [true :: l, false :: l]) from rfl,
        sum_map_pairsplit]
      have hfun : ∀ x ∈ allBoolLists (npart all cs (some (w4min m0 c))),
          (coinWgt all (c :: cs) m0 k (true :: x) *
            (if coinScan all (c :: cs) m0 ch k idx (true :: x) = r then 1 else 0)) +
          (coinWgt all (c :: cs) m0 k (false :: x) *
            (if coinScan all (c :: cs) m0 ch k idx (false :: x) = r then 1 else 0)) =
          (1 / (w4k all m0 c k : ℚ)) *
            (coinWgt all cs (some (w4min m0 c)) (w4k all m0 c k + 1) x *
              (if coinScan all cs (some (w4min m0 c)) (some idx)
                (w4k all m0 c k + 1) (idx + 1) x = r then 1 else 0)) +
          (1 - 1 / (w4k all m0 c k : ℚ)) *
            (coinWgt all cs (some (w4min m0 c)) (w4k all m0 c k + 1) x *
              (if coinScan all cs (some (w4min m0 c)) ch
                (w4k all m0 c k + 1) (idx + 1) x = r then 1 else 0)) := by
        intro x hx
        rw [hwgt_t x, hwgt_f x, hscan_t x, hscan_f x]
        ring
      rw [List.map_congr_left hfun, sum_map_affine,
        ih all (some (w4min m0 c)) (w4k all m0 c k + 1) (idx + 1) (some idx) r
          ⟨some (w4min m0 c), fun y => if y = some idx then 1 else 0,
            w4k all m0 c k + 1, idx + 1⟩ rfl rfl rfl (fun y => rfl),
        ih all (some (w4min m0 c)) (w4k all m0 c k + 1) (idx + 1) ch r
          ⟨some (w4min m0 c), fun y => if y = ch then 1 else 0,
            w4k all m0 c k + 1, idx + 1⟩ rfl rfl rfl (fun y => rfl)]
      have haff := distRun_mu_affine cs all (distStep all d c)
        ⟨some (w4min m0 c), fun y => if y = some idx then 1 else 0,
          w4k all m0 c k + 1, idx + 1⟩
        ⟨some (w4min m0 c), fun y => if y = ch then 1 else 0,
          w4k all m0 c k + 1, idx + 1⟩
        (1 / (w4k all m0 c k : ℚ))
        (by rw [distStep_minC, hdm])
        rfl
        (by rw [distStep_k_part all d c hp', hdm, hdk])
        rfl
        (by rw [distStep_idx, hdi])
        rfl
        (by
          intro x
          rw [distStep_mu_part all d c hp' x, hmu0 x, hdm, hdk, hdi])
        r
      rw [show distRun all (c :: cs) d = distRun all cs (distStep all d c) from rfl,
        haff]
    · have hpf : w4part all m0 c = false := by
        cases hb : w4part all m0 c
        · rfl
        · exact absurd hb hp
      have hp'f : w4part all d.minC c = false := by rw [hdm]; exact hpf
      have hnp : npart all (c :: cs) m0 = npart all cs (some (w4min m0 c)) := by
        simp only [npart]
        rw [if_neg (by simp [hpf])]
      have hwgt : ∀ x, coinWgt all (c :: cs) m0 k x =
          coinWgt all cs (some (w4min m0 c)) (w4k all m0 c k) x := by
        intro x
        simp only [coinWgt]
        rw [if_neg (by simp [hpf])]
      have hscan : ∀ x, coinScan all (c :: cs) m0 ch k idx x =
          coinScan all cs (some (w4min m0 c)) ch (w4k all m0 c k) (idx + 1) x := by
        intro x
        simp only [coinScan]
        rw [if_neg (by simp [hpf])]
      rw [hnp]
      have hfun : ∀ x ∈ allBoolLists (npart all cs (some (w4min m0 c))),
          coinWgt all (c :: cs) m0 k x *
            (if coinScan all (c :: cs) m0 ch k idx x = r then 1 else 0) =
          coinWgt all cs (some (w4min m0 c)) (w4k all m0 c k) x *
            (if coinScan all cs (some (w4min m0 c)) ch (w4k all m0 c k)
              (idx + 1) x = r then 1 else 0) := by
        intro x hx
        rw [hwgt x, hscan x]
      rw [List.map_congr_left hfun,
        show distRun all (c :: cs) d = distRun all cs (distStep all d c) from rfl]
      exact ih all (some (w4min m0 c)) (w4k all m0 c k) (idx + 1) ch r
        (distStep all d c)
        (by rw [distStep_minC, hdm])
        (by rw [distStep_k_nopart all d c hp'f, hdm, hdk])
        (by rw [distStep_idx, hdi])
        (fun x => by rw [distStep_mu_nopart all d c hp'f x, hmu0 x])

/-- The coin-stream probability of each W4 outcome coincides with the
distribution-transformer semantics started from the initial scan state. -/
theorem probOf_eq_distRun (all : Bool) (cs : List Int) (r : Option Nat) :
    probOf all cs r = (distRun all cs dInit).mu r := by
  unfold probOf
  exact coin_bridge cs all none 1 0 none r dInit rfl rfl rfl (fun x => rfl)

theorem chooseLitGo_some_stays (all : Bool) (cost : List Int) :
    ∀ (ls : List Int) (m0 : Option Int) (l : Int) (k : Nat) (rs : List Nat)
      (ch2 : Option Int) (rest : List Nat),
    chooseLitGo all cost ls m0 (some l) k rs = some (ch2, rest) → ch2 ≠ none := by
  intro ls
  induction ls with
  | nil =>
    intro m0 l k rs ch2 rest h
    have hred : chooseLitGo all cost [] m0 (some l) k rs = some (some l, rs) := rfl
    rw [hred] at h
    injection h with h
    injection h with h1 h2
    rw [← h1]
    simp
  | cons c t ih =>
    intro m0 l k rs ch2 rest h
    by_cases hp : w4part all m0 (cost.getD (var c) 0) = true
    · cases rs with
      | nil =>
        have hred : chooseLitGo all cost (c :: t) m0 (some l) k [] = none := by
          simp only [chooseLitGo]
          rw [if_pos hp]
        rw [hred] at h
        cases h
      | cons r rs1 =>
        have hred : chooseLitGo all cost (c :: t) m0 (some l) k (r :: rs1) =
            chooseLitGo all cost t (some (w4min m0 (cost.getD (var c) 0)))
              (if flipR r (1 / (w4k all m0 (cost.getD (var c) 0) k : ℚ))
                then some c else some l)
              (w4k all m0 (cost.getD (var c) 0) k + 1) rs1 := by
          simp only [chooseLitGo]
          rw [if_pos hp]
        rw [hred] at h
        by_cases hf : flipR r (1 / (w4k all m0 (cost.getD (var c) 0) k : ℚ)) = true
        · rw [if_pos hf] at h
          exact ih _ c _ rs1 ch2 rest h
        · rw [if_neg hf] at h
          exact ih _ l _ rs1 ch2 rest h
    · have hred : chooseLitGo all cost (c :: t) m0 (some l) k rs =
          chooseLitGo all cost t (some (w4min m0 (cost.getD (var c) 0))) (some l)
            (w4k all m0 (cost.getD (var c) 0) k) rs := by
        simp only [chooseLitGo]
        rw [if_neg hp]
      rw [hred] at h
      exact ih _ l _ rs ch2 rest h

/-- The first literal of the clause always participates in the W4 scan with
reservoir counter 1, and `flip(1.0/1)` always succeeds on a genuine `rand()`
value, so the scan of a non-empty clause never ends with `choice = lit_nil`. -/
theorem chooseLit_ne_nil (all : Bool) (cost : List Int) (c : Int) (ls : List Int)
    (rs : List Nat) (ch2 : Option Int) (rest : List Nat)
    (hrs : ∀ r ∈ rs, r ≤ RANDMAX)
    (h : chooseLitGo all cost (c :: ls) none none 1 rs = some (ch2, rest)) :
    ch2 ≠ none := by
  have hpart : w4part all none (cost.getD (var c) 0) = true := by
    simp [w4part, w4min]
  cases rs with
  | nil =>
    have hred : chooseLitGo all cost (c :: ls) none none 1 [] = none := by
      simp only [chooseLitGo]
      rw [if_pos hpart]
    rw [hred] at h
    cases h
  | cons r rs1 =>
    have hred : chooseLitGo all cost (c :: ls) none none 1 (r :: rs1) =
        chooseLitGo all cost ls (some (w4min none (cost.getD (var c) 0)))
          (if flipR r (1 / (w4k all none (cost.getD (var c) 0) 1 : ℚ))
            then some c else none)
          (w4k all none (cost.getD (var c) 0) 1 + 1) rs1 := by
      simp only [chooseLitGo]
      rw [if_pos hpart]
    rw [hred] at h
    have hK : w4k all none (cost.getD (var c) 0) 1 = 1 := by
      unfold w4k
      split <;> rfl
    have hflip : flipR r (1 / (w4k all none (cost.getD (var c) 0) 1 : ℚ)) = true := by
      rw [hK]
      unfold flipR
      rw [decide_eq_true_iff]
      have h1 : (r : ℚ) ≤ (RANDMAX : ℚ) := by
        exact_mod_cast hrs r (List.mem_cons_self r rs1)
      have h2 : (0 : ℚ) < (RANDMAX : ℚ) := by norm_num [RANDMAX]
      rw [div_le_iff h2]
      push_cast
      nlinarith
    rw [if_pos hflip] at h
    exact chooseLitGo_some_stays all cost ls _ c _ rs1 ch2 rest h

/-- C4: for a non-empty selected clause with the program's (non-negative)
costs, the W4 scan never ends with `choice = lit_nil`, and over the
idealized `flip` coins (the spec's Bernoulli reading of `flip(1.0/k)`), the
chosen position is distributed uniformly over all positions when `all` is
true and every cost is positive, and uniformly over the positions attaining
the minimum cost when `all` is false or the minimum cost is 0. `cs` is the
cost list `cost[var(l)]` read by the scan, `probOf` the total coin weight of
the runs ending at each position. -/
theorem walk_C4 (all : Bool) (cs : List Int) (hne : cs ≠ [])
    (hnn : all = true → ∀ x ∈ cs, 0 ≤ x) :
    probOf all cs none = 0 ∧
    (∀ m, minO cs = some m →
      ((all = true ∧ 0 < m) →
        ∀ j, probOf all cs (some j) =
          if j < cs.length then (cs.length : ℚ)⁻¹ else 0) ∧
      ((all = false ∨ m = 0) →
        ∀ j, probOf all cs (some j) =
          if j < cs.length ∧ cs.getD j 1 = m then (cs.count m : ℚ)⁻¹ else 0)) ∧
    (∀ (cost ls : List Int) (c : Int) (rs : List Nat) (ch2 : Option Int)
      (rest : List Nat), (∀ r ∈ rs, r ≤ RANDMAX) →
      chooseLitGo all cost (c :: ls) none none 1 rs = some (ch2, rest) →
      ch2 ≠ none) := by
  have hPhi : PhiW4 all cs (distRun all cs dInit) := by
    have hh := distRun_PhiW4 cs all [] dInit (dInit_PhiW4 all) hnn
      (by intro _ x hx; cases hx)
    simpa using hh
  obtain ⟨hidx, hminC, hemp, hm⟩ := hPhi
  obtain ⟨m0, hm0⟩ : ∃ m0, minO cs = some m0 := by
    cases hmo : minO cs with
    | none => exact absurd ((minO_eq_none_iff cs).mp hmo) hne
    | some m0 => exact ⟨m0, rfl⟩
  obtain ⟨hallb, hminb⟩ := hm m0 hm0
  refine ⟨?_, ?_, ?_⟩
  · rw [probOf_eq_distRun]
    by_cases hall : all = true
    · by_cases hz : 0 < m0
      · exact (hallb ⟨hall, hz⟩).2.1
      · have hm00 : m0 = 0 := by
          have := hnn hall m0 (minO_mem cs m0 hm0)
          omega
        exact (hminb (Or.inr hm00)).2.1
    · have hfa : all = false := by
        cases all
        · rfl
        · exact absurd rfl hall
      exact (hminb (Or.inl hfa)).2.1
  · intro m hmm
    have hmeq : m0 = m := by
      rw [hm0] at hmm
      exact Option.some.inj hmm
    subst hmeq
    constructor
    · intro hcond j
      rw [probOf_eq_distRun]
      exact (hallb hcond).2.2 j
    · intro hcond j
      rw [probOf_eq_distRun]
      exact (hminb hcond).2.2 j
  · intro cost ls c rs ch2 rest hrs h
    exact chooseLit_ne_nil all cost c ls rs ch2 rest hrs h

theorem walk_C4_witness :
    (([0, 1] : List Int) ≠ []) ∧
    (probOf false [0, 1] none = 0 ∧
      (∀ m, minO [0, 1] = some m →
        ((false = true ∧ 0 < m) →
          ∀ j, probOf false [0, 1] (some j) =
            if j < ([0, 1] : List Int).length
              then ((([0, 1] : List Int).length : Nat) : ℚ)⁻¹ else 0) ∧
        ((false = false ∨ m = 0) →
          ∀ j, probOf false [0, 1] (some j) =
            if j < ([0, 1] : List Int).length ∧ ([0, 1] : List Int).getD j 1 = m
              then ((([0, 1] : List Int).count m : Nat) : ℚ)⁻¹ else 0)) ∧
      (∀ (cost ls : List Int) (c : Int) (rs : List Nat) (ch2 : Option Int)
        (rest : List Nat), (∀ r ∈ rs, r ≤ RANDMAX) →
        chooseLitGo false cost (c :: ls) none none 1 rs = some (ch2, rest) →
        ch2 ≠ none)) :=
  ⟨by decide, walk_C4 false [0, 1] (by decide) (by intro h; cases h)⟩

/-!
### Printer, parser, driver and determinism claims (C6, C7, C8, C9, C10)
-/

/-- C6: the claim is FALSE of the code. `print_assignment` renders variable
`i` as the NEGATIVE literal `-i` when `val[i]` is true and as the positive
literal `i` when `val[i]` is false — the opposite of the claimed (and
spec-stated) polarity: with the one variable assigned true the printer
emits `"v -1 0\n"` where the claim requires `"v 1 0\n"`. The line structure
(`v` prefix, ` 0` terminator) is as claimed. -/
theorem walk_C6 :
    printAssignment 1 [false, true] = "v -1 0\n" ∧
    printAssignment 1 [false, false] = "v 1 0\n" ∧
    printAssignment 1 [false, true] ≠ "v 1 0\n" := by
  refine ⟨rfl, rfl, by decide⟩

theorem parseAux_none_aux :
    ∀ (toks : List Int) (acc : List Int),
    (∃ i, i < toks.length ∧ toks.getD i 1 = 0 ∧
      ((i = 0 ∧ acc = []) ∨ ∃ j, i = j + 1 ∧ toks.getD j 1 = 0)) →
    parseAux acc toks = none := by
  intro toks
  induction toks with
  | nil =>
    rintro acc ⟨i, hi, -, -⟩
    simp at hi
  | cons t rest ih =>
    rintro acc ⟨i, hi, hz, hcase⟩
    by_cases ht : t = 0
    · subst ht
      have hred : parseAux acc (0 :: rest) =
          if acc.isEmpty then none
          else (parseAux [] rest).map (fun cs => acc :: cs) := by
        simp only [parseAux]
        rw [if_pos trivial]
      rw [hred]
      by_cases hacc : acc.isEmpty = true
      · rw [if_pos hacc]
      · rw [if_neg hacc]
        rcases hcase with ⟨hi0, hacc0⟩ | ⟨j, hij, hj0⟩
        · rw [hacc0] at hacc
          simp at hacc
        · subst hij
          have hz2 : rest.getD j 1 = 0 := by simpa using hz
          have hi2 : j < rest.length := by
            simp at hi
            omega
          cases j with
          | zero =>
            rw [ih [] ⟨0, hi2, hz2, Or.inl ⟨rfl, rfl⟩⟩]
            rfl
          | succ j1 =>
            have hj02 : rest.getD j1 1 = 0 := by simpa using hj0
            rw [ih [] ⟨j1 + 1, hi2, hz2, Or.inr ⟨j1, rfl, hj02⟩⟩]
            rfl
    · have hred : parseAux acc (t :: rest) = parseAux (acc ++ [t]) rest := by
        simp only [parseAux]
        rw [if_neg ht]
      rw [hred]
      apply ih
      rcases hcase with ⟨hi0, -⟩ | ⟨j, hij, hj0⟩
      · subst hi0
        exact absurd (by simpa using hz) ht
      · subst hij
        have hz2 : rest.getD j 1 = 0 := by simpa using hz
        have hi2 : j < rest.length := by
          simp at hi
          omega
        cases j with
        | zero => exact absurd (by simpa using hj0) ht
        | succ j1 =>
          have hj02 : rest.getD j1 1 = 0 := by simpa using hj0
          exact ⟨j1 + 1, hi2, hz2, Or.inr ⟨j1, rfl, hj02⟩⟩

/-- C7: a clause stream containing an empty clause (a `0` token that is
first or follows another `0`) makes the clause-reading loop of `parse` take
the UNSAT exit, so whatever the solver would do, `main` reports UNSAT and
the W2 test is never reached. -/
theorem walk_C7 (nvars nclauses : Nat) (toks : List Int)
    (h : hasEmptyClause toks) :
    parseClauses toks = none ∧
    ∀ solver, mainModel solver nvars nclauses toks = RunResult.unsat := by
  have hnone : parseClauses toks = none := by
    unfold parseClauses
    apply parseAux_none_aux
    obtain ⟨i, hi, hz, hor⟩ := h
    refine ⟨i, hi, hz, ?_⟩
    rcases hor with hi0 | hprev
    · exact Or.inl ⟨hi0, rfl⟩
    · cases i with
      | zero => exact Or.inl ⟨rfl, rfl⟩
      | succ j => exact Or.inr ⟨j, rfl, by simpa using hprev⟩
  refine ⟨hnone, ?_⟩
  intro solver
  unfold mainModel
  rw [hnone]

theorem walk_C7_witness :
    hasEmptyClause [1, 0, 0, 2, 0] ∧
    (parseClauses [1, 0, 0, 2, 0] = none ∧
      ∀ solver, mainModel solver 2 2 [1, 0, 0, 2, 0] = RunResult.unsat) :=
  ⟨⟨2, by decide, by decide, Or.inr (by decide)⟩,
    walk_C7 2 2 [1, 0, 0, 2, 0] ⟨2, by decide, by decide, Or.inr (by decide)⟩⟩

/-- C10: when the parsed clause array is empty, `main`'s short-circuit
`c.clauses.empty() || solve(&c)` skips the solver entirely and the SAT exit
reports the zero-initialized assignment (every declared variable false),
whatever the solver would have returned. -/
theorem walk_C10 (nvars nclauses : Nat) (toks : List Int) (cls : List (List Int))
    (h1 : parseClauses toks = some cls) (h2 : cls.length = nclauses)
    (h3 : (buildFormula nvars cls).clauses = []) :
    ∀ solver, mainModel solver nvars nclauses toks =
      RunResult.sat (List.replicate (nvars + 1) false) := by
  intro solver
  have hred : mainModel solver nvars nclauses toks =
      if cls.length ≠ nclauses then RunResult.aborted
      else if (buildFormula nvars cls).clauses.isEmpty then
        RunResult.sat (List.replicate (nvars + 1) false)
      else
        match solver (buildFormula nvars cls) with
        | some v => RunResult.sat v
        | none => RunResult.looping := by
    unfold mainModel
    rw [h1]
  rw [hred, if_neg (by omega), if_pos (by rw [h3]; rfl)]

theorem walk_C10_witness :
    parseClauses [] = some [] ∧ ([] : List (List Int)).length = 0 ∧
      (buildFormula 3 []).clauses = [] ∧
      ∀ solver, mainModel solver 3 0 [] = RunResult.sat (List.replicate 4 false) :=
  ⟨rfl, rfl, rfl, walk_C10 3 0 [] [] rfl rfl rfl⟩

/-- C9: with a fixed seed that is not 0 the constructor ignores the wall
clock (`if (FLAGS_seed == 0) FLAGS_seed = time(NULL)` does not fire), so two
runs of `solve` draw the identical pseudo-random stream and produce the
identical result state and the identical flip trace. `prngNext`, `prngList`
and `effectiveSeed` model the libc `srand`/`rand`/`time` seeding, which is
not part of src. -/
theorem walk_C9 (F : Formula) (seed : Nat) (hseed : seed ≠ 0)
    (t1 t2 fuel draws : Nat) :
    prngList (effectiveSeed seed t1) draws = prngList (effectiveSeed seed t2) draws ∧
    runSolve F seed t1 fuel draws = runSolve F seed t2 fuel draws ∧
    runTrace F seed t1 fuel draws = runTrace F seed t2 fuel draws := by
  have he : effectiveSeed seed t1 = effectiveSeed seed t2 := by
    unfold effectiveSeed
    rw [if_neg hseed, if_neg hseed]
  refine ⟨by rw [he], ?_, ?_⟩
  · unfold runSolve
    rw [he]
  · unfold runTrace
    rw [he]

theorem walk_C9_witness :
    (1 : Nat) ≠ 0 ∧
    (prngList (effectiveSeed 1 17) 4 = prngList (effectiveSeed 1 99) 4 ∧
      runSolve Fone 1 17 3 4 = runSolve Fone 1 99 3 4 ∧
      runTrace Fone 1 17 3 4 = runTrace Fone 1 99 3 4) :=
  ⟨by decide, walk_C9 Fone 1 (by decide) 17 99 3 4⟩

/-- C8: `divisor = (RAND_MAX + 1) / |f|` is positive, every outcome
`q0 < |f|` is hit by exactly `divisor` many of the `RAND_MAX + 1` possible
draws (no modulo bias: the masses are exactly equal), any accepted draw is
below `|f|`, and the rejection loop terminates with an accepted draw as soon
as the stream contains one. -/
theorem walk_C8 (n : Nat) (h1 : 0 < n) (h2 : n ≤ RANDMAX + 1) :
    0 < (RANDMAX + 1) / n ∧
    (∀ q0, q0 < n →
      ((Finset.range (RANDMAX + 1)).filter
        (fun r => r / ((RANDMAX + 1) / n) = q0)).card = (RANDMAX + 1) / n) ∧
    (∀ rs q rest, chooseQ n rs = some (q, rest) → q < n) ∧
    (∀ rs r, r / ((RANDMAX + 1) / n) < n → r ∈ rs →
      ∃ q rest, chooseQ n rs = some (q, rest)) := by
  have hdiv : 0 < (RANDMAX + 1) / n := Nat.div_pos h2 h1
  refine ⟨hdiv, ?_, ?_, ?_⟩
  · intro q0 hq0
    have hfilter : (Finset.range (RANDMAX + 1)).filter
        (fun r => r / ((RANDMAX + 1) / n) = q0) =
        Finset.Ico (q0 * ((RANDMAX + 1) / n)) ((q0 + 1) * ((RANDMAX + 1) / n)) := by
      ext r
      simp only [Finset.mem_filter, Finset.mem_range, Finset.mem_Ico]
      constructor
      · rintro ⟨hr, hdq⟩
        constructor
        · have hml := Nat.div_mul_le_self r ((RANDMAX + 1) / n)
          rw [hdq] at hml
          exact hml
        · have hlt : r / ((RANDMAX + 1) / n) < q0 + 1 := by omega
          exact (Nat.div_lt_iff_lt_mul hdiv).mp hlt
      · rintro ⟨hlo, hhi⟩
        have hdq : r / ((RANDMAX + 1) / n) = q0 := Nat.div_eq_of_lt_le hlo hhi
        refine ⟨?_, hdq⟩
        have hle : (q0 + 1) * ((RANDMAX + 1) / n) ≤ n * ((RANDMAX + 1) / n) :=
          Nat.mul_le_mul_right _ (by omega)
        have hnd : n * ((RANDMAX + 1) / n) ≤ RANDMAX + 1 := by
          rw [Nat.mul_comm]
          exact Nat.div_mul_le_self (RANDMAX + 1) n
        omega
    rw [hfilter, Nat.card_Ico]
    have hmul : (q0 + 1) * ((RANDMAX + 1) / n) =
        q0 * ((RANDMAX + 1) / n) + ((RANDMAX + 1) / n) := by ring
    omega
  · exact fun rs q rest h => chooseQ_lt n rs q rest h
  · intro rs
    induction rs with
    | nil =>
      intro r h hmem
      cases hmem
    | cons a t ih =>
      intro r h hmem
      have hred : chooseQ n (a :: t) =
          if a / ((RANDMAX + 1) / n) < n
            then some (a / ((RANDMAX + 1) / n), t) else chooseQ n t := rfl
      rw [hred]
      by_cases ha : a / ((RANDMAX + 1) / n) < n
      · rw [if_pos ha]
        exact ⟨_, _, rfl⟩
      · rw [if_neg ha]
        rcases List.mem_cons.mp hmem with rfl | hmt
        · exact absurd h ha
        · exact ih r h hmt

theorem walk_C8_witness :
    0 < 2 ∧ 2 ≤ RANDMAX + 1 ∧
    (0 < (RANDMAX + 1) / 2 ∧
      (∀ q0, q0 < 2 →
        ((Finset.range (RANDMAX + 1)).filter
          (fun r => r / ((RANDMAX + 1) / 2) = q0)).card = (RANDMAX + 1) / 2) ∧
      (∀ rs q rest, chooseQ 2 rs = some (q, rest) → q < 2) ∧
      (∀ rs r, r / ((RANDMAX + 1) / 2) < 2 → r ∈ rs →
        ∃ q rest, chooseQ 2 rs = some (q, rest))) :=
  ⟨by decide, by decide, walk_C8 2 (by decide) (by decide)⟩
